import Mathlib

/-!
Verification of the Robin-Hood open-addressing hash map of `agb`
(`src/agb/src/hash_map.rs`), as a shallow embedding.

Modelling conventions:
* `HashType` (`u32`) values are `Nat` taken modulo `U32 = 2 ^ 32`; the wrapping
  `u32` addition `hash + distance as HashType` is embedded as addition followed
  by `% U32`.
* `usize` values are `Nat`.  `distance_to_initial_bucket : i32` is `Int`, with
  `-1` the "uninitialised" sentinel exactly as in the source.
* `MaybeUninit<K>` / `MaybeUninit<V>` payloads are `Option K` / `Option V`;
  `none` plays the role of uninitialised memory.
* Every `panic!` / failed `assert!` / `unwrap()` is an `Except.error` carrying
  the panic message of the source; `debug_assert!` lines (compiled out of
  release builds) are not modelled.
* The two unbounded source loops (the Robin-Hood insertion walk and the
  backward-shift deletion walk) are embedded with explicit fuel
  `capacity + 1`; fuel exhaustion is the distinct error `"fuel"`, and we prove
  that under the table invariants the fuel is never exhausted.
* The pluggable hasher (`BuildHasher`, external collaborator) is a function
  `K → Nat`; `hasher.finish() as u32` is modelled by reducing it `% U32`.
-/

namespace Agb

/-- `2 ^ 32`, the number of values of the `HashType` (`u32`) of the source. -/
def U32 : Nat := 4294967296

/-- `fast_mod(len, hash) = (hash as usize) & (len - 1)` from the source
(`hash_map.rs`, `fast_mod`).  The `debug_assert!` that `len` is a power of two
is compiled out of release builds and not modelled. -/
def fast_mod (len : Nat) (hash : Nat) : Nat := hash &&& (len - 1)

/-- `usize::is_power_of_two` (external library function used by the source):
true exactly on the powers of two, i.e. the nonzero numbers with a single set
bit (`n & (n - 1) == 0`). -/
def is_power_of_two (n : Nat) : Bool := n != 0 && n &&& (n - 1) == 0

/-- The `as HashType` cast of an `i32` displacement: non-negative displacements
are unchanged (they are always `< 2 ^ 31` in reachable states), and the cast is
embedded as the two's-complement representative modulo `2 ^ 32`. -/
def i32_as_u32 (d : Int) : Nat := (d % (U32 : Int)).toNat

/-- `Node<K, V>` from the source: a slot of the table.  `distance_to_initial_bucket
= -1` means the key and value are uninitialised (`none`); `≥ 0` means they are
initialised. -/
structure Node (K V : Type) where
  hash : Nat
  distance_to_initial_bucket : Int
  key : Option K
  value : Option V
deriving Repr, DecidableEq

namespace Node

variable {K V : Type}

/-- `Node::new()`. -/
def new : Node K V := ⟨0, -1, none, none⟩

/-- `Node::new_with(key, value, hash)`. -/
def new_with (key : K) (value : V) (hash : Nat) : Node K V :=
  ⟨hash, 0, some key, some value⟩

/-- `Node::has_value()`. -/
def has_value (n : Node K V) : Bool := 0 ≤ n.distance_to_initial_bucket

/-- `Node::get_distance()`. -/
def get_distance (n : Node K V) : Int := n.distance_to_initial_bucket

/-- `Node::value_ref()`. -/
def value_ref (n : Node K V) : Option V :=
  if 0 ≤ n.distance_to_initial_bucket then n.value else none

/-- `Node::key_ref()`. -/
def key_ref (n : Node K V) : Option K :=
  if 0 ≤ n.distance_to_initial_bucket then n.key else none

/-- `Node::take_key_value()`: moves out `(key, value, hash)` and marks the slot
uninitialised.  Returns the taken triple together with the slot left behind. -/
def take_key_value (n : Node K V) : Option ((K × V × Nat) × Node K V) :=
  if 0 ≤ n.distance_to_initial_bucket then
    match n.key, n.value with
    | some k, some v =>
        some ((k, v, n.hash),
          { n with key := none, value := none, distance_to_initial_bucket := -1 })
    | _, _ => none
  else none

/-- `Node::replace_value(value)`: swaps in a new value, returning the old one;
panics on an empty slot. -/
def replace_value (n : Node K V) (value : V) : Except String (V × Node K V) :=
  if 0 ≤ n.distance_to_initial_bucket then
    match n.value with
    | some old => .ok (old, { n with value := some value })
    | none => .error "Cannot replace an unininitalised node"
  else .error "Cannot replace an unininitalised node"

/-- `Node::replace(key, value)`: swaps in both key and value, returning the old
pair; panics on an empty slot. -/
def replace (n : Node K V) (key : K) (value : V) :
    Except String ((K × V) × Node K V) :=
  if 0 ≤ n.distance_to_initial_bucket then
    match n.key, n.value with
    | some ok, some ov => .ok ((ok, ov), { n with key := some key, value := some value })
    | _, _ => .error "Cannot replace an uninitialised node"
  else .error "Cannot replace an uninitialised node"

/-- `Node::increment_distance()`. -/
def increment_distance (n : Node K V) : Node K V :=
  { n with distance_to_initial_bucket := n.distance_to_initial_bucket + 1 }

/-- `Node::decrement_distance()`: panics if the displacement would go below
zero. -/
def decrement_distance (n : Node K V) : Except String (Node K V) :=
  let d := n.distance_to_initial_bucket - 1
  if d < 0 then .error "Cannot decrement distance to below 0"
  else .ok { n with distance_to_initial_bucket := d }

end Node

/-- `NodeStorage<K, V>` from the source. -/
structure NodeStorage (K V : Type) where
  nodes : List (Node K V)
  max_distance_to_initial_bucket : Int
  number_of_items : Nat
deriving Repr, DecidableEq

namespace NodeStorage

variable {K V : Type}

/-- `NodeStorage::capacity()`. -/
def capacity (s : NodeStorage K V) : Nat := s.nodes.length

/-- `NodeStorage::len()`. -/
def len (s : NodeStorage K V) : Nat := s.number_of_items

/-- `NodeStorage::with_size(capacity)`: `capacity` empty slots; panics unless
`capacity` is a power of two. -/
def with_size (capacity : Nat) : Except String (NodeStorage K V) :=
  if is_power_of_two capacity then
    .ok ⟨List.replicate capacity Node.new, 0, 0⟩
  else .error "Capacity must be a power of 2"

/-- The body of the `loop` of `NodeStorage::insert_new`, with explicit fuel.
State: current slots, current running maximum displacement, the walking
candidate node (`new_node`), and the location where the originally requested
key first landed (`usize::MAX` sentinel modelled as `none`).  Returns the final
slots, the final running maximum and `inserted_location`. -/
def insert_new_loop (cap : Nat) :
    Nat → List (Node K V) → Int → Node K V → Option Nat →
    Except String (List (Node K V) × Int × Nat)
  | 0, _, _, _, _ => .error "fuel"
  | fuel + 1, nodes, maxd, new_node, inserted =>
    match nodes[fast_mod cap ((new_node.hash + i32_as_u32 new_node.get_distance) % U32)]? with
    | none => .error "index out of bounds"
    | some current_node =>
      if current_node.has_value then
        if current_node.get_distance ≤ new_node.get_distance then
          insert_new_loop cap fuel
            (nodes.set
              (fast_mod cap ((new_node.hash + i32_as_u32 new_node.get_distance) % U32))
              new_node)
            (max current_node.increment_distance.get_distance maxd)
            current_node.increment_distance
            (some (inserted.getD
              (fast_mod cap ((new_node.hash + i32_as_u32 new_node.get_distance) % U32))))
        else
          insert_new_loop cap fuel nodes
            (max new_node.increment_distance.get_distance maxd)
            new_node.increment_distance inserted
      else
        .ok
          (nodes.set
            (fast_mod cap ((new_node.hash + i32_as_u32 new_node.get_distance) % U32))
            new_node,
           maxd,
           inserted.getD
             (fast_mod cap ((new_node.hash + i32_as_u32 new_node.get_distance) % U32)))

/-- `NodeStorage::insert_new(key, value, hash)`: precondition (enforced by the
caller and by a compiled-out `debug_assert!`) that there is space.  Runs the
Robin-Hood walk with fuel `capacity + 1` and increments the live count. -/
def insert_new (s : NodeStorage K V) (key : K) (value : V) (hash : Nat) :
    Except String (NodeStorage K V × Nat) :=
  match insert_new_loop s.capacity (s.capacity + 1) s.nodes
      s.max_distance_to_initial_bucket (Node.new_with key value hash) none with
  | .ok (nodes2, maxd2, loc) => .ok (⟨nodes2, maxd2, s.number_of_items + 1⟩, loc)
  | .error e => .error e

/-- The `loop` of `NodeStorage::remove_from_location`, with explicit fuel.
Mirrors the source exactly: examine the next slot (wrapping); if it is empty or
at displacement zero, take the payload out of the current slot and stop;
otherwise swap the two slots, decrement the displacement of the node now at the
current slot, and advance. -/
def remove_loop :
    Nat → List (Node K V) → Nat → Except String (V × List (Node K V))
  | 0, _, _ => .error "fuel"
  | fuel + 1, nodes, current_location =>
    match nodes[fast_mod nodes.length ((current_location + 1) % U32)]? with
    | none => .error "index out of bounds"
    | some next_node =>
      if next_node.has_value = false ∨ next_node.get_distance = 0 then
        match nodes[current_location]? with
        | none => .error "index out of bounds"
        | some cur =>
          match cur.take_key_value with
          | some ((_, v, _), emptied) => .ok (v, nodes.set current_location emptied)
          | none => .error "called `Option::unwrap()` on a `None` value"
      else
        match nodes[current_location]? with
        | none => .error "index out of bounds"
        | some cur =>
          match ((nodes.set current_location next_node).set
              (fast_mod nodes.length ((current_location + 1) % U32)) cur)[current_location]? with
          | none => .error "index out of bounds"
          | some atCur =>
            match atCur.decrement_distance with
            | .ok dec =>
                remove_loop fuel
                  (((nodes.set current_location next_node).set
                      (fast_mod nodes.length ((current_location + 1) % U32)) cur).set
                    current_location dec)
                  (fast_mod nodes.length ((current_location + 1) % U32))
            | .error e => .error e

/-- `NodeStorage::remove_from_location(location)`: decrement the live count and
run the backward-shift walk (fuel `capacity + 1`). -/
def remove_from_location (s : NodeStorage K V) (location : Nat) :
    Except String (V × NodeStorage K V) :=
  match remove_loop (s.capacity + 1) s.nodes location with
  | .ok (v, nodes2) =>
    .ok (v, ⟨nodes2, s.max_distance_to_initial_bucket, s.number_of_items - 1⟩)
  | .error e => .error e

/-- The `for` loop of `NodeStorage::get_location`: `remaining` probes left,
current probe offset `distance_to_initial_bucket`. -/
def get_location_loop [DecidableEq K] (nodes : List (Node K V)) (key : K)
    (hash : Nat) : Nat → Nat → Option Nat
  | 0, _ => none
  | remaining + 1, distance_to_initial_bucket =>
    match nodes[fast_mod nodes.length ((hash + distance_to_initial_bucket) % U32)]? with
    | none => none
    | some node =>
      match node.key_ref with
      | some node_key_ref =>
          if node_key_ref = key then
            some (fast_mod nodes.length ((hash + distance_to_initial_bucket) % U32))
          else get_location_loop nodes key hash remaining (distance_to_initial_bucket + 1)
      | none => none

/-- `NodeStorage::get_location(key, hash)`: probe offsets
`0..=max_distance_to_initial_bucket`. -/
def get_location [DecidableEq K] (s : NodeStorage K V) (key : K) (hash : Nat) :
    Option Nat :=
  if s.max_distance_to_initial_bucket < 0 then none
  else
    get_location_loop s.nodes key hash (s.max_distance_to_initial_bucket.toNat + 1) 0

/-- `NodeStorage::resized_to(new_size)`: build a fresh table and re-insert
every live entry, draining the old slots in storage order. -/
def resized_to (s : NodeStorage K V) (new_size : Nat) :
    Except String (NodeStorage K V) := do
  let init ← with_size new_size
  s.nodes.foldlM (fun acc node =>
    match node.take_key_value with
    | some ((key, value, hash), _) => do
        let (acc2, _) ← acc.insert_new key value hash
        pure acc2
    | none => pure acc) init

/-- `NodeStorage::replace_at_location(location, key, value)`. -/
def replace_at_location (s : NodeStorage K V) (location : Nat) (key : K)
    (value : V) : Except String (V × NodeStorage K V) :=
  match s.nodes[location]? with
  | none => .error "index out of bounds"
  | some node => do
    let (old, node2) ← node.replace key value
    .ok (old.2, { s with nodes := s.nodes.set location node2 })

end NodeStorage

/-- `HashMap<K, V, H>` from the source.  The stateless hashing capability `H`
is modelled as a stored function `K → Nat`. -/
structure HashMap (K V : Type) where
  nodes : NodeStorage K V
  hasher : K → Nat

namespace HashMap

variable {K V : Type}

/-- `HashMap::hash(key)`: run the hasher and truncate `as HashType` (`u32`). -/
def hash (m : HashMap K V) (key : K) : Nat := m.hasher key % U32

/-- `HashMap::len()`. -/
def len (m : HashMap K V) : Nat := m.nodes.len

/-- `HashMap::is_empty()`. -/
def is_empty (m : HashMap K V) : Bool := m.len == 0

/-- `HashMap::with_capacity(capacity)` (with the hasher supplied from
outside). -/
def with_capacity (hasher : K → Nat) (capacity : Nat) :
    Except String (HashMap K V) := do
  let nodes ← NodeStorage.with_size capacity
  .ok ⟨nodes, hasher⟩

/-- `HashMap::new()`: capacity 16. -/
def new (hasher : K → Nat) : Except String (HashMap K V) :=
  with_capacity hasher 16

/-- `HashMap::resize(new_size)`: panics when shrinking, no-op on equal
capacity, otherwise replace the storage by `resized_to`. -/
def resize (m : HashMap K V) (new_size : Nat) : Except String (HashMap K V) :=
  if new_size < m.nodes.capacity then
    .error "Can only increase the size of a hash map"
  else if new_size = m.nodes.capacity then .ok m
  else do
    let nodes2 ← m.nodes.resized_to new_size
    .ok { m with nodes := nodes2 }

/-- The final `self.nodes.nodes[location].value_mut().unwrap()` of
`HashMap::insert`: the returned mutable reference is modelled as the map
together with the location of the stored value. -/
def insert_result (m : HashMap K V) (location : Nat) :
    Except String (HashMap K V × Nat) :=
  match m.nodes.nodes[location]? with
  | none => .error "index out of bounds"
  | some node =>
    match node.value_ref with
    | some _ => .ok (m, location)
    | none => .error "called `Option::unwrap()` on a `None` value"

/-- `HashMap::insert(key, value)`. -/
def insert [DecidableEq K] (m : HashMap K V) (key : K) (value : V) :
    Except String (HashMap K V × Nat) := do
  let h := m.hash key
  match m.nodes.get_location key h with
  | some location => do
    let (_, nodes2) ← m.nodes.replace_at_location location key value
    insert_result { m with nodes := nodes2 } location
  | none => do
    let m2 ←
      if m.nodes.capacity * 85 / 100 ≤ m.len then m.resize (m.nodes.capacity * 2)
      else pure m
    let (nodes2, location) ← m2.nodes.insert_new key value h
    insert_result { m2 with nodes := nodes2 } location

/-- `HashMap::get(key)`. -/
def get [DecidableEq K] (m : HashMap K V) (key : K) : Option V :=
  (m.nodes.get_location key (m.hash key)).bind fun location =>
    (m.nodes.nodes[location]?).bind Node.value_ref

/-- `HashMap::remove(key)`. -/
def remove [DecidableEq K] (m : HashMap K V) (key : K) :
    Except String (Option V × HashMap K V) :=
  match m.nodes.get_location key (m.hash key) with
  | none => .ok (none, m)
  | some location => do
    let (v, nodes2) ← m.nodes.remove_from_location location
    .ok (some v, { m with nodes := nodes2 })

/-- `OccupiedEntry::insert(value)` (an `OccupiedEntry` is the map together with
the resolved `location` of its key): `Node::replace_value` at the entry's slot,
returning the previous value. -/
def occupied_entry_insert (m : HashMap K V) (location : Nat) (value : V) :
    Except String (V × HashMap K V) :=
  match m.nodes.nodes[location]? with
  | none => .error "index out of bounds"
  | some node => do
    let (old, node2) ← node.replace_value value
    .ok (old, { m with nodes := { m.nodes with nodes := m.nodes.nodes.set location node2 } })

/-- `OccupiedEntry::remove()`: `remove_from_location` at the entry's slot. -/
def occupied_entry_remove (m : HashMap K V) (location : Nat) :
    Except String (V × HashMap K V) := do
  let (v, nodes2) ← m.nodes.remove_from_location location
  .ok (v, { m with nodes := nodes2 })

end HashMap

/-- An abstract operation on the map, for the reference-model refinement. -/
inductive Op (K V : Type) where
  | ins (key : K) (value : V)
  | rem (key : K)
deriving Repr, DecidableEq

/-- Run a sequence of operations against the real map. -/
def runOps {K V : Type} [DecidableEq K] :
    HashMap K V → List (Op K V) → Except String (HashMap K V)
  | m, [] => .ok m
  | m, Op.ins k v :: rest => do
    let (m2, _) ← m.insert k v
    runOps m2 rest
  | m, Op.rem k :: rest => do
    let (_, m2) ← m.remove k
    runOps m2 rest

/-- The reference association-list model: most recent insert wins, a removed
key is absent.  The list never contains a key twice. -/
def Model (K V : Type) : Type := List (K × V)

/-- Model insert: bind `k` to `v`, dropping any earlier binding. -/
def modelInsert {K V : Type} [DecidableEq K] (k : K) (v : V) (l : Model K V) :
    Model K V :=
  (k, v) :: l.filter fun p => decide (p.1 ≠ k)

/-- Model remove: drop the binding of `k`, if any. -/
def modelRemove {K V : Type} [DecidableEq K] (k : K) (l : Model K V) :
    Model K V :=
  l.filter fun p => decide (p.1 ≠ k)

/-- Model lookup. -/
def modelGet {K V : Type} [DecidableEq K] (k : K) (l : Model K V) : Option V :=
  (l.find? fun p => decide (p.1 = k)).map Prod.snd

/-- Run a sequence of operations against the reference model. -/
def runModel {K V : Type} [DecidableEq K] :
    Model K V → List (Op K V) → Model K V
  | l, [] => l
  | l, Op.ins k v :: rest => runModel (modelInsert k v l) rest
  | l, Op.rem k :: rest => runModel (modelRemove k l) rest

/-! ## Invariants of the table -/

section Invariants

variable {K V : Type}

/-- The node stored at index `i` (defaulting to an empty node out of range). -/
def nodeAt (ns : List (Node K V)) (i : Nat) : Node K V := (ns[i]?).getD Node.new

/-- Occupancy of a node, as a proposition. -/
def Occ (n : Node K V) : Prop := n.has_value = true

instance {n : Node K V} : Decidable (Occ n) := by unfold Occ; infer_instance

/-- The displacement of a node as a natural number. -/
def distN (n : Node K V) : Nat := n.get_distance.toNat

/-- Number of occupied slots. -/
def countOcc (ns : List (Node K V)) : Nat := ns.countP fun n => n.has_value

/-- The table holds key `k` with value `v` in some slot. -/
def holdsKV (ns : List (Node K V)) (k : K) (v : V) : Prop :=
  ∃ i, i < ns.length ∧ (nodeAt ns i).key_ref = some k ∧ (nodeAt ns i).value_ref = some v

/-- The table holds key `k` in some slot. -/
def hasKey (ns : List (Node K V)) (k : K) : Prop :=
  ∃ i, i < ns.length ∧ (nodeAt ns i).key_ref = some k

/-- All well-formedness facts about a single (occupied) slot `i`:
the key/value payloads are initialised and the cached hash is the hash of the
key; the displacement is less than the capacity; walking back `displacement`
slots from `i` reaches the ideal bucket of the cached hash (stated forward:
ideal + displacement ≡ i); the displacement is bounded by the running maximum;
and the local Robin-Hood ordering: a slot at positive displacement is directly
preceded by an occupied slot whose displacement is at least one smaller. -/
def slotOK (hf : K → Nat) (cap : Nat) (ns : List (Node K V)) (maxd : Int)
    (i : Nat) : Prop :=
  Occ (nodeAt ns i) →
    (∃ k, (nodeAt ns i).key = some k ∧ (nodeAt ns i).hash = hf k % U32) ∧
    (nodeAt ns i).value.isSome = true ∧
    distN (nodeAt ns i) < cap ∧
    ((nodeAt ns i).hash + distN (nodeAt ns i)) % cap = i ∧
    (nodeAt ns i).get_distance ≤ maxd ∧
    (0 < (nodeAt ns i).get_distance →
      Occ (nodeAt ns ((i + cap - 1) % cap)) ∧
      (nodeAt ns i).get_distance - 1 ≤ (nodeAt ns ((i + cap - 1) % cap)).get_distance)

/-- The invariant of the slot array together with the running maximum
displacement. -/
structure TableInv (hf : K → Nat) (cap : Nat) (ns : List (Node K V))
    (maxd : Int) : Prop where
  hlen : ns.length = cap
  hdvd : cap ∣ U32
  hmax : 0 ≤ maxd
  hslots : ∀ i, i < cap → slotOK hf cap ns maxd i
  hdistinct : ∀ i, i < cap → ∀ j, j < cap → ∀ k : K,
    (nodeAt ns i).key_ref = some k → (nodeAt ns j).key_ref = some k → i = j

/-- The invariant of a `NodeStorage`. -/
structure SInv (hf : K → Nat) (s : NodeStorage K V) : Prop where
  tbl : TableInv hf s.capacity s.nodes s.max_distance_to_initial_bucket
  hcount : s.number_of_items = countOcc s.nodes
  hspace : s.number_of_items < s.capacity

/-- The invariant of a `HashMap`: its storage is invariant for its own
hasher. -/
def MapInv (m : HashMap K V) : Prop := SInv m.hasher m.nodes

end Invariants

/-! ## Arithmetic bridging lemmas -/

theorem U32_eq : U32 = 2 ^ 32 := by decide

theorem U32_pos : 0 < U32 := by decide

theorem pow_land_sub_one {k : Nat} : 2 ^ k &&& (2 ^ k - 1) = 0 := by
  apply Nat.eq_of_testBit_eq
  intro i
  rw [Nat.testBit_and, Nat.testBit_two_pow, Nat.testBit_two_pow_sub_one,
    Nat.zero_testBit]
  by_cases h : k = i
  · subst h
    simp
  · simp [h]

theorem land_sub_one_eq_zero :
    ∀ n : Nat, n ≠ 0 → n &&& (n - 1) = 0 → ∃ k, n = 2 ^ k := by
  intro n
  induction n using Nat.strong_induction_on with
  | _ n ih =>
    intro h0 h
    rcases Nat.lt_or_ge n 2 with h2 | h2
    · exact ⟨0, by omega⟩
    · by_cases hpar : n % 2 = 0
      · have hdiv0 : n / 2 ≠ 0 := by omega
        have hd : n / 2 &&& (n / 2 - 1) = 0 := by
          apply Nat.eq_of_testBit_eq
          intro i
          rw [Nat.zero_testBit, Nat.testBit_and]
          have e1 : Nat.testBit (n / 2) i = Nat.testBit n (i + 1) :=
            Nat.testBit_div_two n i
          have e2 : Nat.testBit (n / 2 - 1) i = Nat.testBit (n - 1) (i + 1) := by
            rw [show n / 2 - 1 = (n - 1) / 2 by omega]
            exact Nat.testBit_div_two (n - 1) i
          rw [e1, e2, ← Nat.testBit_and, h, Nat.zero_testBit]
        obtain ⟨k, hk⟩ := ih (n / 2) (by omega) hdiv0 hd
        refine ⟨k + 1, ?_⟩
        rw [Nat.pow_succ]
        omega
      · exfalso
        have hdiv0 : n / 2 ≠ 0 := by omega
        obtain ⟨j, hj, _⟩ := Nat.exists_most_significant_bit hdiv0
        have e1 : Nat.testBit n (j + 1) = true := by
          rw [← Nat.testBit_div_two]
          exact hj
        have e2 : Nat.testBit (n - 1) (j + 1) = true := by
          rw [← Nat.testBit_div_two, show (n - 1) / 2 = n / 2 by omega]
          exact hj
        have e3 := congrArg (fun x => Nat.testBit x (j + 1)) h
        simp only [Nat.testBit_and, Nat.zero_testBit, e1, e2] at e3
        simp at e3

theorem is_power_of_two_iff {n : Nat} :
    is_power_of_two n = true ↔ ∃ k, n = 2 ^ k := by
  unfold is_power_of_two
  rw [Bool.and_eq_true, bne_iff_ne, beq_iff_eq]
  constructor
  · rintro ⟨h0, h⟩
    exact land_sub_one_eq_zero n h0 h
  · rintro ⟨k, rfl⟩
    refine ⟨?_, pow_land_sub_one⟩
    have h2 : 0 < 2 ^ k := Nat.pow_pos (by omega)
    omega

theorem cap_pow_of_dvd {cap : Nat} (h : cap ∣ U32) : ∃ k, k ≤ 32 ∧ cap = 2 ^ k := by
  rw [U32_eq] at h
  obtain ⟨k, hk, rfl⟩ := (Nat.dvd_prime_pow Nat.prime_two).1 h
  exact ⟨k, hk, rfl⟩

theorem cap_pos_of_dvd {cap : Nat} (h : cap ∣ U32) : 0 < cap :=
  Nat.pos_of_dvd_of_pos h U32_pos

theorem fast_mod_eq_mod {cap x : Nat} (h : cap ∣ U32) :
    fast_mod cap (x % U32) = x % cap := by
  obtain ⟨k, _, rfl⟩ := cap_pow_of_dvd h
  unfold fast_mod
  rw [Nat.and_pow_two_sub_one_eq_mod, Nat.mod_mod_of_dvd _ h]

theorem i32_as_u32_of_nonneg {d : Int} (h0 : 0 ≤ d) (h1 : d < (U32 : Int)) :
    i32_as_u32 d = d.toNat := by
  unfold i32_as_u32
  rw [Int.emod_eq_of_lt h0 h1]

/-- The slot index computed inside the insertion walk, in plain `% cap` form. -/
theorem loc_eq {cap h : Nat} {d : Int} (hdvd : cap ∣ U32) (h0 : 0 ≤ d)
    (h1 : d < (U32 : Int)) :
    fast_mod cap ((h + i32_as_u32 d) % U32) = (h + d.toNat) % cap := by
  rw [i32_as_u32_of_nonneg h0 h1, fast_mod_eq_mod hdvd]

/-- The slot index computed inside `get_location`, in plain `% cap` form. -/
theorem locN_eq {cap h t : Nat} (hdvd : cap ∣ U32) :
    fast_mod cap ((h + t) % U32) = (h + t) % cap :=
  fast_mod_eq_mod hdvd

theorem add_mod_inj {cap h a b : Nat} (ha : a < cap) (hb : b < cap)
    (he : (h + a) % cap = (h + b) % cap) : a = b := by
  have h2 : a ≡ b [MOD cap] := Nat.ModEq.add_left_cancel' h he
  have h3 : a % cap = b % cap := h2
  rwa [Nat.mod_eq_of_lt ha, Nat.mod_eq_of_lt hb] at h3

/-- Stepping the probe location forward undoes the predecessor-index map. -/
theorem prev_of_succ_loc {cap h t : Nat} (hcap : 0 < cap) :
    ((h + (t + 1)) % cap + cap - 1) % cap = (h + t) % cap := by
  have h1 : (h + (t + 1)) % cap + cap - 1 = (h + (t + 1)) % cap + (cap - 1) := by
    omega
  rw [h1, Nat.mod_add_mod, show h + (t + 1) + (cap - 1) = h + t + cap by omega,
    Nat.add_mod_right]

/-! ## Basic node and slot-array lemmas -/

section Basic

variable {K V : Type}

theorem Occ_iff {n : Node K V} : Occ n ↔ 0 ≤ n.distance_to_initial_bucket := by
  unfold Occ Node.has_value
  simp

theorem not_Occ_iff {n : Node K V} : ¬ Occ n ↔ n.distance_to_initial_bucket < 0 := by
  rw [Occ_iff]
  omega

theorem key_ref_of_occ {n : Node K V} (h : Occ n) : n.key_ref = n.key := by
  rw [Occ_iff] at h
  unfold Node.key_ref
  simp [h]

theorem value_ref_of_occ {n : Node K V} (h : Occ n) : n.value_ref = n.value := by
  rw [Occ_iff] at h
  unfold Node.value_ref
  simp [h]

theorem key_ref_of_not_occ {n : Node K V} (h : ¬ Occ n) : n.key_ref = none := by
  rw [not_Occ_iff] at h
  have h2 : ¬ (0 ≤ n.distance_to_initial_bucket) := by omega
  unfold Node.key_ref
  simp [h2]

theorem value_ref_of_not_occ {n : Node K V} (h : ¬ Occ n) : n.value_ref = none := by
  rw [not_Occ_iff] at h
  have h2 : ¬ (0 ≤ n.distance_to_initial_bucket) := by omega
  unfold Node.value_ref
  simp [h2]

@[simp] theorem new_with_occ {k : K} {v : V} {h : Nat} :
    Occ (Node.new_with k v h) := by
  unfold Occ Node.new_with Node.has_value
  simp

@[simp] theorem not_occ_new : ¬ Occ (Node.new : Node K V) := by
  unfold Occ Node.new Node.has_value
  simp

theorem distN_eq {n : Node K V} (h : Occ n) :
    (n.get_distance : Int) = (distN n : Int) := by
  rw [Occ_iff] at h
  unfold distN Node.get_distance
  omega

theorem nodeAt_set_self {ns : List (Node K V)} {i : Nat} {a : Node K V}
    (h : i < ns.length) : nodeAt (ns.set i a) i = a := by
  unfold nodeAt
  rw [List.getElem?_set_self h]
  rfl

theorem nodeAt_set_ne {ns : List (Node K V)} {i j : Nat} {a : Node K V}
    (h : i ≠ j) : nodeAt (ns.set i a) j = nodeAt ns j := by
  unfold nodeAt
  rw [List.getElem?_set_ne h]

theorem nodeAt_getElem? {ns : List (Node K V)} {i : Nat} (h : i < ns.length) :
    ns[i]? = some (nodeAt ns i) := by
  unfold nodeAt
  rw [List.getElem?_eq_getElem h]
  rfl

theorem countOcc_set {ns : List (Node K V)} {i : Nat} {a : Node K V}
    (h : i < ns.length) :
    countOcc (ns.set i a) =
      (countOcc ns - if Occ (nodeAt ns i) then 1 else 0) +
        (if Occ a then 1 else 0) := by
  unfold countOcc
  rw [List.countP_set _ _ _ _ h]
  have h2 : ns[i] = nodeAt ns i := by
    unfold nodeAt
    rw [List.getElem?_eq_getElem h]
    rfl
  rw [h2]
  rfl

theorem countOcc_pos_of_occ {ns : List (Node K V)} {i : Nat}
    (hi : i < ns.length) (h : Occ (nodeAt ns i)) : 0 < countOcc ns := by
  unfold countOcc
  rw [List.countP_pos_iff]
  refine ⟨nodeAt ns i, ?_, h⟩
  unfold nodeAt
  rw [List.getElem?_eq_getElem hi]
  exact List.getElem_mem hi

/-- If fewer slots are occupied than the length, some slot is unoccupied. -/
theorem exists_not_occ {ns : List (Node K V)} (h : countOcc ns < ns.length) :
    ∃ j, j < ns.length ∧ ¬ Occ (nodeAt ns j) := by
  by_contra hno
  push_neg at hno
  have he : countOcc ns = ns.length := by
    unfold countOcc
    rw [List.countP_eq_length]
    intro a ha
    obtain ⟨i, hi, rfl⟩ := List.mem_iff_getElem.1 ha
    have h2 := hno i hi
    unfold Occ at h2
    unfold nodeAt at h2
    rwa [List.getElem?_eq_getElem hi] at h2
  omega

/-- If fewer slots are occupied than the length, some slot within the window of
`ns.length` consecutive (wrapping) positions starting anywhere is
unoccupied. -/
theorem exists_empty_probe {ns : List (Node K V)} (start : Nat)
    (h : countOcc ns < ns.length) :
    ∃ m, m < ns.length ∧ ¬ Occ (nodeAt ns ((start + m) % ns.length)) := by
  obtain ⟨j, hj, hocc⟩ := exists_not_occ h
  have hlen : 0 < ns.length := by omega
  refine ⟨(j + ns.length - start % ns.length) % ns.length, Nat.mod_lt _ hlen, ?_⟩
  have hs : start % ns.length < ns.length := Nat.mod_lt _ hlen
  have hdm : ns.length * (start / ns.length) + start % ns.length = start :=
    Nat.div_add_mod start ns.length
  have hidx : (start + (j + ns.length - start % ns.length) % ns.length) % ns.length
      = j := by
    rw [Nat.add_comm start, Nat.mod_add_mod, Nat.add_comm _ start,
      show start + (j + ns.length - start % ns.length)
        = ns.length * (start / ns.length) + (j + ns.length) by omega,
      Nat.mul_add_mod, Nat.add_mod_right, Nat.mod_eq_of_lt hj]
  rw [hidx]
  exact hocc

end Basic

/-! ## Characterisation of `get_location` -/

section GetLocation

variable {K V : Type} [DecidableEq K]

/-- Modelled from the claim (C4): the outcome of probing a single offset `t`
from the ideal index `hash mod capacity`.  `none` means "continue" (occupied,
non-matching key); `some none` means an empty slot was met, proving absence;
`some (some i)` means the key was found at slot `i`. -/
def probeOutcome (nodes : List (Node K V)) (key : K) (hash : Nat) (t : Nat) :
    Option (Option Nat) :=
  match (nodeAt nodes ((hash + t) % nodes.length)).key_ref with
  | none => some none
  | some k2 =>
    if k2 = key then some (some ((hash + t) % nodes.length)) else none

/-- Modelled from the claim (C4): probe offsets `0ᐧᐧmax_displacement`
(inclusive) in order and return the first decisive outcome; exhausting all
offsets also proves absence. -/
def get_location_spec (s : NodeStorage K V) (key : K) (hash : Nat) :
    Option Nat :=
  match (List.range (s.max_distance_to_initial_bucket.toNat + 1)).findSome?
      (probeOutcome s.nodes key hash) with
  | some r => r
  | none => none

theorem get_location_loop_eq_spec {nodes : List (Node K V)} {key : K}
    {hash : Nat} (hdvd : nodes.length ∣ U32) :
    ∀ r d, NodeStorage.get_location_loop nodes key hash r d =
      match (List.range' d r).findSome? (probeOutcome nodes key hash) with
      | some rr => rr
      | none => none := by
  intro r
  induction r with
  | zero => intro d; rfl
  | succ n ih =>
    intro d
    rw [List.range'_succ, List.findSome?_cons]
    unfold NodeStorage.get_location_loop
    rw [locN_eq hdvd]
    have hcap : 0 < nodes.length := cap_pos_of_dvd hdvd
    have hlt : (hash + d) % nodes.length < nodes.length := Nat.mod_lt _ hcap
    unfold probeOutcome
    cases hk : (nodeAt nodes ((hash + d) % nodes.length)).key_ref with
    | none => simp only [nodeAt_getElem? hlt, hk]
    | some x =>
      by_cases he : x = key
      · simp only [nodeAt_getElem? hlt, hk, he, if_true]
      · simp only [nodeAt_getElem? hlt, hk, he, if_false]
        exact ih (d + 1)

/-- The `get_location` walk, for any result, only reports slots that hold the
queried key. -/
theorem get_location_loop_some {nodes : List (Node K V)} {key : K}
    {hash : Nat} :
    ∀ r d i, NodeStorage.get_location_loop nodes key hash r d = some i →
      i < nodes.length ∧ (nodeAt nodes i).key_ref = some key := by
  intro r
  induction r with
  | zero => intro d i h; exact absurd h (by unfold NodeStorage.get_location_loop; simp)
  | succ n ih =>
    intro d i h
    unfold NodeStorage.get_location_loop at h
    cases hg : nodes[fast_mod nodes.length ((hash + d) % U32)]? with
    | none =>
      simp only [hg] at h
      exact Option.noConfusion h
    | some node =>
      simp only [hg] at h
      cases hk : node.key_ref with
      | none =>
        simp only [hk] at h
        exact Option.noConfusion h
      | some nk =>
        simp only [hk] at h
        by_cases he : nk = key
        · rw [if_pos he] at h
          cases h
          have hlt : fast_mod nodes.length ((hash + d) % U32) < nodes.length := by
            by_contra hge
            rw [List.getElem?_eq_none (by omega)] at hg
            cases hg
          refine ⟨hlt, ?_⟩
          have h2 : nodeAt nodes (fast_mod nodes.length ((hash + d) % U32)) = node := by
            unfold nodeAt
            rw [hg]
            rfl
          rw [h2, hk, he]
        · rw [if_neg he] at h
          exact ih (d + 1) i h

theorem get_location_some {s : NodeStorage K V} {key : K} {hash : Nat} {i : Nat}
    (h : s.get_location key hash = some i) :
    i < s.capacity ∧ (nodeAt s.nodes i).key_ref = some key := by
  unfold NodeStorage.get_location at h
  split at h
  · cases h
  · exact get_location_loop_some _ _ _ h

end GetLocation

/-! ## Lookup correctness under the table invariant -/

section Lookup

variable {K V : Type}

/-- Walking forward from the ideal bucket of an occupied slot, every probe
position up to its displacement is occupied, at displacement at least the probe
offset (a consequence of the local Robin-Hood ordering invariant). -/
theorem chain_occ {hf : K → Nat} {cap : Nat} {ns : List (Node K V)} {maxd : Int}
    (inv : TableInv hf cap ns maxd) {i : Nat} (hi : i < cap)
    (hocc : Occ (nodeAt ns i)) :
    ∀ t, t ≤ distN (nodeAt ns i) →
      Occ (nodeAt ns (((nodeAt ns i).hash + t) % cap)) ∧
      (t : Int) ≤ (nodeAt ns (((nodeAt ns i).hash + t) % cap)).get_distance := by
  have hcap : 0 < cap := cap_pos_of_dvd inv.hdvd
  obtain ⟨hwf, hvs, hdlt, hpos, hmaxb, hloc⟩ := inv.hslots i hi hocc
  suffices h : ∀ n t, t ≤ distN (nodeAt ns i) → distN (nodeAt ns i) - t = n →
      Occ (nodeAt ns (((nodeAt ns i).hash + t) % cap)) ∧
      (t : Int) ≤ (nodeAt ns (((nodeAt ns i).hash + t) % cap)).get_distance by
    intro t ht
    exact h (distN (nodeAt ns i) - t) t ht rfl
  intro n
  induction n with
  | zero =>
    intro t ht hn
    have ht2 : t = distN (nodeAt ns i) := by omega
    rw [ht2, hpos]
    have hdd := distN_eq hocc
    exact ⟨hocc, by omega⟩
  | succ n ih =>
    intro t ht hn
    have ht2 : t < distN (nodeAt ns i) := by omega
    obtain ⟨hocc2, hdist2⟩ := ih (t + 1) (by omega) (by omega)
    have hlt2 : ((nodeAt ns i).hash + (t + 1)) % cap < cap := Nat.mod_lt _ hcap
    obtain ⟨_, _, _, _, _, hloc2⟩ := inv.hslots _ hlt2 hocc2
    have hd2 : 0 < (nodeAt ns (((nodeAt ns i).hash + (t + 1)) % cap)).get_distance := by
      omega
    obtain ⟨hop, hod⟩ := hloc2 hd2
    rw [prev_of_succ_loc hcap] at hop hod
    exact ⟨hop, by omega⟩

/-- Under the invariant, `get_location` finds the slot of any stored key. -/
theorem get_location_loop_present [DecidableEq K]
    {hf : K → Nat} {cap : Nat} {ns : List (Node K V)} {maxd : Int}
    (inv : TableInv hf cap ns maxd) {i : Nat} {k : K} (hi : i < cap)
    (hocc : Occ (nodeAt ns i)) (hk : (nodeAt ns i).key = some k) :
    ∀ r t, t ≤ distN (nodeAt ns i) → distN (nodeAt ns i) - t < r →
      NodeStorage.get_location_loop ns k ((nodeAt ns i).hash) r t = some i := by
  have hcap : 0 < cap := cap_pos_of_dvd inv.hdvd
  have hdvd2 : ns.length ∣ U32 := by rw [inv.hlen]; exact inv.hdvd
  obtain ⟨hwf, hvs, hdlt, hpos, hmaxb, hloc⟩ := inv.hslots i hi hocc
  intro r
  induction r with
  | zero => intro t ht hr; omega
  | succ r ih =>
    intro t ht hr
    unfold NodeStorage.get_location_loop
    rw [locN_eq hdvd2, inv.hlen]
    have hlt : ((nodeAt ns i).hash + t) % cap < cap := Nat.mod_lt _ hcap
    have hlt2 : ((nodeAt ns i).hash + t) % cap < ns.length := by
      rw [inv.hlen]; exact hlt
    obtain ⟨hocc3, hdist3⟩ := chain_occ inv hi hocc t ht
    by_cases hteq : t = distN (nodeAt ns i)
    · subst hteq
      rw [hpos]
      have hi2 : i < ns.length := by rw [inv.hlen]; exact hi
      rw [nodeAt_getElem? hi2]
      simp only [key_ref_of_occ hocc, hk]
      simp
    · have ht4 : t < distN (nodeAt ns i) := by omega
      obtain ⟨k2, hk2, _⟩ := (inv.hslots _ hlt hocc3).1
      have hne : ¬ (k2 = k) := by
        intro he
        subst he
        have hij := inv.hdistinct _ hlt _ hi k2
          (by rw [key_ref_of_occ hocc3, hk2]) (by rw [key_ref_of_occ hocc, hk])
        have := add_mod_inj (show t < cap by omega) hdlt (by rw [hpos, hij])
        omega
      rw [nodeAt_getElem? hlt2]
      simp only [key_ref_of_occ hocc3, hk2]
      rw [if_neg hne]
      exact ih (t + 1) (by omega) (by omega)

/-- `get_location` never finds an absent key. -/
theorem get_location_loop_absent [DecidableEq K] {ns : List (Node K V)} {k : K}
    {hash : Nat} (habs : ¬ hasKey ns k) :
    ∀ r t, NodeStorage.get_location_loop ns k hash r t = none := by
  intro r
  induction r with
  | zero => intro t; rfl
  | succ r ih =>
    intro t
    unfold NodeStorage.get_location_loop
    cases hg : ns[fast_mod ns.length ((hash + t) % U32)]? with
    | none => simp
    | some node =>
      simp only
      cases hk : node.key_ref with
      | none => simp
      | some nk =>
        simp only
        by_cases he : nk = k
        · exfalso
          apply habs
          have hlt : fast_mod ns.length ((hash + t) % U32) < ns.length := by
            by_contra hge
            rw [List.getElem?_eq_none (by omega)] at hg
            cases hg
          refine ⟨_, hlt, ?_⟩
          have h2 : nodeAt ns (fast_mod ns.length ((hash + t) % U32)) = node := by
            unfold nodeAt
            rw [hg]
            rfl
          rw [h2, hk, he]
        · rw [if_neg he]
          exact ih (t + 1)

/-- Storage-level: under the invariant, looking up a stored key returns its
slot. -/
theorem get_location_present [DecidableEq K] {hf : K → Nat}
    {s : NodeStorage K V} (inv : SInv hf s) {i : Nat} {k : K}
    (hi : i < s.capacity) (hocc : Occ (nodeAt s.nodes i))
    (hk : (nodeAt s.nodes i).key = some k) :
    s.get_location k (hf k % U32) = some i := by
  have hmax := inv.tbl.hmax
  unfold NodeStorage.get_location
  rw [if_neg (by omega)]
  obtain ⟨k2, hk2, hh2⟩ := (inv.tbl.hslots i hi hocc).1
  have hk2k : k2 = k := by
    rw [hk2] at hk
    exact Option.some.inj hk
  have hh : (nodeAt s.nodes i).hash = hf k % U32 := by rw [hh2, hk2k]
  rw [← hh]
  have hmb := (inv.tbl.hslots i hi hocc).2.2.2.2.1
  have hdd := distN_eq hocc
  exact get_location_loop_present inv.tbl hi hocc hk _ 0 (Nat.zero_le _) (by omega)

/-- Storage-level: looking up an absent key returns `none`. -/
theorem get_location_absent [DecidableEq K] {s : NodeStorage K V} {k : K}
    {hash : Nat} (habs : ¬ hasKey s.nodes k) :
    s.get_location k hash = none := by
  unfold NodeStorage.get_location
  split
  · rfl
  · exact get_location_loop_absent habs _ 0

end Lookup

/-! ## The Robin-Hood insertion walk -/

section InsertWalk

variable {K V : Type}

@[simp] theorem increment_key {n : Node K V} : n.increment_distance.key = n.key := rfl

@[simp] theorem increment_value {n : Node K V} :
    n.increment_distance.value = n.value := rfl

@[simp] theorem increment_hash {n : Node K V} : n.increment_distance.hash = n.hash := rfl

theorem increment_get_distance {n : Node K V} :
    n.increment_distance.get_distance = n.get_distance + 1 := rfl

theorem Occ_increment {n : Node K V} (h : Occ n) : Occ n.increment_distance := by
  rw [Occ_iff] at h ⊢
  unfold Node.increment_distance
  simpa using by omega

theorem distN_increment {n : Node K V} (h : Occ n) :
    distN n.increment_distance = distN n + 1 := by
  rw [Occ_iff] at h
  unfold distN Node.increment_distance Node.get_distance
  simp
  omega

@[simp] theorem new_with_key {k : K} {v : V} {h : Nat} :
    (Node.new_with k v h).key = some k := rfl

@[simp] theorem new_with_value {k : K} {v : V} {h : Nat} :
    (Node.new_with k v h).value = some v := rfl

@[simp] theorem new_with_hash {k : K} {v : V} {h : Nat} :
    (Node.new_with k v h).hash = h := rfl

@[simp] theorem new_with_get_distance {k : K} {v : V} {h : Nat} :
    (Node.new_with k v h).get_distance = 0 := rfl

@[simp] theorem distN_new_with {k : K} {v : V} {h : Nat} :
    distN (Node.new_with k v h) = 0 := rfl

theorem all_occ_count {ns : List (Node K V)}
    (h : ∀ j, j < ns.length → Occ (nodeAt ns j)) : countOcc ns = ns.length := by
  unfold countOcc
  rw [List.countP_eq_length]
  intro a ha
  obtain ⟨i, hi, rfl⟩ := List.mem_iff_getElem.1 ha
  have h2 := h i hi
  unfold Occ at h2
  unfold nodeAt at h2
  rwa [List.getElem?_eq_getElem hi] at h2

theorem add_mod_offset_eq {L start j : Nat} (hL : 0 < L) (hj : j < L) :
    (start + (j + L - start % L) % L) % L = j := by
  have hs : start % L < L := Nat.mod_lt _ hL
  rw [Nat.add_comm start, Nat.mod_add_mod, Nat.add_comm _ start,
    show start + (j + L - start % L) = L * (start / L) + (j + L) by
      have := Nat.div_add_mod start L
      omega,
    Nat.mul_add_mod, Nat.add_mod_right, Nat.mod_eq_of_lt hj]

/-- The loop invariant of the Robin-Hood insertion walk of `insert_new`. -/
structure WalkInv (hf : K → Nat) (cap : Nat) (ns0 : List (Node K V)) (key0 : K)
    (v0 : V) (maxd0 : Int) (ns : List (Node K V)) (maxd : Int)
    (cand : Node K V) (inserted : Option Nat) : Prop where
  hlen : ns.length = cap
  hdvd : cap ∣ U32
  hmax0 : maxd0 ≤ maxd
  hmaxnn : 0 ≤ maxd
  hslots : ∀ i, i < cap → slotOK hf cap ns maxd i
  hdistinct : ∀ i, i < cap → ∀ j, j < cap → ∀ k : K,
    (nodeAt ns i).key_ref = some k → (nodeAt ns j).key_ref = some k → i = j
  cocc : Occ cand
  cwf : ∃ k, cand.key = some k ∧ cand.hash = hf k % U32
  cvs : cand.value.isSome = true
  cmax : cand.get_distance ≤ maxd
  crun : ∀ t, t < distN cand → Occ (nodeAt ns ((cand.hash + t) % cap))
  cprev : 0 < distN cand →
    ((distN cand : Int) - 1) ≤
      (nodeAt ns ((cand.hash + (distN cand - 1)) % cap)).get_distance
  cdist : ∀ i, i < cap → ∀ k : K, (nodeAt ns i).key_ref = some k →
    cand.key ≠ some k
  hkeys : ∀ (k : K) (v : V),
    (holdsKV ns k v ∨ (cand.key = some k ∧ cand.value = some v)) ↔
    (holdsKV ns0 k v ∨ (k = key0 ∧ v = v0))
  hcount : countOcc ns = countOcc ns0
  hins : ∀ l, inserted = some l →
    l < cap ∧ Occ (nodeAt ns l) ∧ (nodeAt ns l).value.isSome = true

/-- Under the walk invariant, the candidate's displacement stays below the
capacity as long as some slot is free. -/
theorem crun_bound {hf : K → Nat} {cap : Nat} {ns0 : List (Node K V)} {key0 : K}
    {v0 : V} {maxd0 : Int} {ns : List (Node K V)} {maxd : Int} {cand : Node K V}
    {inserted : Option Nat}
    (W : WalkInv hf cap ns0 key0 v0 maxd0 ns maxd cand inserted)
    (hsp : countOcc ns0 < cap) : distN cand < cap := by
  by_contra hge
  push_neg at hge
  have hcap : 0 < cap := cap_pos_of_dvd W.hdvd
  have hall : ∀ j, j < cap → Occ (nodeAt ns j) := by
    intro j hj
    have := W.crun ((j + cap - cand.hash % cap) % cap)
      (by have := Nat.mod_lt (j + cap - cand.hash % cap) hcap; omega)
    rw [add_mod_offset_eq hcap hj] at this
    exact this
  have := all_occ_count (by rw [W.hlen]; exact hall)
  rw [W.hlen, W.hcount] at this
  omega

theorem slotOK_mono_maxd {hf : K → Nat} {cap : Nat} {ns : List (Node K V)}
    {maxd maxd2 : Int} {i : Nat} (h : maxd ≤ maxd2)
    (hs : slotOK hf cap ns maxd i) : slotOK hf cap ns maxd2 i := by
  intro hocc
  obtain ⟨h1, h2, h3, h4, h5, h6⟩ := hs hocc
  exact ⟨h1, h2, h3, h4, by omega, h6⟩

theorem not_occ_bv {n : Node K V} (h : ¬ Occ n) : n.has_value = false := by
  unfold Occ at h
  exact Bool.not_eq_true _ ▸ (Bool.eq_false_iff.2 (fun he => h he))

theorem occ_of_key_ref {n : Node K V} {k : K} (h : n.key_ref = some k) :
    Occ n := by
  unfold Node.key_ref at h
  by_cases hd : 0 ≤ n.distance_to_initial_bucket
  · exact Occ_iff.2 hd
  · rw [if_neg hd] at h
    cases h

theorem holdsKV_set_iff {ns : List (Node K V)} {loc : Nat} {a : Node K V}
    (hloc : loc < ns.length) (k : K) (v : V) :
    holdsKV (ns.set loc a) k v ↔
      ((a.key_ref = some k ∧ a.value_ref = some v) ∨
       (∃ i, i < ns.length ∧ i ≠ loc ∧ (nodeAt ns i).key_ref = some k ∧
         (nodeAt ns i).value_ref = some v)) := by
  constructor
  · rintro ⟨i, hi, hk, hv⟩
    rw [List.length_set] at hi
    by_cases he : i = loc
    · subst he
      rw [nodeAt_set_self hloc] at hk hv
      exact Or.inl ⟨hk, hv⟩
    · rw [nodeAt_set_ne (fun hc => he hc.symm)] at hk hv
      exact Or.inr ⟨i, hi, he, hk, hv⟩
  · rintro (⟨hk, hv⟩ | ⟨i, hi, hne, hk, hv⟩)
    · refine ⟨loc, by rw [List.length_set]; exact hloc, ?_, ?_⟩
      · rw [nodeAt_set_self hloc]; exact hk
      · rw [nodeAt_set_self hloc]; exact hv
    · refine ⟨i, by rw [List.length_set]; exact hi, ?_, ?_⟩
      · rw [nodeAt_set_ne (fun hc => hne hc.symm)]; exact hk
      · rw [nodeAt_set_ne (fun hc => hne hc.symm)]; exact hv

/-- `slotOK` for every slot after writing the candidate at its current probe
location, provided the candidate displacement dominates `dist - 1` of every
slot whose predecessor is that location. -/
theorem hslots_set_cand {hf : K → Nat} {cap : Nat} {ns0 : List (Node K V)}
    {key0 : K} {v0 : V} {maxd0 : Int} {ns : List (Node K V)} {maxd : Int}
    {cand : Node K V} {inserted : Option Nat}
    (W : WalkInv hf cap ns0 key0 v0 maxd0 ns maxd cand inserted)
    (hsp : countOcc ns0 < cap) {maxd2 : Int} (hm2 : maxd ≤ maxd2)
    (hdom : ∀ j, j < cap → Occ (nodeAt ns j) →
      0 < (nodeAt ns j).get_distance →
      (j + cap - 1) % cap = (cand.hash + distN cand) % cap →
      (nodeAt ns j).get_distance - 1 ≤ cand.get_distance) :
    ∀ i, i < cap →
      slotOK hf cap (ns.set ((cand.hash + distN cand) % cap) cand) maxd2 i := by
  have hcap : 0 < cap := cap_pos_of_dvd W.hdvd
  have hdn : distN cand < cap := crun_bound W hsp
  set L := (cand.hash + distN cand) % cap with hL
  have hLlt : L < cap := Nat.mod_lt _ hcap
  have hLlen : L < ns.length := by rw [W.hlen]; exact hLlt
  intro i hi
  by_cases hiL : i = L
  · subst hiL
    intro _
    rw [nodeAt_set_self hLlen]
    refine ⟨W.cwf, W.cvs, hdn, hL.symm ▸ rfl, by have := W.cmax; omega, ?_⟩
    intro hdpos
    have hd1 : 1 ≤ distN cand := by
      have := distN_eq W.cocc
      omega
    have hprev : (L + cap - 1) % cap = (cand.hash + (distN cand - 1)) % cap := by
      rw [hL, show distN cand = (distN cand - 1) + 1 by omega]
      exact prev_of_succ_loc hcap
    have hPne : (cand.hash + (distN cand - 1)) % cap ≠ L := by
      intro he
      rw [hL] at he
      have := add_mod_inj (show distN cand - 1 < cap by omega) hdn he
      omega
    rw [hprev, nodeAt_set_ne (fun hc => hPne hc.symm)]
    refine ⟨W.crun _ (by omega), ?_⟩
    have hcp := W.cprev (by omega)
    have := distN_eq W.cocc
    omega
  · intro hocc
    rw [nodeAt_set_ne (fun hc => hiL hc.symm)] at hocc ⊢
    obtain ⟨h1, h2, h3, h4, h5, h6⟩ := W.hslots i hi hocc
    refine ⟨h1, h2, h3, h4, by omega, ?_⟩
    intro hdpos
    by_cases hpL : (i + cap - 1) % cap = L
    · rw [hpL, nodeAt_set_self hLlen]
      refine ⟨W.cocc, ?_⟩
      have := hdom i hi hocc hdpos (by rw [hpL, hL])
      omega
    · rw [nodeAt_set_ne (fun hc => hpL hc.symm)]
      exact h6 hdpos

/-- Key distinctness after writing the candidate at its probe location. -/
theorem hdistinct_set_cand {hf : K → Nat} {cap : Nat} {ns0 : List (Node K V)}
    {key0 : K} {v0 : V} {maxd0 : Int} {ns : List (Node K V)} {maxd : Int}
    {cand : Node K V} {inserted : Option Nat}
    (W : WalkInv hf cap ns0 key0 v0 maxd0 ns maxd cand inserted) :
    ∀ i, i < cap → ∀ j, j < cap → ∀ k : K,
      (nodeAt (ns.set ((cand.hash + distN cand) % cap) cand) i).key_ref = some k →
      (nodeAt (ns.set ((cand.hash + distN cand) % cap) cand) j).key_ref = some k →
      i = j := by
  have hcap : 0 < cap := cap_pos_of_dvd W.hdvd
  set L := (cand.hash + distN cand) % cap with hL
  have hLlen : L < ns.length := by rw [W.hlen]; exact Nat.mod_lt _ hcap
  intro i hi j hj k hki hkj
  by_cases hiL : i = L <;> by_cases hjL : j = L
  · rw [hiL, hjL]
  · exfalso
    subst hiL
    rw [nodeAt_set_self hLlen] at hki
    rw [nodeAt_set_ne (fun hc => hjL hc.symm)] at hkj
    rw [key_ref_of_occ W.cocc] at hki
    exact W.cdist j hj k hkj hki
  · exfalso
    subst hjL
    rw [nodeAt_set_self hLlen] at hkj
    rw [nodeAt_set_ne (fun hc => hiL hc.symm)] at hki
    rw [key_ref_of_occ W.cocc] at hkj
    exact W.cdist i hi k hki hkj
  · rw [nodeAt_set_ne (fun hc => hiL hc.symm)] at hki
    rw [nodeAt_set_ne (fun hc => hjL hc.symm)] at hkj
    exact W.hdistinct i hi j hj k hki hkj

theorem Occ_set_of_Occ {ns : List (Node K V)} {loc x : Nat} {a : Node K V}
    (ha : Occ a) (h : Occ (nodeAt ns x)) : Occ (nodeAt (ns.set loc a) x) := by
  by_cases hx : loc = x
  · subst hx
    by_cases hl : loc < ns.length
    · rw [nodeAt_set_self hl]
      exact ha
    · unfold nodeAt at h ⊢
      rw [List.getElem?_set]
      simp only [if_pos rfl, hl, if_false]
      rw [List.getElem?_eq_none (by omega)] at h
      exact absurd h not_occ_new
  · rw [nodeAt_set_ne hx]
    exact h

theorem probe_shift (cap A B : Nat) (h : A % cap = B % cap) (j : Nat) :
    (A + j) % cap = (B + j) % cap := Nat.ModEq.add_right j h

/-- Postcondition of the complete insertion walk. -/
def InsertPost (hf : K → Nat) (cap : Nat) (ns0 : List (Node K V)) (key0 : K)
    (v0 : V) (maxd0 : Int) (res : List (Node K V) × Int × Nat) : Prop :=
  TableInv hf cap res.1 res.2.1 ∧
  maxd0 ≤ res.2.1 ∧
  countOcc res.1 = countOcc ns0 + 1 ∧
  (∀ (k : K) (v : V), holdsKV res.1 k v ↔ (holdsKV ns0 k v ∨ (k = key0 ∧ v = v0))) ∧
  res.2.2 < cap ∧ Occ (nodeAt res.1 res.2.2) ∧
  (nodeAt res.1 res.2.2).value.isSome = true

/-- Placing the candidate at the first empty slot satisfies the
postcondition. -/
theorem place_post {hf : K → Nat} {cap : Nat} {ns0 : List (Node K V)}
    {key0 : K} {v0 : V} {maxd0 : Int} {ns : List (Node K V)} {maxd : Int}
    {cand : Node K V} {inserted : Option Nat}
    (W : WalkInv hf cap ns0 key0 v0 maxd0 ns maxd cand inserted)
    (hsp : countOcc ns0 < cap)
    (hocc : ¬ Occ (nodeAt ns ((cand.hash + distN cand) % cap))) :
    InsertPost hf cap ns0 key0 v0 maxd0
      (ns.set ((cand.hash + distN cand) % cap) cand, maxd,
        inserted.getD ((cand.hash + distN cand) % cap)) := by
  have hcap : 0 < cap := cap_pos_of_dvd W.hdvd
  set L := (cand.hash + distN cand) % cap with hL
  have hLlt : L < cap := Nat.mod_lt _ hcap
  have hLlen : L < ns.length := by rw [W.hlen]; exact hLlt
  have hdom : ∀ j, j < cap → Occ (nodeAt ns j) →
      0 < (nodeAt ns j).get_distance →
      (j + cap - 1) % cap = (cand.hash + distN cand) % cap →
      (nodeAt ns j).get_distance - 1 ≤ cand.get_distance := by
    intro j hj hoj hdj hpj
    exfalso
    obtain ⟨hop, _⟩ := ((W.hslots j hj) hoj).2.2.2.2.2 hdj
    rw [hpj] at hop
    exact hocc hop
  refine ⟨⟨by rw [List.length_set, W.hlen], W.hdvd, W.hmaxnn,
      hslots_set_cand W hsp (le_refl maxd) hdom, hdistinct_set_cand W⟩,
    W.hmax0, ?_, ?_, ?_, ?_, ?_⟩
  · rw [countOcc_set hLlen, if_neg hocc, if_pos W.cocc, W.hcount]
    omega
  · intro k v
    rw [holdsKV_set_iff hLlen, ← W.hkeys k v]
    constructor
    · rintro (⟨hk, hv⟩ | ⟨i, hi, hne, hk, hv⟩)
      · rw [key_ref_of_occ W.cocc] at hk
        rw [value_ref_of_occ W.cocc] at hv
        exact Or.inr ⟨hk, hv⟩
      · exact Or.inl ⟨i, hi, hk, hv⟩
    · rintro (⟨i, hi, hk, hv⟩ | ⟨hk, hv⟩)
      · have hne : i ≠ L := fun he => hocc (he ▸ occ_of_key_ref hk)
        exact Or.inr ⟨i, hi, hne, hk, hv⟩
      · refine Or.inl ⟨?_, ?_⟩
        · rw [key_ref_of_occ W.cocc]; exact hk
        · rw [value_ref_of_occ W.cocc]; exact hv
  · cases hi : inserted with
    | none => simpa using hLlt
    | some l =>
      obtain ⟨hl, _, _⟩ := W.hins l hi
      simpa using hl
  · cases hi : inserted with
    | none =>
      simp only [Option.getD_some, Option.getD_none]
      rw [nodeAt_set_self hLlen]
      exact W.cocc
    | some l =>
      obtain ⟨hl, hol, _⟩ := W.hins l hi
      simp only [Option.getD_some]
      have hlL : l ≠ L := fun he => hocc (he ▸ hol)
      rw [nodeAt_set_ne (fun hc => hlL hc.symm)]
      exact hol
  · cases hi : inserted with
    | none =>
      simp only [Option.getD_some, Option.getD_none]
      rw [nodeAt_set_self hLlen]
      exact W.cvs
    | some l =>
      obtain ⟨hl, hol, hvl⟩ := W.hins l hi
      simp only [Option.getD_some]
      have hlL : l ≠ L := fun he => hocc (he ▸ hol)
      rw [nodeAt_set_ne (fun hc => hlL hc.symm)]
      exact hvl

/-- The swap step ("steal from the rich"): the occupant is at most as displaced
as the candidate, so the candidate takes its slot and the occupant walks on. -/
theorem walk_step_swap {hf : K → Nat} {cap : Nat} {ns0 : List (Node K V)}
    {key0 : K} {v0 : V} {maxd0 : Int} {ns : List (Node K V)} {maxd : Int}
    {cand : Node K V} {inserted : Option Nat}
    (W : WalkInv hf cap ns0 key0 v0 maxd0 ns maxd cand inserted)
    (hsp : countOcc ns0 < cap)
    (hocc : Occ (nodeAt ns ((cand.hash + distN cand) % cap)))
    (hle : (nodeAt ns ((cand.hash + distN cand) % cap)).get_distance ≤
      cand.get_distance) :
    WalkInv hf cap ns0 key0 v0 maxd0
      (ns.set ((cand.hash + distN cand) % cap) cand)
      (max (nodeAt ns ((cand.hash + distN cand) % cap)).increment_distance.get_distance maxd)
      (nodeAt ns ((cand.hash + distN cand) % cap)).increment_distance
      (some (inserted.getD ((cand.hash + distN cand) % cap))) := by
  have hcap : 0 < cap := cap_pos_of_dvd W.hdvd
  set L := (cand.hash + distN cand) % cap with hL
  have hLlt : L < cap := Nat.mod_lt _ hcap
  have hLlen : L < ns.length := by rw [W.hlen]; exact hLlt
  obtain ⟨⟨ko, hko, hho⟩, hvo, hdo, hpo, hmo, hlo⟩ := W.hslots L hLlt hocc
  have hT : TableInv hf cap ns maxd :=
    ⟨W.hlen, W.hdvd, W.hmaxnn, W.hslots, W.hdistinct⟩
  have hdomSwap : ∀ j, j < cap → Occ (nodeAt ns j) →
      0 < (nodeAt ns j).get_distance →
      (j + cap - 1) % cap = (cand.hash + distN cand) % cap →
      (nodeAt ns j).get_distance - 1 ≤ cand.get_distance := by
    intro j hj hoj hdj hpj
    obtain ⟨_, hbd⟩ := ((W.hslots j hj) hoj).2.2.2.2.2 hdj
    rw [hpj, ← hL] at hbd
    omega
  have hmd2 : maxd ≤
      max (nodeAt ns L).increment_distance.get_distance maxd := le_max_right _ _
  refine ⟨by rw [List.length_set, W.hlen], W.hdvd, le_trans W.hmax0 hmd2,
    le_trans W.hmaxnn hmd2, hslots_set_cand W hsp hmd2 hdomSwap,
    hdistinct_set_cand W, Occ_increment hocc, ?_, ?_, le_max_left _ _, ?_, ?_, ?_,
    ?_, ?_, ?_⟩
  · exact ⟨ko, by simpa using hko, by simpa using hho⟩
  · simpa using hvo
  · -- crun
    intro t ht
    rw [distN_increment hocc] at ht
    rw [increment_hash]
    have hch := chain_occ hT hLlt hocc t (by omega)
    exact Occ_set_of_Occ W.cocc hch.1
  · -- cprev
    intro _
    rw [distN_increment hocc, increment_hash,
      show distN (nodeAt ns L) + 1 - 1 = distN (nodeAt ns L) by omega,
      hpo, nodeAt_set_self hLlen]
    have := distN_eq hocc
    push_cast
    omega
  · -- cdist
    intro j hj k hkj
    rw [increment_key]
    by_cases hjL : j = L
    · subst hjL
      rw [nodeAt_set_self hLlen, key_ref_of_occ W.cocc] at hkj
      intro he
      exact W.cdist L hLlt k (by rw [key_ref_of_occ hocc, he]) hkj
    · rw [nodeAt_set_ne (fun hc => hjL hc.symm)] at hkj
      intro he
      have := W.hdistinct j hj L hLlt k hkj
        (by rw [key_ref_of_occ hocc, he])
      exact hjL this
  · -- hkeys
    intro k v
    rw [← W.hkeys k v, holdsKV_set_iff hLlen]
    simp only [increment_key, increment_value]
    constructor
    · rintro ((⟨hk, hv⟩ | ⟨i, hi, hne, hk, hv⟩) | ⟨hk, hv⟩)
      · rw [key_ref_of_occ W.cocc] at hk
        rw [value_ref_of_occ W.cocc] at hv
        exact Or.inr ⟨hk, hv⟩
      · exact Or.inl ⟨i, hi, hk, hv⟩
      · refine Or.inl ⟨L, hLlen, ?_, ?_⟩
        · rw [key_ref_of_occ hocc]; exact hk
        · rw [value_ref_of_occ hocc]; exact hv
    · rintro (⟨i, hi, hk, hv⟩ | ⟨hk, hv⟩)
      · by_cases hiL : i = L
        · subst hiL
          refine Or.inr ⟨?_, ?_⟩
          · rw [key_ref_of_occ hocc] at hk; exact hk
          · rw [value_ref_of_occ hocc] at hv; exact hv
        · exact Or.inl (Or.inr ⟨i, hi, hiL, hk, hv⟩)
      · refine Or.inl (Or.inl ⟨?_, ?_⟩)
        · rw [key_ref_of_occ W.cocc]; exact hk
        · rw [value_ref_of_occ W.cocc]; exact hv
  · -- hcount
    rw [countOcc_set hLlen, if_pos hocc, if_pos W.cocc, W.hcount]
    have := countOcc_pos_of_occ hLlen hocc
    rw [W.hcount] at this
    omega
  · -- hins
    intro l hl
    cases hl
    cases hi : inserted with
    | none =>
      simp only [Option.getD_none]
      refine ⟨hLlt, ?_, ?_⟩
      · rw [nodeAt_set_self hLlen]; exact W.cocc
      · rw [nodeAt_set_self hLlen]; exact W.cvs
    | some l2 =>
      obtain ⟨hl2, ho2, hv2⟩ := W.hins l2 hi
      simp only [Option.getD_some]
      refine ⟨hl2, ?_, ?_⟩
      · exact Occ_set_of_Occ W.cocc ho2
      · by_cases hl2L : l2 = L
        · subst hl2L
          rw [nodeAt_set_self hLlen]
          exact W.cvs
        · rw [nodeAt_set_ne (fun hc => hl2L hc.symm)]
          exact hv2

/-- The keep step: the occupant has probed strictly farther, so the candidate
advances past it. -/
theorem walk_step_keep {hf : K → Nat} {cap : Nat} {ns0 : List (Node K V)}
    {key0 : K} {v0 : V} {maxd0 : Int} {ns : List (Node K V)} {maxd : Int}
    {cand : Node K V} {inserted : Option Nat}
    (W : WalkInv hf cap ns0 key0 v0 maxd0 ns maxd cand inserted)
    (hocc : Occ (nodeAt ns ((cand.hash + distN cand) % cap)))
    (hgt : cand.get_distance <
      (nodeAt ns ((cand.hash + distN cand) % cap)).get_distance) :
    WalkInv hf cap ns0 key0 v0 maxd0 ns
      (max cand.increment_distance.get_distance maxd)
      cand.increment_distance inserted := by
  have hmd2 : maxd ≤ max cand.increment_distance.get_distance maxd := le_max_right _ _
  refine ⟨W.hlen, W.hdvd, le_trans W.hmax0 hmd2, le_trans W.hmaxnn hmd2,
    fun i hi => slotOK_mono_maxd hmd2 (W.hslots i hi), W.hdistinct,
    Occ_increment W.cocc, ?_, ?_, le_max_left _ _, ?_, ?_, ?_, ?_, W.hcount,
    W.hins⟩
  · obtain ⟨k, hk, hh⟩ := W.cwf
    exact ⟨k, by simpa using hk, by simpa using hh⟩
  · simpa using W.cvs
  · -- crun
    intro t ht
    rw [distN_increment W.cocc] at ht
    rw [increment_hash]
    by_cases hteq : t = distN cand
    · subst hteq
      exact hocc
    · exact W.crun t (by omega)
  · -- cprev
    intro _
    rw [distN_increment W.cocc, increment_hash,
      show distN cand + 1 - 1 = distN cand by omega]
    have := distN_eq W.cocc
    push_cast
    omega
  · -- cdist
    intro j hj k hkj
    rw [increment_key]
    exact W.cdist j hj k hkj
  · -- hkeys
    intro k v
    rw [← W.hkeys k v]
    simp only [increment_key, increment_value]

/-- The Robin-Hood insertion walk terminates with a well-formed table whenever
an empty slot is reachable within the fuel. -/
theorem insert_new_loop_ok {hf : K → Nat} {cap : Nat} {ns0 : List (Node K V)}
    {key0 : K} {v0 : V} {maxd0 : Int} (hsp : countOcc ns0 < cap) :
    ∀ fuel ns maxd cand inserted,
      WalkInv hf cap ns0 key0 v0 maxd0 ns maxd cand inserted →
      (∃ m, m < fuel ∧ ¬ Occ (nodeAt ns ((cand.hash + distN cand + m) % cap))) →
      ∃ res, NodeStorage.insert_new_loop cap fuel ns maxd cand inserted = .ok res ∧
        InsertPost hf cap ns0 key0 v0 maxd0 res := by
  intro fuel
  induction fuel with
  | zero =>
    rintro ns maxd cand inserted W ⟨m, hm, _⟩
    omega
  | succ f ih =>
    intro ns maxd cand inserted W hm
    have hcap : 0 < cap := cap_pos_of_dvd W.hdvd
    have hdn : distN cand < cap := crun_bound W hsp
    have hcle : cap ≤ U32 := Nat.le_of_dvd U32_pos W.hdvd
    have h0 : (0:Int) ≤ cand.get_distance := Occ_iff.1 W.cocc
    have hdd := distN_eq W.cocc
    have h1 : cand.get_distance < (U32 : Int) := by omega
    have hloc : fast_mod cap ((cand.hash + i32_as_u32 cand.get_distance) % U32)
        = (cand.hash + distN cand) % cap := by
      rw [loc_eq W.hdvd h0 h1]
      rfl
    set L := (cand.hash + distN cand) % cap with hLdef
    have hLlt : L < cap := Nat.mod_lt _ hcap
    have hLlen : L < ns.length := by rw [W.hlen]; exact hLlt
    unfold NodeStorage.insert_new_loop
    rw [hloc, nodeAt_getElem? hLlen]
    by_cases hocc : Occ (nodeAt ns L)
    · have hbv : (nodeAt ns L).has_value = true := hocc
      simp only [hbv, if_true]
      obtain ⟨m, hmf, hme⟩ := hm
      have hm0 : m ≠ 0 := by
        intro hz
        subst hz
        rw [Nat.add_zero, ← hLdef] at hme
        exact hme hocc
      have hpo := ((W.hslots L hLlt) hocc).2.2.2.1
      by_cases hle : (nodeAt ns L).get_distance ≤ cand.get_distance
      · rw [if_pos hle]
        refine ih _ _ _ _ (walk_step_swap W hsp hocc hle) ⟨m - 1, by omega, ?_⟩
        rw [increment_hash, distN_increment hocc]
        have hrew : (nodeAt ns L).hash + (distN (nodeAt ns L) + 1) + (m - 1)
            = ((nodeAt ns L).hash + distN (nodeAt ns L)) + m := by omega
        rw [hrew,
          probe_shift cap ((nodeAt ns L).hash + distN (nodeAt ns L))
            (cand.hash + distN cand) (by rw [hpo]) m]
        have hPneL : (cand.hash + distN cand + m) % cap ≠ L := by
          intro he
          rw [he] at hme
          exact hme hocc
        rw [nodeAt_set_ne (fun hc => hPneL hc.symm)]
        exact hme
      · rw [if_neg hle]
        refine ih _ _ _ _
          (walk_step_keep W hocc
            (by show cand.get_distance < (nodeAt ns L).get_distance; omega))
          ⟨m - 1, by omega, ?_⟩
        rw [increment_hash, distN_increment W.cocc]
        have hrew : cand.hash + (distN cand + 1) + (m - 1)
            = cand.hash + distN cand + m := by omega
        rw [hrew]
        exact hme
    · have hbv := not_occ_bv hocc
      simp only [hbv, Bool.false_eq_true, if_false]
      exact ⟨_, rfl, place_post W hsp hocc⟩

/-- `insert_new` on an invariant table with an absent key and a free slot:
succeeds, preserves the invariant, adds exactly the new binding, increments
the live count, never lowers the running maximum displacement, and returns a
location holding an initialised value. -/
theorem insert_new_ok [DecidableEq K] {hf : K → Nat} {s : NodeStorage K V}
    (inv : SInv hf s) {k : K} {v : V} (habs : ¬ hasKey s.nodes k) :
    ∃ ns2 maxd2 loc,
      s.insert_new k v (hf k % U32) =
        .ok (⟨ns2, maxd2, s.number_of_items + 1⟩, loc) ∧
      TableInv hf s.capacity ns2 maxd2 ∧
      ns2.length = s.capacity ∧
      countOcc ns2 = s.number_of_items + 1 ∧
      s.max_distance_to_initial_bucket ≤ maxd2 ∧
      (∀ (k2 : K) (v2 : V), holdsKV ns2 k2 v2 ↔
        (holdsKV s.nodes k2 v2 ∨ (k2 = k ∧ v2 = v))) ∧
      loc < s.capacity ∧ Occ (nodeAt ns2 loc) ∧
      (nodeAt ns2 loc).value.isSome = true := by
  have hsp : countOcc s.nodes < s.capacity := by
    have h1 := inv.hcount
    have h2 := inv.hspace
    omega
  have Winit : WalkInv hf s.capacity s.nodes k v s.max_distance_to_initial_bucket
      s.nodes s.max_distance_to_initial_bucket
      (Node.new_with k v (hf k % U32)) none := by
    refine ⟨rfl, inv.tbl.hdvd, le_refl _, inv.tbl.hmax, inv.tbl.hslots,
      inv.tbl.hdistinct, new_with_occ, ⟨k, rfl, rfl⟩, rfl, ?_, ?_, ?_, ?_, ?_,
      rfl, ?_⟩
    · simpa using inv.tbl.hmax
    · intro t ht
      simp at ht
    · intro h
      simp at h
    · intro i hi k2 hk2 he
      apply habs
      refine ⟨i, ?_, ?_⟩
      · have := inv.tbl.hlen
        omega
      · rw [hk2]
        have : k = k2 := by
          have h2 : (Node.new_with k v (hf k % U32)).key = some k := rfl
          rw [h2] at he
          exact Option.some.inj he
        rw [this]
    · intro k2 v2
      constructor
      · rintro (h | ⟨hk2, hv2⟩)
        · exact Or.inl h
        · simp only [new_with_key] at hk2
          simp only [new_with_value] at hv2
          exact Or.inr ⟨(Option.some.inj hk2).symm, (Option.some.inj hv2).symm⟩
      · rintro (h | ⟨hk2, hv2⟩)
        · exact Or.inl h
        · subst hk2
          subst hv2
          exact Or.inr ⟨rfl, rfl⟩
    · intro l hl
      cases hl
  have hfuel : ∃ m, m < s.capacity + 1 ∧
      ¬ Occ (nodeAt s.nodes
        (((Node.new_with k v (hf k % U32)).hash +
          distN (Node.new_with k v (hf k % U32)) + m) % s.capacity)) := by
    obtain ⟨m, hmlt, hocc⟩ := exists_empty_probe (hf k % U32)
      (show countOcc s.nodes < s.nodes.length from hsp)
    refine ⟨m, by have h2 : s.nodes.length = s.capacity := rfl; omega, ?_⟩
    simp only [new_with_hash, distN_new_with, Nat.add_zero]
    have hlen : s.nodes.length = s.capacity := rfl
    rw [← hlen]
    exact hocc
  obtain ⟨res, hloop, hpost⟩ :=
    insert_new_loop_ok hsp (s.capacity + 1) s.nodes
      s.max_distance_to_initial_bucket (Node.new_with k v (hf k % U32)) none
      Winit hfuel
  obtain ⟨ns2, maxd2, loc⟩ := res
  obtain ⟨T, hmax0, hcnt, hkeys, hloclt, hlocod, hlocvs⟩ := hpost
  refine ⟨ns2, maxd2, loc, ?_, T, T.hlen, ?_, hmax0, hkeys, hloclt, hlocod,
    hlocvs⟩
  · unfold NodeStorage.insert_new
    rw [hloop]
  · rw [hcnt, inv.hcount]

end InsertWalk

/-! ## The backward-shift deletion walk -/

section RemoveWalk

variable {K V : Type}

/-- Whatever the input, the backward-shift loop can never hit the fatal
below-zero displacement decrement: the displacement decremented belongs to the
node that was just checked to be occupied with a nonzero displacement. -/
theorem remove_loop_no_decrement_error :
    ∀ (fuel : Nat) (nodes : List (Node K V)) (cur : Nat),
      NodeStorage.remove_loop fuel nodes cur ≠
        .error "Cannot decrement distance to below 0" := by
  intro fuel
  induction fuel with
  | zero =>
    intro nodes cur h
    unfold NodeStorage.remove_loop at h
    injection h with h2
    exact absurd h2 (by decide)
  | succ f ih =>
    intro nodes cur h
    unfold NodeStorage.remove_loop at h
    cases hg : nodes[fast_mod nodes.length ((cur + 1) % U32)]? with
    | none =>
      simp only [hg] at h
      injection h with h2
      exact absurd h2 (by decide)
    | some next_node =>
      simp only [hg] at h
      by_cases hstop : next_node.has_value = false ∨ next_node.get_distance = 0
      · rw [if_pos hstop] at h
        cases hc : nodes[cur]? with
        | none =>
          simp only [hc] at h
          injection h with h2
          exact absurd h2 (by decide)
        | some cur_node =>
          simp only [hc] at h
          cases ht : cur_node.take_key_value with
          | none =>
            simp only [ht] at h
            injection h with h2
            exact absurd h2 (by decide)
          | some p =>
            obtain ⟨⟨k2, v2, h2⟩, emptied⟩ := p
            simp only [ht] at h
            exact Except.noConfusion h
      · rw [if_neg hstop] at h
        push_neg at hstop
        obtain ⟨hhv, hdz⟩ := hstop
        have hhv2 : next_node.has_value = true := by
          cases hb : next_node.has_value
          · exact absurd hb hhv
          · rfl
        have hd0 : 0 ≤ next_node.get_distance := Occ_iff.1 hhv2
        cases hc : nodes[cur]? with
        | none =>
          simp only [hc] at h
          injection h with h2
          exact absurd h2 (by decide)
        | some cur_node =>
          simp only [hc] at h
          have hcurlt : cur < nodes.length := by
            by_contra hge
            rw [List.getElem?_eq_none (by omega)] at hc
            cases hc
          have hat : ((nodes.set cur next_node).set
              (fast_mod nodes.length ((cur + 1) % U32)) cur_node)[cur]? =
              some next_node := by
            by_cases heq : cur = fast_mod nodes.length ((cur + 1) % U32)
            · rw [← heq, List.set_set, List.getElem?_set_self hcurlt]
              rw [← heq] at hg
              rw [hc] at hg
              exact hg
            · rw [List.getElem?_set_ne (fun hcc => heq hcc.symm),
                List.getElem?_set_self hcurlt]
          rw [hat] at h
          simp only at h
          have hdec : next_node.decrement_distance =
              .ok { next_node with
                distance_to_initial_bucket :=
                  next_node.distance_to_initial_bucket - 1 } := by
            unfold Node.decrement_distance
            rw [if_neg (by
              unfold Node.get_distance at hd0 hdz
              omega)]
          rw [hdec] at h
          simp only at h
          exact ih _ _ h

/-- Modelled from the claim (C5): the net effect of one backward-shift
deletion walk.  Examine the next slot (wrapping): if it is empty or at
displacement zero, stop, leaving the current slot empty (the cached hash `h0`
of the removed entry remains in the vacated slot, as in the source`s
`take_key_value`); otherwise move the next slot's payload into the current
slot with its displacement decremented by one, advance, and repeat. -/
def backward_shift (h0 : Nat) :
    Nat → List (Node K V) → Nat → Option (List (Node K V))
  | 0, _, _ => none
  | fuel + 1, nodes, cur =>
    match nodes[(cur + 1) % nodes.length]? with
    | none => none
    | some nx =>
      if nx.has_value = false ∨ nx.get_distance = 0 then
        some (nodes.set cur ⟨h0, -1, none, none⟩)
      else
        backward_shift h0 fuel
          (nodes.set cur
            { nx with distance_to_initial_bucket := nx.get_distance - 1 })
          ((cur + 1) % nodes.length)

/-- The source's swap-based backward-shift loop computes exactly the
backward-shift description: it drags the removed payload along in the vacated
slot and finally takes it out, so its result is the removed value paired with
the shifted table. -/
theorem remove_loop_eq_shift :
    ∀ (fuel : Nat) (ns : List (Node K V)) (cur : Nat) (doomed : Node K V)
      (v0 : V),
      ns.length ∣ U32 → 2 ≤ ns.length → cur < ns.length →
      Occ doomed → doomed.key.isSome = true → doomed.value = some v0 →
      NodeStorage.remove_loop fuel (ns.set cur doomed) cur =
        match backward_shift doomed.hash fuel ns cur with
        | some ns2 => .ok (v0, ns2)
        | none => .error "fuel" := by
  intro fuel
  induction fuel with
  | zero => intro ns cur doomed v0 _ _ _ _ _ _; rfl
  | succ f ih =>
    intro ns cur doomed v0 hdvd hlen2 hcur hod hok hov
    have hlen0 : 0 < ns.length := by omega
    have hnxtlt : (cur + 1) % ns.length < ns.length := Nat.mod_lt _ hlen0
    have hne : (cur + 1) % ns.length ≠ cur := by
      intro he
      have h2 : (cur + 0) % ns.length = cur := by
        rw [Nat.add_zero, Nat.mod_eq_of_lt hcur]
      have := add_mod_inj (show 1 < ns.length by omega) (show 0 < ns.length by omega)
        (by rw [h2, he])
      omega
    have hfm : fast_mod (ns.set cur doomed).length ((cur + 1) % U32)
        = (cur + 1) % ns.length := by
      rw [List.length_set, fast_mod_eq_mod hdvd]
    unfold NodeStorage.remove_loop backward_shift
    rw [hfm]
    have hread : (ns.set cur doomed)[(cur + 1) % ns.length]? =
        some (nodeAt ns ((cur + 1) % ns.length)) := by
      rw [List.getElem?_set_ne (fun hc => hne hc.symm)]
      exact nodeAt_getElem? hnxtlt
    simp only [hread, nodeAt_getElem? hnxtlt]
    by_cases hstop : (nodeAt ns ((cur + 1) % ns.length)).has_value = false ∨
        (nodeAt ns ((cur + 1) % ns.length)).get_distance = 0
    · rw [if_pos hstop, if_pos hstop]
      rw [List.getElem?_set_self hcur]
      simp only
      obtain ⟨k2, hk2⟩ := Option.isSome_iff_exists.1 hok
      have htake : doomed.take_key_value =
          some ((k2, v0, doomed.hash), ⟨doomed.hash, -1, none, none⟩) := by
        unfold Node.take_key_value
        rw [if_pos (Occ_iff.1 hod), hk2, hov]
      rw [htake]
      simp only [List.set_set]
    · rw [if_neg hstop, if_neg hstop]
      rw [List.getElem?_set_self hcur]
      simp only
      have hswap : ((ns.set cur doomed).set cur
            (nodeAt ns ((cur + 1) % ns.length))).set ((cur + 1) % ns.length)
            doomed =
          (ns.set cur (nodeAt ns ((cur + 1) % ns.length))).set
            ((cur + 1) % ns.length) doomed := by
        rw [List.set_set]
      rw [hswap]
      have hat : ((ns.set cur (nodeAt ns ((cur + 1) % ns.length))).set
          ((cur + 1) % ns.length) doomed)[cur]? =
          some (nodeAt ns ((cur + 1) % ns.length)) := by
        rw [List.getElem?_set_ne hne, List.getElem?_set_self hcur]
      rw [hat]
      simp only
      push_neg at hstop
      obtain ⟨hhv, hdz⟩ := hstop
      have hhv2 : (nodeAt ns ((cur + 1) % ns.length)).has_value = true := by
        cases hb : (nodeAt ns ((cur + 1) % ns.length)).has_value
        · exact absurd hb hhv
        · rfl
      have hd0 : 0 ≤ (nodeAt ns ((cur + 1) % ns.length)).get_distance :=
        Occ_iff.1 hhv2
      have hdec : (nodeAt ns ((cur + 1) % ns.length)).decrement_distance =
          .ok { nodeAt ns ((cur + 1) % ns.length) with
            distance_to_initial_bucket :=
              (nodeAt ns ((cur + 1) % ns.length)).get_distance - 1 } := by
        unfold Node.decrement_distance
        rw [if_neg (by
          unfold Node.get_distance at hd0 hdz
          omega)]
        rfl
      rw [hdec]
      simp only
      have hcomm : ((ns.set cur (nodeAt ns ((cur + 1) % ns.length))).set
            ((cur + 1) % ns.length) doomed).set cur
            { nodeAt ns ((cur + 1) % ns.length) with
              distance_to_initial_bucket :=
                (nodeAt ns ((cur + 1) % ns.length)).get_distance - 1 } =
          (ns.set cur
            { nodeAt ns ((cur + 1) % ns.length) with
              distance_to_initial_bucket :=
                (nodeAt ns ((cur + 1) % ns.length)).get_distance - 1 }).set
            ((cur + 1) % ns.length) doomed := by
        rw [List.set_comm _ _ _ hne, List.set_set]
      rw [hcomm]
      have hres := ih
        (ns.set cur
          { nodeAt ns ((cur + 1) % ns.length) with
            distance_to_initial_bucket :=
              (nodeAt ns ((cur + 1) % ns.length)).get_distance - 1 })
        ((cur + 1) % ns.length) doomed v0
        (by rwa [List.length_set]) (by rwa [List.length_set])
        (by rw [List.length_set]; exact hnxtlt) hod hok hov
      rw [hres]

theorem succ_prev {cap cur : Nat} (hcap : 0 < cap) (hc : cur < cap) :
    ((cur + 1) % cap + cap - 1) % cap = cur := by
  have h2 := @prev_of_succ_loc cap cur 0 hcap
  rw [h2]
  simpa using Nat.mod_eq_of_lt hc

theorem pos_shift_back {cap h d cur : Nat} (hcap : 0 < cap) (hcur : cur < cap)
    (hp : (h + d) % cap = (cur + 1) % cap) (hd : 1 ≤ d) :
    (h + (d - 1)) % cap = cur := by
  have h2 := @prev_of_succ_loc cap h (d - 1) hcap
  rw [show d - 1 + 1 = d by omega] at h2
  rw [hp, succ_prev hcap hcur] at h2
  exact h2.symm

/-- The loop invariant of the backward-shift deletion walk: every slot but the
current one (which carries the payload being removed, with a stale
displacement) satisfies the table invariants, plus the bridging bound `hM4`
needed to re-establish the local Robin-Hood ordering behind the walk. -/
structure RemInv (hf : K → Nat) (cap : Nat) (maxd : Int)
    (ns0 : List (Node K V)) (k0 : K) (v0 : V) (ns : List (Node K V))
    (cur : Nat) : Prop where
  hlen : ns.length = cap
  hdvd : cap ∣ U32
  hmaxnn : 0 ≤ maxd
  hcur : cur < cap
  hwf : ∀ i, i < cap → Occ (nodeAt ns i) →
    (∃ k, (nodeAt ns i).key = some k ∧ (nodeAt ns i).hash = hf k % U32) ∧
    (nodeAt ns i).value.isSome = true ∧ distN (nodeAt ns i) < cap ∧
    (nodeAt ns i).get_distance ≤ maxd
  hpos : ∀ i, i < cap → i ≠ cur → Occ (nodeAt ns i) →
    ((nodeAt ns i).hash + distN (nodeAt ns i)) % cap = i
  hdistinct : ∀ i, i < cap → ∀ j, j < cap → ∀ k : K,
    (nodeAt ns i).key_ref = some k → (nodeAt ns j).key_ref = some k → i = j
  hdo : Occ (nodeAt ns cur)
  hdk : (nodeAt ns cur).key = some k0
  hdv : (nodeAt ns cur).value = some v0
  hlocal : ∀ i, i < cap → i ≠ cur → (i + cap - 1) % cap ≠ cur →
    Occ (nodeAt ns i) → 0 < (nodeAt ns i).get_distance →
    Occ (nodeAt ns ((i + cap - 1) % cap)) ∧
    (nodeAt ns i).get_distance - 1 ≤
      (nodeAt ns ((i + cap - 1) % cap)).get_distance
  hM4 : Occ (nodeAt ns ((cur + 1) % cap)) →
    2 ≤ (nodeAt ns ((cur + 1) % cap)).get_distance →
    Occ (nodeAt ns ((cur + cap - 1) % cap)) ∧
    (nodeAt ns ((cur + 1) % cap)).get_distance - 2 ≤
      (nodeAt ns ((cur + cap - 1) % cap)).get_distance
  hcount : countOcc ns = countOcc ns0
  hkeys : ∀ (k : K) (v : V), holdsKV ns k v ↔ holdsKV ns0 k v

theorem prev_eq_iff {cap i cur : Nat} (hcap : 0 < cap) (hi : i < cap)
    (hc : cur < cap) :
    (i + cap - 1) % cap = cur ↔ i = (cur + 1) % cap := by
  constructor
  · intro h
    have h2 : ((i + cap - 1) % cap + 1) % cap = (cur + 1) % cap := by rw [h]
    rw [Nat.mod_add_mod, show i + cap - 1 + 1 = i + cap by omega,
      Nat.add_mod_right, Nat.mod_eq_of_lt hi] at h2
    exact h2
  · intro h
    rw [h]
    exact succ_prev hcap hc

/-- One continue-step of the backward-shift walk preserves the loop
invariant. -/
theorem rem_step {hf : K → Nat} {cap : Nat} {maxd : Int}
    {ns0 : List (Node K V)} {k0 : K} {v0 : V} {ns : List (Node K V)}
    {cur : Nat} (R : RemInv hf cap maxd ns0 k0 v0 ns cur) (hcap2 : 2 ≤ cap)
    (hocc : Occ (nodeAt ns ((cur + 1) % cap)))
    (hdz : (nodeAt ns ((cur + 1) % cap)).get_distance ≠ 0) :
    RemInv hf cap maxd ns0 k0 v0
      ((ns.set cur
        { nodeAt ns ((cur + 1) % cap) with
          distance_to_initial_bucket :=
            (nodeAt ns ((cur + 1) % cap)).get_distance - 1 }).set
        ((cur + 1) % cap) (nodeAt ns cur))
      ((cur + 1) % cap) := by
  have hcap : 0 < cap := by omega
  set nxt := (cur + 1) % cap with hnxt
  set nx := nodeAt ns nxt with hnx
  set dmd := nodeAt ns cur with hdmd
  set dec : Node K V :=
    { nx with distance_to_initial_bucket := nx.get_distance - 1 } with hdec
  have hnxtlt : nxt < cap := Nat.mod_lt _ hcap
  have hne : nxt ≠ cur := by
    intro he
    have h2 : (cur + 0) % cap = cur := by
      rw [Nat.add_zero, Nat.mod_eq_of_lt R.hcur]
    have := add_mod_inj (show 1 < cap by omega) (show 0 < cap by omega)
      (by rw [h2, ← hnxt, he])
    omega
  have hd0 : 0 ≤ nx.get_distance := Occ_iff.1 hocc
  have hd1 : 1 ≤ nx.get_distance := by omega
  have hdecocc : Occ dec := by
    rw [Occ_iff]
    show 0 ≤ nx.get_distance - 1
    omega
  have hdN : distN dec = distN nx - 1 := by
    unfold distN Node.get_distance
    show (nx.get_distance - 1).toNat = nx.get_distance.toNat - 1
    omega
  have hdN1 : 1 ≤ distN nx := by
    unfold distN
    omega
  have hcurlen : cur < ns.length := by rw [R.hlen]; exact R.hcur
  have hnxtlen : nxt < ns.length := by rw [R.hlen]; exact hnxtlt
  have hAt1 : nodeAt ((ns.set cur dec).set nxt dmd) nxt = dmd :=
    nodeAt_set_self (by rw [List.length_set]; exact hnxtlen)
  have hAt2 : nodeAt ((ns.set cur dec).set nxt dmd) cur = dec := by
    rw [nodeAt_set_ne hne, nodeAt_set_self hcurlen]
  have hAt3 : ∀ x, x ≠ cur → x ≠ nxt →
      nodeAt ((ns.set cur dec).set nxt dmd) x = nodeAt ns x := by
    intro x hx1 hx2
    rw [nodeAt_set_ne (fun hc => hx2 hc.symm), nodeAt_set_ne (fun hc => hx1 hc.symm)]
  obtain ⟨hnxwf, hnxvs, hnxdlt, hnxmx⟩ := R.hwf nxt hnxtlt hocc
  obtain ⟨hdwf, hdvs, hddlt, hdmx⟩ := R.hwf cur R.hcur R.hdo
  rw [← hnx] at hnxwf hnxvs hnxdlt hnxmx
  rw [← hdmd] at hdwf hdvs hddlt hdmx
  have hposnx : (nx.hash + distN nx) % cap = nxt := R.hpos nxt hnxtlt hne hocc
  refine ⟨by rw [List.length_set, List.length_set]; exact R.hlen, R.hdvd,
    R.hmaxnn, hnxtlt, ?_, ?_, ?_, ?_, ?_, ?_, ?_, ?_, ?_, ?_⟩
  · -- hwf
    intro i hi hoi
    by_cases h1 : i = nxt
    · subst h1
      rw [hAt1]
      exact ⟨hdwf, hdvs, hddlt, hdmx⟩
    · by_cases h2 : i = cur
      · rw [h2, hAt2]
        refine ⟨hnxwf, hnxvs, ?_, ?_⟩
        · rw [hdN]; omega
        · show nx.get_distance - 1 ≤ maxd
          omega
      · rw [hAt3 i h2 h1]
        rw [hAt3 i h2 h1] at hoi
        exact R.hwf i hi hoi
  · -- hpos
    intro i hi hine hoi
    by_cases h2 : i = cur
    · rw [h2, hAt2, hdN]
      show (nx.hash + (distN nx - 1)) % cap = cur
      exact pos_shift_back hcap R.hcur (by rw [hposnx]) hdN1
    · rw [hAt3 i h2 hine]
      rw [hAt3 i h2 hine] at hoi
      exact R.hpos i hi h2 hoi
  · -- hdistinct
    have hkr : ∀ x, (nodeAt ((ns.set cur dec).set nxt dmd) x).key_ref =
        (nodeAt ns (if x = nxt then cur else if x = cur then nxt else x)).key_ref := by
      intro x
      by_cases h1 : x = nxt
      · rw [h1, hAt1, if_pos rfl]
      · by_cases h2 : x = cur
        · rw [h2, hAt2, if_neg (fun hc => hne hc.symm), if_pos rfl]
          rw [key_ref_of_occ hdecocc, key_ref_of_occ hocc]
        · rw [hAt3 x h2 h1, if_neg h1, if_neg h2]
    intro i hi j hj k hki hkj
    rw [hkr i] at hki
    rw [hkr j] at hkj
    by_cases hi1 : i = nxt
    · rw [if_pos hi1] at hki
      by_cases hj1 : j = nxt
      · rw [hi1, hj1]
      · rw [if_neg hj1] at hkj
        by_cases hj2 : j = cur
        · rw [if_pos hj2] at hkj
          have h3 := R.hdistinct cur R.hcur nxt hnxtlt k hki hkj
          exact absurd h3.symm hne
        · rw [if_neg hj2] at hkj
          have h3 := R.hdistinct cur R.hcur j hj k hki hkj
          exact absurd h3.symm hj2
    · rw [if_neg hi1] at hki
      by_cases hi2 : i = cur
      · rw [if_pos hi2] at hki
        by_cases hj1 : j = nxt
        · rw [if_pos hj1] at hkj
          have h3 := R.hdistinct nxt hnxtlt cur R.hcur k hki hkj
          exact absurd h3 hne
        · rw [if_neg hj1] at hkj
          by_cases hj2 : j = cur
          · rw [hi2, hj2]
          · rw [if_neg hj2] at hkj
            have h3 := R.hdistinct nxt hnxtlt j hj k hki hkj
            exact absurd h3.symm hj1
      · rw [if_neg hi2] at hki
        by_cases hj1 : j = nxt
        · rw [if_pos hj1] at hkj
          have h3 := R.hdistinct i hi cur R.hcur k hki hkj
          exact absurd h3 hi2
        · rw [if_neg hj1] at hkj
          by_cases hj2 : j = cur
          · rw [if_pos hj2] at hkj
            have h3 := R.hdistinct i hi nxt hnxtlt k hki hkj
            exact absurd h3 hi1
          · rw [if_neg hj2] at hkj
            exact R.hdistinct i hi j hj k hki hkj
  · -- hdo
    rw [hAt1]
    exact R.hdo
  · -- hdk
    rw [hAt1]
    exact R.hdk
  · -- hdv
    rw [hAt1]
    exact R.hdv
  · -- hlocal
    intro i hi hine hiprev hoi hdi
    by_cases h2 : i = cur
    · rw [h2] at hoi hdi hiprev ⊢
      rw [hAt2] at hoi hdi ⊢
      have hd2 : 2 ≤ nx.get_distance := by
        have h4 : 0 < nx.get_distance - 1 := hdi
        omega
      obtain ⟨hM1, hM2⟩ := R.hM4 hocc hd2
      rw [← hnxt, ← hnx] at hM2
      have hprevne1 : (cur + cap - 1) % cap ≠ cur := by
        intro he
        rw [show cur + cap - 1 = cur + (cap - 1) by omega] at he
        have h3 : (cur + 0) % cap = cur := by
          rw [Nat.add_zero, Nat.mod_eq_of_lt R.hcur]
        have := add_mod_inj (show cap - 1 < cap by omega)
          (show 0 < cap by omega) (by rw [he, h3])
        omega
      rw [hAt3 _ hprevne1 hiprev]
      refine ⟨hM1, ?_⟩
      show nx.get_distance - 1 - 1 ≤ _
      omega
    · have h1 : i ≠ nxt := hine
      have hprevnecur : (i + cap - 1) % cap ≠ cur := by
        intro he
        exact h1 ((prev_eq_iff hcap hi R.hcur).1 he)
      rw [hAt3 i h2 h1] at hoi hdi ⊢
      obtain ⟨hL1, hL2⟩ := R.hlocal i hi h2 hprevnecur hoi hdi
      rw [hAt3 _ hprevnecur hiprev]
      exact ⟨hL1, hL2⟩
  · -- hM4
    intro ho1 hd1b
    have hs1 : (nxt + 1) % cap = (cur + 2) % cap := by
      rw [hnxt, Nat.mod_add_mod]
    have hprevnxt : (nxt + cap - 1) % cap = cur := by
      rw [hnxt]
      exact succ_prev hcap R.hcur
    rw [hprevnxt, hAt2]
    by_cases hs1cur : (nxt + 1) % cap = cur
    · exfalso
      rw [hs1cur] at ho1 hd1b
      rw [hAt2] at ho1 hd1b
      have : (2:Int) ≤ nx.get_distance - 1 := hd1b
      have hcap2e : cap = 2 := by
        rw [hs1] at hs1cur
        have h3 : (cur + 0) % cap = cur := by
          rw [Nat.add_zero, Nat.mod_eq_of_lt R.hcur]
        by_cases hc3 : 2 < cap
        · have := add_mod_inj hc3 (show 0 < cap by omega) (by rw [hs1cur, h3])
          omega
        · omega
      rw [hcap2e] at hnxdlt
      unfold distN at hnxdlt
      omega
    · have hs1nxt : (nxt + 1) % cap ≠ nxt := by
        intro he
        have h2 : (nxt + 0) % cap = nxt := by
          rw [Nat.add_zero, Nat.mod_eq_of_lt hnxtlt]
        have := add_mod_inj (show 1 < cap by omega) (show 0 < cap by omega)
          (by rw [he, h2])
        omega
      rw [hAt3 _ hs1cur hs1nxt] at ho1 hd1b
      rw [hAt3 _ hs1cur hs1nxt]
      have hs1lt : (nxt + 1) % cap < cap := Nat.mod_lt _ hcap
      have hprevs1 : ((nxt + 1) % cap + cap - 1) % cap = nxt :=
        succ_prev hcap hnxtlt
      obtain ⟨hL1, hL2⟩ := R.hlocal ((nxt + 1) % cap) hs1lt hs1cur
        (by rw [hprevs1]; exact hne) ho1 (by omega)
      rw [hprevs1] at hL1 hL2
      rw [← hnx] at hL2
      constructor
      · exact hdecocc
      · show _ ≤ nx.get_distance - 1
        omega
  · -- hcount
    have hc1 : countOcc (ns.set cur dec) = countOcc ns := by
      rw [countOcc_set hcurlen, if_pos R.hdo, if_pos hdecocc]
      have := countOcc_pos_of_occ hcurlen R.hdo
      omega
    have hocc2 : Occ (nodeAt (ns.set cur dec) nxt) := by
      rw [nodeAt_set_ne (fun hc => hne hc.symm)]
      exact hocc
    rw [countOcc_set (by rw [List.length_set]; exact hnxtlen), if_pos hocc2,
      if_pos R.hdo, hc1]
    have h4 := countOcc_pos_of_occ hnxtlen hocc
    have h5 := R.hcount
    omega
  · -- hkeys
    intro k v
    rw [← R.hkeys k v]
    have hlen2 : ((ns.set cur dec).set nxt dmd).length = ns.length := by
      rw [List.length_set, List.length_set]
    constructor
    · rintro ⟨i, hi, hk, hv⟩
      rw [hlen2] at hi
      by_cases h1 : i = nxt
      · subst h1
        rw [hAt1] at hk hv
        exact ⟨cur, hcurlen, hk, hv⟩
      · by_cases h2 : i = cur
        · subst h2
          rw [hAt2] at hk hv
          rw [key_ref_of_occ hdecocc] at hk
          rw [value_ref_of_occ hdecocc] at hv
          refine ⟨nxt, hnxtlen, ?_, ?_⟩
          · rw [key_ref_of_occ hocc]
            exact hk
          · rw [value_ref_of_occ hocc]
            exact hv
        · rw [hAt3 i h2 h1] at hk hv
          exact ⟨i, hi, hk, hv⟩
    · rintro ⟨i, hi, hk, hv⟩
      by_cases h2 : i = cur
      · subst h2
        refine ⟨nxt, by rw [hlen2]; exact hnxtlen, ?_, ?_⟩
        · rw [hAt1]; exact hk
        · rw [hAt1]; exact hv
      · by_cases h1 : i = nxt
        · subst h1
          refine ⟨cur, by rw [hlen2]; exact hcurlen, ?_, ?_⟩
          · rw [hAt2, key_ref_of_occ hdecocc]
            rw [key_ref_of_occ hocc] at hk
            exact hk
          · rw [hAt2, value_ref_of_occ hdecocc]
            rw [value_ref_of_occ hocc] at hv
            exact hv
        · refine ⟨i, by rw [hlen2]; exact hi, ?_, ?_⟩
          · rw [hAt3 i h2 h1]; exact hk
          · rw [hAt3 i h2 h1]; exact hv

/-- The stop step of the backward-shift walk: emptying the current slot
restores the full table invariant and removes exactly the doomed binding. -/
theorem rem_stop {hf : K → Nat} {cap : Nat} {maxd : Int}
    {ns0 : List (Node K V)} {k0 : K} {v0 : V} {ns : List (Node K V)}
    {cur : Nat} (R : RemInv hf cap maxd ns0 k0 v0 ns cur) (hcap2 : 2 ≤ cap)
    (hstop : (nodeAt ns ((cur + 1) % cap)).has_value = false ∨
      (nodeAt ns ((cur + 1) % cap)).get_distance = 0) :
    TableInv hf cap (ns.set cur ⟨(nodeAt ns cur).hash, -1, none, none⟩) maxd ∧
    countOcc (ns.set cur ⟨(nodeAt ns cur).hash, -1, none, none⟩) + 1 =
      countOcc ns0 ∧
    (∀ (k : K) (v : V),
      holdsKV (ns.set cur ⟨(nodeAt ns cur).hash, -1, none, none⟩) k v ↔
      (holdsKV ns0 k v ∧ k ≠ k0)) := by
  have hcap : 0 < cap := by omega
  have hcurlen : cur < ns.length := by rw [R.hlen]; exact R.hcur
  set emp : Node K V := ⟨(nodeAt ns cur).hash, -1, none, none⟩ with hemp
  have hempocc : ¬ Occ emp := by
    rw [not_Occ_iff]
    show (-1 : Int) < 0
    omega
  have hAtc : nodeAt (ns.set cur emp) cur = emp := nodeAt_set_self hcurlen
  have hAto : ∀ x, x ≠ cur → nodeAt (ns.set cur emp) x = nodeAt ns x := by
    intro x hx
    rw [nodeAt_set_ne (fun hc => hx hc.symm)]
  refine ⟨⟨by rw [List.length_set]; exact R.hlen, R.hdvd, R.hmaxnn, ?_, ?_⟩,
    ?_, ?_⟩
  · -- hslots
    intro i hi hoi
    by_cases h2 : i = cur
    · rw [h2, hAtc] at hoi
      exact absurd hoi hempocc
    · rw [hAto i h2] at hoi
      rw [hAto i h2]
      obtain ⟨hw1, hw2, hw3, hw4⟩ := R.hwf i hi hoi
      refine ⟨hw1, hw2, hw3, R.hpos i hi h2 hoi, hw4, ?_⟩
      intro hdi
      by_cases hp : (i + cap - 1) % cap = cur
      · exfalso
        have hinxt : i = (cur + 1) % cap := (prev_eq_iff hcap hi R.hcur).1 hp
        rw [hinxt] at hoi hdi
        cases hstop with
        | inl h3 =>
          rw [Occ] at hoi
          rw [h3] at hoi
          cases hoi
        | inr h3 => omega
      · obtain ⟨hL1, hL2⟩ := R.hlocal i hi h2 hp hoi hdi
        rw [hAto _ hp]
        exact ⟨hL1, hL2⟩
  · -- hdistinct
    intro i hi j hj k hki hkj
    by_cases h1 : i = cur
    · exfalso
      rw [h1, hAtc, key_ref_of_not_occ hempocc] at hki
      cases hki
    · by_cases h2 : j = cur
      · exfalso
        rw [h2, hAtc, key_ref_of_not_occ hempocc] at hkj
        cases hkj
      · rw [hAto i h1] at hki
        rw [hAto j h2] at hkj
        exact R.hdistinct i hi j hj k hki hkj
  · -- count
    rw [countOcc_set hcurlen, if_pos R.hdo, if_neg hempocc]
    have h4 := countOcc_pos_of_occ hcurlen R.hdo
    have h5 := R.hcount
    omega
  · -- contents
    intro k v
    constructor
    · rintro ⟨i, hi, hk, hv⟩
      rw [List.length_set] at hi
      by_cases h1 : i = cur
      · exfalso
        rw [h1, hAtc, key_ref_of_not_occ hempocc] at hk
        cases hk
      · rw [hAto i h1] at hk hv
        refine ⟨(R.hkeys k v).1 ⟨i, hi, hk, hv⟩, ?_⟩
        intro he
        subst he
        apply h1
        exact R.hdistinct i (by rw [← R.hlen]; exact hi) cur R.hcur k hk
          (by rw [key_ref_of_occ R.hdo]; exact R.hdk)
    · rintro ⟨h4, hne0⟩
      obtain ⟨i, hi, hk, hv⟩ := (R.hkeys k v).2 h4
      have h1 : i ≠ cur := by
        intro he
        apply hne0
        rw [he, key_ref_of_occ R.hdo, R.hdk] at hk
        exact (Option.some.inj hk).symm
      refine ⟨i, by rw [List.length_set]; exact hi, ?_, ?_⟩
      · rw [hAto i h1]; exact hk
      · rw [hAto i h1]; exact hv

/-- The backward-shift walk terminates with the doomed value, restores the
table invariant with one fewer occupant, and preserves every other binding,
provided an empty slot lies ahead of the walk head within the fuel. -/
theorem remove_loop_ok {hf : K → Nat} {cap : Nat} {maxd : Int}
    {ns0 : List (Node K V)} {k0 : K} {v0 : V} :
    ∀ (fuel : Nat) (ns : List (Node K V)) (cur : Nat),
      RemInv hf cap maxd ns0 k0 v0 ns cur →
      (∃ m, m < cap - 1 ∧ m + 1 ≤ fuel ∧
        ¬ Occ (nodeAt ns ((cur + 1 + m) % cap))) →
      ∃ ns2, NodeStorage.remove_loop fuel ns cur = .ok (v0, ns2) ∧
        TableInv hf cap ns2 maxd ∧
        countOcc ns2 + 1 = countOcc ns0 ∧
        (∀ (k : K) (v : V), holdsKV ns2 k v ↔ (holdsKV ns0 k v ∧ k ≠ k0)) := by
  intro fuel
  induction fuel with
  | zero =>
    intro ns cur R hm
    obtain ⟨m, _, hm2, _⟩ := hm
    omega
  | succ f ih =>
    intro ns cur R hm
    obtain ⟨m, hm1, hm2, hm3⟩ := hm
    have hcap2 : 2 ≤ cap := by omega
    have hcap : 0 < cap := by omega
    have hnxtlt : (cur + 1) % cap < cap := Nat.mod_lt _ hcap
    have hcurlen : cur < ns.length := by rw [R.hlen]; exact R.hcur
    have hfm : fast_mod ns.length ((cur + 1) % U32) = (cur + 1) % cap := by
      rw [R.hlen]
      exact fast_mod_eq_mod R.hdvd
    have hnecur : (cur + 1) % cap ≠ cur := by
      intro he
      have h2 : (cur + 0) % cap = cur := by
        rw [Nat.add_zero, Nat.mod_eq_of_lt R.hcur]
      have h3 := add_mod_inj (show 1 < cap by omega) (show 0 < cap by omega)
        (by rw [h2, he])
      omega
    unfold NodeStorage.remove_loop
    rw [hfm]
    have hread : ns[(cur + 1) % cap]? =
        some (nodeAt ns ((cur + 1) % cap)) :=
      nodeAt_getElem? (by rw [R.hlen]; exact hnxtlt)
    simp only [hread]
    by_cases hstop : (nodeAt ns ((cur + 1) % cap)).has_value = false ∨
        (nodeAt ns ((cur + 1) % cap)).get_distance = 0
    · rw [if_pos hstop]
      rw [nodeAt_getElem? hcurlen]
      simp only
      have htake : (nodeAt ns cur).take_key_value =
          some ((k0, v0, (nodeAt ns cur).hash),
            ⟨(nodeAt ns cur).hash, -1, none, none⟩) := by
        unfold Node.take_key_value
        rw [if_pos (Occ_iff.1 R.hdo), R.hdk, R.hdv]
      rw [htake]
      simp only
      obtain ⟨hT, hC, hK⟩ := rem_stop R hcap2 hstop
      exact ⟨_, rfl, hT, hC, hK⟩
    · rw [if_neg hstop]
      push_neg at hstop
      obtain ⟨hhv, hdz⟩ := hstop
      have hocc : Occ (nodeAt ns ((cur + 1) % cap)) := by
        cases hb : (nodeAt ns ((cur + 1) % cap)).has_value
        · exact absurd hb hhv
        · exact hb
      rw [nodeAt_getElem? hcurlen]
      simp only
      have hat : ((ns.set cur (nodeAt ns ((cur + 1) % cap))).set
          ((cur + 1) % cap) (nodeAt ns cur))[cur]? =
          some (nodeAt ns ((cur + 1) % cap)) := by
        rw [List.getElem?_set_ne hnecur, List.getElem?_set_self hcurlen]
      rw [hat]
      simp only
      have hd0 : 0 ≤ (nodeAt ns ((cur + 1) % cap)).get_distance :=
        Occ_iff.1 hocc
      have hdec : (nodeAt ns ((cur + 1) % cap)).decrement_distance =
          .ok { nodeAt ns ((cur + 1) % cap) with
            distance_to_initial_bucket :=
              (nodeAt ns ((cur + 1) % cap)).get_distance - 1 } := by
        unfold Node.decrement_distance
        rw [if_neg (by
          unfold Node.get_distance at hd0 hdz
          omega)]
        rfl
      rw [hdec]
      simp only
      have hcomm : ((ns.set cur (nodeAt ns ((cur + 1) % cap))).set
            ((cur + 1) % cap) (nodeAt ns cur)).set cur
            { nodeAt ns ((cur + 1) % cap) with
              distance_to_initial_bucket :=
                (nodeAt ns ((cur + 1) % cap)).get_distance - 1 } =
          (ns.set cur
            { nodeAt ns ((cur + 1) % cap) with
              distance_to_initial_bucket :=
                (nodeAt ns ((cur + 1) % cap)).get_distance - 1 }).set
            ((cur + 1) % cap) (nodeAt ns cur) := by
        rw [List.set_comm _ _ _ hnecur, List.set_set]
      rw [hcomm]
      have R2 := rem_step R hcap2 hocc hdz
      have hmne : m ≠ 0 := by
        intro he
        rw [he, Nat.add_zero] at hm3
        exact hm3 hocc
      have hPnx : (cur + 1 + m) % cap ≠ (cur + 1) % cap := by
        intro he
        rw [he] at hm3
        exact hm3 hocc
      have hPcur : (cur + 1 + m) % cap ≠ cur := by
        intro he
        have h2 : (cur + (1 + m)) % cap = (cur + 0) % cap := by
          rw [← Nat.add_assoc, he, Nat.add_zero, Nat.mod_eq_of_lt R.hcur]
        have h3 := add_mod_inj (show 1 + m < cap by omega)
          (show 0 < cap by omega) h2
        omega
      refine ih _ _ R2 ⟨m - 1, by omega, by omega, ?_⟩
      have hP : ((cur + 1) % cap + 1 + (m - 1)) % cap = (cur + 1 + m) % cap := by
        rw [show (cur + 1) % cap + 1 + (m - 1) = (cur + 1) % cap + m by omega,
          Nat.mod_add_mod]
      rw [hP, nodeAt_set_ne hPnx.symm, nodeAt_set_ne (fun hc => hPcur hc.symm)]
      exact hm3

/-- `remove_from_location` on an occupied slot returns the stored value,
keeps the capacity and the running maximum displacement, decrements the
count, preserves the storage invariant and removes exactly the doomed key. -/
theorem remove_from_location_ok {hf : K → Nat} {s : NodeStorage K V}
    (inv : SInv hf s) {loc : Nat} (hloc : loc < s.capacity)
    (hocc : Occ (nodeAt s.nodes loc)) {k0 : K} {v0 : V}
    (hdk : (nodeAt s.nodes loc).key = some k0)
    (hdv : (nodeAt s.nodes loc).value = some v0) :
    ∃ s2, s.remove_from_location loc = .ok (v0, s2) ∧
      s2.capacity = s.capacity ∧
      s2.max_distance_to_initial_bucket = s.max_distance_to_initial_bucket ∧
      s2.number_of_items + 1 = s.number_of_items ∧
      SInv hf s2 ∧
      (∀ (k : K) (v : V), holdsKV s2.nodes k v ↔
        (holdsKV s.nodes k v ∧ k ≠ k0)) := by
  have hcap : 0 < s.capacity := by omega
  have hlen : s.nodes.length = s.capacity := rfl
  have R : RemInv hf s.capacity s.max_distance_to_initial_bucket
      s.nodes k0 v0 s.nodes loc := by
    refine ⟨hlen, inv.tbl.hdvd, inv.tbl.hmax, hloc, ?_, ?_, inv.tbl.hdistinct,
      hocc, hdk, hdv, ?_, ?_, rfl, fun k v => Iff.rfl⟩
    · intro i hi hoi
      obtain ⟨h1, h2, h3, _, h5, _⟩ := inv.tbl.hslots i hi hoi
      exact ⟨h1, h2, h3, h5⟩
    · intro i hi _ hoi
      exact (inv.tbl.hslots i hi hoi).2.2.2.1
    · intro i hi _ _ hoi hdi
      exact (inv.tbl.hslots i hi hoi).2.2.2.2.2 hdi
    · intro ho2 hd2
      have hnxtlt : (loc + 1) % s.capacity < s.capacity := Nat.mod_lt _ hcap
      have hprev : ((loc + 1) % s.capacity + s.capacity - 1) % s.capacity =
          loc := succ_prev hcap hloc
      obtain ⟨hA1, hA2⟩ :=
        (inv.tbl.hslots _ hnxtlt ho2).2.2.2.2.2 (by omega)
      rw [hprev] at hA1 hA2
      obtain ⟨hB1, hB2⟩ :=
        (inv.tbl.hslots loc hloc hA1).2.2.2.2.2 (by omega)
      exact ⟨hB1, by omega⟩
  have hmeas : ∃ m, m < s.capacity - 1 ∧ m + 1 ≤ s.capacity + 1 ∧
      ¬ Occ (nodeAt s.nodes ((loc + 1 + m) % s.capacity)) := by
    have hsp : countOcc s.nodes < s.nodes.length := by
      rw [hlen, ← inv.hcount]
      exact inv.hspace
    obtain ⟨m, hm1, hm2⟩ := exists_empty_probe (loc + 1) hsp
    rw [hlen] at hm1
    rw [hlen] at hm2
    refine ⟨m, ?_, by omega, hm2⟩
    rcases Nat.lt_or_ge m (s.capacity - 1) with h | h
    · exact h
    · exfalso
      have hme : m = s.capacity - 1 := by omega
      have hp : (loc + 1 + m) % s.capacity = loc := by
        rw [hme, show loc + 1 + (s.capacity - 1) = loc + s.capacity by omega,
          Nat.add_mod_right, Nat.mod_eq_of_lt hloc]
      rw [hp] at hm2
      exact hm2 hocc
  obtain ⟨ns2, hloop, hT, hC, hK⟩ :=
    remove_loop_ok (s.capacity + 1) s.nodes loc R hmeas
  have hone : 0 < s.number_of_items := by
    rw [inv.hcount]
    exact countOcc_pos_of_occ (by rw [hlen]; exact hloc) hocc
  refine ⟨⟨ns2, s.max_distance_to_initial_bucket, s.number_of_items - 1⟩,
    ?_, ?_, rfl,
    (by show s.number_of_items - 1 + 1 = s.number_of_items; omega),
    ⟨?_, ?_, ?_⟩, hK⟩
  · unfold NodeStorage.remove_from_location
    rw [hloop]
  · exact hT.hlen
  · show TableInv hf ns2.length ns2 s.max_distance_to_initial_bucket
    rw [hT.hlen]
    exact hT
  · show s.number_of_items - 1 = countOcc ns2
    have h2 := inv.hcount
    omega
  · show s.number_of_items - 1 < ns2.length
    rw [hT.hlen]
    have h2 := inv.hspace
    omega

end RemoveWalk

/-! ## Resizing -/

section Resize

variable {K V : Type}

/-- The table holds key `k` with value `v` in some node of the list
(membership form of `holdsKV`). -/
def listHolds (l : List (Node K V)) (k : K) (v : V) : Prop :=
  ∃ n, n ∈ l ∧ n.key_ref = some k ∧ n.value_ref = some v

theorem nodeAt_eq_getElem {ns : List (Node K V)} {i : Nat}
    (hi : i < ns.length) : nodeAt ns i = ns[i] := by
  unfold nodeAt
  rw [List.getElem?_eq_getElem hi]
  rfl

theorem holdsKV_iff_listHolds {ns : List (Node K V)} {k : K} {v : V} :
    holdsKV ns k v ↔ listHolds ns k v := by
  constructor
  · rintro ⟨i, hi, hk, hv⟩
    refine ⟨nodeAt ns i, ?_, hk, hv⟩
    rw [nodeAt_eq_getElem hi]
    exact List.getElem_mem hi
  · rintro ⟨n, hn, hk, hv⟩
    obtain ⟨i, hi, heq⟩ := List.getElem_of_mem hn
    have h3 : nodeAt ns i = n := by rw [nodeAt_eq_getElem hi, heq]
    exact ⟨i, hi, by rw [h3]; exact hk, by rw [h3]; exact hv⟩

theorem hasKey_exists_value {hf : K → Nat} {cap : Nat} {maxd : Int}
    {ns : List (Node K V)} (T : TableInv hf cap ns maxd) {k : K}
    (h : hasKey ns k) : ∃ v, holdsKV ns k v := by
  obtain ⟨i, hi, hk⟩ := h
  have hoc := occ_of_key_ref hk
  obtain ⟨_, hvs, _⟩ := T.hslots i (by rw [← T.hlen]; exact hi) hoc
  obtain ⟨v, hv⟩ := Option.isSome_iff_exists.1 hvs
  exact ⟨v, i, hi, hk, by rw [value_ref_of_occ hoc, hv]⟩

theorem hasKey_of_holdsKV {ns : List (Node K V)} {k : K} {v : V}
    (h : holdsKV ns k v) : hasKey ns k := by
  obtain ⟨i, hi, hk, _⟩ := h
  exact ⟨i, hi, hk⟩

/-- The re-insertion fold of `NodeStorage::resized_to`, abstracted over the
remaining list of drained slots. -/
def reinsert_fold [DecidableEq K] (acc : NodeStorage K V)
    (l : List (Node K V)) : Except String (NodeStorage K V) :=
  l.foldlM (fun acc node =>
    match node.take_key_value with
    | some ((key, value, hash), _) => do
        let (acc2, _) ← acc.insert_new key value hash
        pure acc2
    | none => pure acc) acc

theorem resized_to_eq_fold [DecidableEq K] {s : NodeStorage K V}
    {new_size : Nat} {init : NodeStorage K V}
    (h : NodeStorage.with_size new_size = .ok init) :
    s.resized_to new_size = reinsert_fold init s.nodes := by
  unfold NodeStorage.resized_to reinsert_fold
  rw [h]
  rfl

theorem reinsert_fold_cons_none [DecidableEq K] {acc : NodeStorage K V}
    {n : Node K V} {t : List (Node K V)} (h : n.take_key_value = none) :
    reinsert_fold acc (n :: t) = reinsert_fold acc t := by
  unfold reinsert_fold
  show (match n.take_key_value with
    | some ((key, value, hash), _) => do
        let (acc2, _) ← acc.insert_new key value hash
        pure acc2
    | none => pure acc).bind
      (fun b => t.foldlM _ b) = _
  rw [h]
  rfl

theorem reinsert_fold_cons_some [DecidableEq K] {acc acc2 : NodeStorage K V}
    {n : Node K V} {t : List (Node K V)} {k : K} {v : V} {hsh : Nat}
    {rest : Node K V} {loc : Nat}
    (h : n.take_key_value = some ((k, v, hsh), rest))
    (he : acc.insert_new k v hsh = .ok (acc2, loc)) :
    reinsert_fold acc (n :: t) = reinsert_fold acc2 t := by
  unfold reinsert_fold
  show (match n.take_key_value with
    | some ((key, value, hash), _) => do
        let (acc2, _) ← acc.insert_new key value hash
        pure acc2
    | none => pure acc).bind
      (fun b => t.foldlM _ b) = _
  rw [h]
  show ((acc.insert_new k v hsh).bind _).bind _ = _
  rw [he]
  rfl

/-- Re-inserting a list of pairwise-distinct, well-formed, fresh entries into
an invariant table succeeds and adds exactly those entries. -/
theorem reinsert_fold_ok [DecidableEq K] {hf : K → Nat} :
    ∀ (l : List (Node K V)) (acc : NodeStorage K V),
      SInv hf acc →
      (∀ n ∈ l, Occ n →
        (∃ k, n.key = some k ∧ n.hash = hf k % U32) ∧
          n.value.isSome = true) →
      (∀ n ∈ l, ∀ k : K, n.key_ref = some k → ¬ hasKey acc.nodes k) →
      l.Pairwise (fun a b => ∀ k : K, a.key_ref = some k →
        b.key_ref ≠ some k) →
      acc.number_of_items + countOcc l < acc.capacity →
      ∃ s2, reinsert_fold acc l = .ok s2 ∧ SInv hf s2 ∧
        s2.capacity = acc.capacity ∧
        s2.number_of_items = acc.number_of_items + countOcc l ∧
        (∀ (k : K) (v : V), holdsKV s2.nodes k v ↔
          (holdsKV acc.nodes k v ∨ listHolds l k v)) := by
  intro l
  induction l with
  | nil =>
    intro acc inv _ _ _ _
    refine ⟨acc, rfl, inv, rfl, ?_, ?_⟩
    · show acc.number_of_items = acc.number_of_items + countOcc ([] : List (Node K V))
      rfl
    · intro k v
      simp [listHolds]
  | cons n t ih =>
    intro acc inv hwf habs hpair hcnt
    obtain ⟨hphead, hptail⟩ := List.pairwise_cons.1 hpair
    by_cases hocc : Occ n
    · obtain ⟨⟨k, hk, hh⟩, hvs⟩ := hwf n (List.mem_cons_self n t) hocc
      obtain ⟨v, hv⟩ := Option.isSome_iff_exists.1 hvs
      have hkr : n.key_ref = some k := by rw [key_ref_of_occ hocc]; exact hk
      have hcntc : countOcc (n :: t) = countOcc t + 1 := by
        unfold countOcc
        rw [List.countP_cons]
        rw [show n.has_value = true from hocc]
        rfl
      have htake : n.take_key_value =
          some ((k, v, n.hash), ⟨n.hash, -1, none, none⟩) := by
        unfold Node.take_key_value
        rw [if_pos (Occ_iff.1 hocc), hk, hv]
      have habs0 : ¬ hasKey acc.nodes k :=
        habs n (List.mem_cons_self n t) k hkr
      obtain ⟨ns2, maxd2, loc, heq, hT, hlen2, hcnt2, _, hiff, _, _, _⟩ :=
        insert_new_ok (v := v) inv habs0
      rw [← hh] at heq
      have hstep := reinsert_fold_cons_some (t := t) htake heq
      set acc2 : NodeStorage K V :=
        ⟨ns2, maxd2, acc.number_of_items + 1⟩ with hacc2
      have hcap2 : acc2.capacity = acc.capacity := hlen2
      have inv2 : SInv hf acc2 := by
        refine ⟨?_, ?_, ?_⟩
        · show TableInv hf ns2.length ns2 maxd2
          rw [hlen2]
          exact hT
        · show acc.number_of_items + 1 = countOcc ns2
          omega
        · show acc.number_of_items + 1 < ns2.length
          rw [hlen2]
          omega
      have habs2 : ∀ m ∈ t, ∀ k2 : K, m.key_ref = some k2 →
          ¬ hasKey acc2.nodes k2 := by
        intro m hm k2 hk2 hhk
        obtain ⟨v2, hv2⟩ := hasKey_exists_value hT hhk
        rcases (hiff k2 v2).1 hv2 with h4 | h4
        · exact habs m (List.mem_cons_of_mem n hm) k2 hk2
            (hasKey_of_holdsKV h4)
        · apply hphead m hm k hkr
          rw [hk2, h4.1]
      have hcnt' : acc2.number_of_items + countOcc t < acc2.capacity := by
        rw [hcap2]
        show acc.number_of_items + 1 + countOcc t < acc.capacity
        omega
      obtain ⟨s2, hfold, inv3, hcap3, hni3, hiff3⟩ :=
        ih acc2 inv2
          (fun m hm => hwf m (List.mem_cons_of_mem n hm))
          habs2 hptail hcnt'
      refine ⟨s2, by rw [hstep]; exact hfold, inv3, by rw [hcap3, hcap2],
        ?_, ?_⟩
      · rw [hni3, hcntc]
        show acc.number_of_items + 1 + countOcc t = _
        omega
      · intro k2 v2
        rw [hiff3 k2 v2]
        constructor
        · rintro (h4 | h4)
          · rcases (hiff k2 v2).1 h4 with h5 | h5
            · exact Or.inl h5
            · refine Or.inr ⟨n, List.mem_cons_self n t, ?_, ?_⟩
              · rw [hkr, h5.1]
              · rw [value_ref_of_occ hocc, hv, h5.2]
          · obtain ⟨m, hm, hmk, hmv⟩ := h4
            exact Or.inr ⟨m, List.mem_cons_of_mem n hm, hmk, hmv⟩
        · rintro (h4 | h4)
          · exact Or.inl ((hiff k2 v2).2 (Or.inl h4))
          · obtain ⟨m, hm, hmk, hmv⟩ := h4
            rcases List.mem_cons.1 hm with h5 | h5
            · subst h5
              refine Or.inl ((hiff k2 v2).2 (Or.inr ⟨?_, ?_⟩))
              · rw [hkr] at hmk
                exact (Option.some.inj hmk).symm
              · rw [value_ref_of_occ hocc, hv] at hmv
                exact (Option.some.inj hmv).symm
            · exact Or.inr ⟨m, h5, hmk, hmv⟩
    · have htake : n.take_key_value = none := by
        unfold Node.take_key_value
        rw [if_neg (by have := not_Occ_iff.1 hocc; omega)]
      have hcntc : countOcc (n :: t) = countOcc t := by
        unfold countOcc
        rw [List.countP_cons]
        rw [show n.has_value = false by
          cases hb : n.has_value
          · rfl
          · exact absurd hb hocc]
        rfl
      have hstep := @reinsert_fold_cons_none K V _ acc n t htake
      obtain ⟨s2, hfold, inv3, hcap3, hni3, hiff3⟩ :=
        ih acc inv
          (fun m hm => hwf m (List.mem_cons_of_mem n hm))
          (fun m hm => habs m (List.mem_cons_of_mem n hm))
          hptail (by rw [hcntc] at hcnt; exact hcnt)
      refine ⟨s2, by rw [hstep]; exact hfold, inv3, hcap3,
        by rw [hni3, hcntc], ?_⟩
      intro k2 v2
      rw [hiff3 k2 v2]
      constructor
      · rintro (h4 | h4)
        · exact Or.inl h4
        · obtain ⟨m, hm, hmk, hmv⟩ := h4
          exact Or.inr ⟨m, List.mem_cons_of_mem n hm, hmk, hmv⟩
      · rintro (h4 | h4)
        · exact Or.inl h4
        · obtain ⟨m, hm, hmk, hmv⟩ := h4
          rcases List.mem_cons.1 hm with h5 | h5
          · exfalso
            rw [h5, key_ref_of_not_occ hocc] at hmk
            cases hmk
          · exact Or.inr ⟨m, h5, hmk, hmv⟩

theorem nodeAt_replicate {n i : Nat} :
    nodeAt (List.replicate n (Node.new : Node K V)) i = Node.new := by
  unfold nodeAt
  rw [List.getElem?_replicate]
  by_cases h : i < n
  · rw [if_pos h]
    rfl
  · rw [if_neg h]
    rfl

/-- `resized_to` on an invariant table, targeting a power-of-two capacity
dividing `2^32` that strictly exceeds the number of live entries, succeeds and
preserves the contents and the count. -/
theorem resized_to_ok [DecidableEq K] {hf : K → Nat} {s : NodeStorage K V}
    (inv : SInv hf s) {new_size : Nat} (hdvd : new_size ∣ U32)
    (hcount : s.number_of_items < new_size) :
    ∃ s2, s.resized_to new_size = .ok s2 ∧ SInv hf s2 ∧
      s2.capacity = new_size ∧
      s2.number_of_items = s.number_of_items ∧
      (∀ (k : K) (v : V), holdsKV s2.nodes k v ↔ holdsKV s.nodes k v) := by
  have hpos : 0 < new_size := cap_pos_of_dvd hdvd
  have hpow : is_power_of_two new_size = true := by
    obtain ⟨kk, _, heq⟩ := cap_pow_of_dvd hdvd
    exact is_power_of_two_iff.2 ⟨kk, heq⟩
  have hws : NodeStorage.with_size new_size =
      .ok (⟨List.replicate new_size Node.new, 0, 0⟩ : NodeStorage K V) := by
    unfold NodeStorage.with_size
    rw [if_pos hpow]
  set init : NodeStorage K V :=
    ⟨List.replicate new_size Node.new, 0, 0⟩ with hinit
  have hinitcap : init.capacity = new_size := List.length_replicate _ _
  have hinitempty : ∀ (k : K) (v : V), ¬ holdsKV init.nodes k v := by
    rintro k v ⟨i, hi, hk, _⟩
    rw [show nodeAt init.nodes i = Node.new from nodeAt_replicate,
      key_ref_of_not_occ not_occ_new] at hk
    cases hk
  have invInit : SInv hf init := by
    refine ⟨⟨rfl, ?_, le_refl 0, ?_, ?_⟩, ?_, ?_⟩
    · rw [show init.capacity = new_size from hinitcap]
      exact hdvd
    · intro i hi hoi
      rw [show nodeAt init.nodes i = Node.new from nodeAt_replicate] at hoi
      exact absurd hoi not_occ_new
    · intro i _ j _ k hki _
      rw [show nodeAt init.nodes i = Node.new from nodeAt_replicate,
        key_ref_of_not_occ not_occ_new] at hki
      cases hki
    · show 0 = countOcc (List.replicate new_size Node.new)
      symm
      unfold countOcc
      rw [List.countP_eq_zero]
      intro a ha
      rw [List.eq_of_mem_replicate ha]
      exact fun hc => not_occ_new hc
    · show 0 < init.capacity
      rw [hinitcap]
      exact hpos
  have hwf : ∀ n ∈ s.nodes, Occ n →
      (∃ k, n.key = some k ∧ n.hash = hf k % U32) ∧
        n.value.isSome = true := by
    intro n hn hoc
    obtain ⟨i, hi, heq⟩ := List.getElem_of_mem hn
    have h3 : nodeAt s.nodes i = n := by rw [nodeAt_eq_getElem hi, heq]
    obtain ⟨hA, hB, _⟩ := inv.tbl.hslots i hi (by rw [h3]; exact hoc)
    rw [h3] at hA hB
    exact ⟨hA, hB⟩
  have habs : ∀ n ∈ s.nodes, ∀ k : K, n.key_ref = some k →
      ¬ hasKey init.nodes k := by
    rintro n _ k _ ⟨i, _, hki⟩
    rw [show nodeAt init.nodes i = Node.new from nodeAt_replicate,
      key_ref_of_not_occ not_occ_new] at hki
    cases hki
  have hpair : s.nodes.Pairwise (fun a b => ∀ k : K,
      a.key_ref = some k → b.key_ref ≠ some k) := by
    rw [List.pairwise_iff_getElem]
    intro i j hi hj hij k hki hkj
    have h4 := inv.tbl.hdistinct i hi j hj k
      (by rw [nodeAt_eq_getElem hi]; exact hki)
      (by rw [nodeAt_eq_getElem hj]; exact hkj)
    omega
  have hcnt : init.number_of_items + countOcc s.nodes < init.capacity := by
    rw [hinitcap]
    show 0 + countOcc s.nodes < new_size
    rw [Nat.zero_add, ← inv.hcount]
    exact hcount
  obtain ⟨s2, hfold, inv2, hcap, hni, hiff⟩ :=
    reinsert_fold_ok s.nodes init invInit hwf habs hpair hcnt
  refine ⟨s2, ?_, inv2, by rw [hcap, hinitcap], ?_, ?_⟩
  · rw [resized_to_eq_fold hws]
    exact hfold
  · rw [hni]
    show 0 + countOcc s.nodes = s.number_of_items
    rw [Nat.zero_add, inv.hcount]
  · intro k v
    rw [hiff k v]
    constructor
    · rintro (h4 | h4)
      · exact absurd h4 (hinitempty k v)
      · exact holdsKV_iff_listHolds.2 h4
    · intro h4
      exact Or.inr (holdsKV_iff_listHolds.1 h4)

/-- `HashMap::resize` to a non-shrinking power-of-two capacity dividing `2^32`
succeeds, keeps the hasher, the count and every binding, and installs the
requested capacity. -/
theorem resize_ok [DecidableEq K] {m : HashMap K V} (inv : MapInv m)
    {new_size : Nat} (hdvd : new_size ∣ U32)
    (hge : m.nodes.capacity ≤ new_size) :
    ∃ m2, m.resize new_size = .ok m2 ∧ MapInv m2 ∧
      m2.hasher = m.hasher ∧ m2.nodes.capacity = new_size ∧
      m2.len = m.len ∧
      (∀ (k : K) (v : V),
        holdsKV m2.nodes.nodes k v ↔ holdsKV m.nodes.nodes k v) := by
  unfold HashMap.resize
  rw [if_neg (by omega)]
  by_cases he : new_size = m.nodes.capacity
  · rw [if_pos he]
    exact ⟨m, rfl, inv, rfl, he.symm, rfl, fun k v => Iff.rfl⟩
  · rw [if_neg he]
    obtain ⟨s2, hrt, inv2, hcap, hni, hiff⟩ :=
      resized_to_ok inv hdvd (by have h1 := inv.hspace; omega)
    refine ⟨⟨s2, m.hasher⟩, ?_, inv2, rfl, hcap, hni, hiff⟩
    show (m.nodes.resized_to new_size).bind _ = _
    rw [hrt]
    rfl

end Resize

/-! ## Map-level operations -/

section MapLevel

variable {K V : Type}

/-- Overwriting the payload of an occupied slot with a node carrying the same
hash, displacement and key, and an initialised value, preserves the table
invariant and the count, and rebinds exactly that slot's key. -/
theorem set_same_key_inv {hf : K → Nat} {cap : Nat} {maxd : Int}
    {ns : List (Node K V)} (T : TableInv hf cap ns maxd) {i : Nat}
    (hi : i < cap) (hocc : Occ (nodeAt ns i)) {b : Node K V}
    (hh : b.hash = (nodeAt ns i).hash)
    (hd : b.distance_to_initial_bucket =
      (nodeAt ns i).distance_to_initial_bucket)
    (hk : b.key = (nodeAt ns i).key)
    {k : K} (hkk : (nodeAt ns i).key = some k)
    {v : V} (hv : b.value = some v) :
    TableInv hf cap (ns.set i b) maxd ∧
    countOcc (ns.set i b) = countOcc ns ∧
    (∀ (k2 : K) (v2 : V), holdsKV (ns.set i b) k2 v2 ↔
      ((holdsKV ns k2 v2 ∧ k2 ≠ k) ∨ (k2 = k ∧ v2 = v))) := by
  have hilen : i < ns.length := by rw [T.hlen]; exact hi
  have hocc2 : Occ b := by
    rw [Occ_iff, hd]
    exact Occ_iff.1 hocc
  have hAti : nodeAt (ns.set i b) i = b := nodeAt_set_self hilen
  have hAt : ∀ j, j ≠ i → nodeAt (ns.set i b) j = nodeAt ns j := by
    intro j hj
    exact nodeAt_set_ne (fun hc => hj hc.symm)
  have hdist : b.get_distance = (nodeAt ns i).get_distance := hd
  have hdistN : distN b = distN (nodeAt ns i) := by
    unfold distN
    rw [hdist]
  have hkr : ∀ j, (nodeAt (ns.set i b) j).key_ref =
      (nodeAt ns j).key_ref := by
    intro j
    by_cases hj : j = i
    · rw [hj, hAti, key_ref_of_occ hocc2, key_ref_of_occ hocc, hk]
    · rw [hAt j hj]
  have hOccAll : ∀ j, Occ (nodeAt (ns.set i b) j) ↔ Occ (nodeAt ns j) := by
    intro j
    by_cases hj : j = i
    · rw [hj, hAti]
      exact ⟨fun _ => hocc, fun _ => hocc2⟩
    · rw [hAt j hj]
  have hDistAll : ∀ j, (nodeAt (ns.set i b) j).get_distance =
      (nodeAt ns j).get_distance := by
    intro j
    by_cases hj : j = i
    · rw [hj, hAti, hdist]
    · rw [hAt j hj]
  obtain ⟨⟨kw, hkw, hhw⟩, _, hdlt, hposi, hmb, hloci⟩ := T.hslots i hi hocc
  have hkwk : kw = k := by
    rw [hkw] at hkk
    exact Option.some.inj hkk
  refine ⟨⟨by rw [List.length_set]; exact T.hlen, T.hdvd, T.hmax, ?_, ?_⟩,
    ?_, ?_⟩
  · -- hslots
    intro j hj hoj
    by_cases hji : j = i
    · rw [hji, hAti]
      refine ⟨⟨k, by rw [hk, hkk], by rw [hh, hhw, hkwk]⟩,
        by rw [hv]; rfl, by rw [hdistN]; exact hdlt,
        by rw [hh, hdistN]; exact hposi, by rw [hdist]; exact hmb, ?_⟩
      intro hdp
      rw [hdist] at hdp
      by_cases hp : (i + cap - 1) % cap = i
      · rw [hp, hAti]
        exact ⟨hocc2, by omega⟩
      · rw [hAt _ hp]
        obtain ⟨hL1, hL2⟩ := hloci hdp
        exact ⟨hL1, by rw [hdist]; exact hL2⟩
    · rw [hAt j hji] at hoj
      rw [hAt j hji]
      obtain ⟨hw1, hw2, hw3, hw4, hw5, hw6⟩ := T.hslots j hj hoj
      refine ⟨hw1, hw2, hw3, hw4, hw5, ?_⟩
      intro hdp
      by_cases hpi : (j + cap - 1) % cap = i
      · obtain ⟨hL1, hL2⟩ := hw6 hdp
        rw [hpi] at hL1 hL2
        rw [hpi, hAti]
        exact ⟨hocc2, by rw [hdist]; exact hL2⟩
      · rw [hAt _ hpi]
        exact hw6 hdp
  · -- hdistinct
    intro i' hi' j' hj' k' hki' hkj'
    rw [hkr] at hki' hkj'
    exact T.hdistinct i' hi' j' hj' k' hki' hkj'
  · -- count
    rw [countOcc_set hilen, if_pos hocc, if_pos hocc2]
    have h4 := countOcc_pos_of_occ hilen hocc
    omega
  · -- contents
    intro k2 v2
    constructor
    · rintro ⟨j, hj, hk2, hv2⟩
      rw [List.length_set] at hj
      by_cases hji : j = i
      · rw [hji, hAti, key_ref_of_occ hocc2, hk, hkk] at hk2
        rw [hji, hAti, value_ref_of_occ hocc2, hv] at hv2
        exact Or.inr ⟨(Option.some.inj hk2).symm, (Option.some.inj hv2).symm⟩
      · rw [hAt j hji] at hk2 hv2
        refine Or.inl ⟨⟨j, hj, hk2, hv2⟩, ?_⟩
        intro he
        apply hji
        refine T.hdistinct j (by rw [← T.hlen]; exact hj) i hi k2 hk2 ?_
        rw [key_ref_of_occ hocc, hkk, he]
    · rintro (⟨⟨j, hj, hk2, hv2⟩, hne⟩ | ⟨he1, he2⟩)
      · have hji : j ≠ i := by
          intro he
          apply hne
          rw [he, key_ref_of_occ hocc, hkk] at hk2
          exact (Option.some.inj hk2).symm
        exact ⟨j, by rw [List.length_set]; exact hj,
          by rw [hAt j hji]; exact hk2, by rw [hAt j hji]; exact hv2⟩
      · refine ⟨i, by rw [List.length_set]; exact hilen, ?_, ?_⟩
        · rw [hAti, key_ref_of_occ hocc2, hk, hkk, he1]
        · rw [hAti, value_ref_of_occ hocc2, hv, he2]

/-- `HashMap::get` returns `some v` exactly when the table holds the binding
`(k, v)`. -/
theorem get_eq_some_iff [DecidableEq K] {m : HashMap K V} (inv : MapInv m)
    {k : K} {v : V} :
    m.get k = some v ↔ holdsKV m.nodes.nodes k v := by
  constructor
  · intro h
    unfold HashMap.get at h
    cases hg : m.nodes.get_location k (m.hash k) with
    | none =>
      rw [hg] at h
      cases h
    | some loc =>
      rw [hg] at h
      obtain ⟨hlt, hkr⟩ := get_location_some hg
      have hlen : loc < m.nodes.nodes.length := hlt
      rw [Option.some_bind, nodeAt_getElem? hlen, Option.some_bind] at h
      exact ⟨loc, hlen, hkr, h⟩
  · rintro ⟨i, hi, hk, hv⟩
    have hocc := occ_of_key_ref hk
    have hkey : (nodeAt m.nodes.nodes i).key = some k := by
      rw [← key_ref_of_occ hocc]
      exact hk
    have hloc := get_location_present inv hi hocc hkey
    unfold HashMap.get
    rw [show m.hash k = m.hasher k % U32 from rfl, hloc, Option.some_bind,
      nodeAt_getElem? hi, Option.some_bind]
    exact hv

/-- `HashMap::get` returns `none` exactly when the key is absent. -/
theorem get_eq_none_iff [DecidableEq K] {m : HashMap K V} (inv : MapInv m)
    {k : K} : m.get k = none ↔ ¬ hasKey m.nodes.nodes k := by
  constructor
  · intro h hk
    obtain ⟨v, hv⟩ := hasKey_exists_value inv.tbl hk
    rw [(get_eq_some_iff inv).2 hv] at h
    cases h
  · intro h
    unfold HashMap.get
    rw [get_location_absent h]
    rfl

theorem insert_eq_present [DecidableEq K] {m : HashMap K V} {k : K} {v : V}
    {loc : Nat} (h : m.nodes.get_location k (m.hash k) = some loc) :
    m.insert k v = (m.nodes.replace_at_location loc k v).bind
      (fun x => HashMap.insert_result { m with nodes := x.2 } loc) := by
  simp only [HashMap.insert]
  rw [h]
  rfl

theorem insert_eq_absent_grow [DecidableEq K] {m : HashMap K V} {k : K}
    {v : V} (h : m.nodes.get_location k (m.hash k) = none)
    (hg : m.nodes.capacity * 85 / 100 ≤ m.len) :
    m.insert k v = ((m.resize (m.nodes.capacity * 2)).bind fun m2 =>
      (m2.nodes.insert_new k v (m.hash k)).bind fun x =>
        HashMap.insert_result { m2 with nodes := x.1 } x.2) := by
  simp only [HashMap.insert]
  rw [h]
  simp only
  rw [if_pos hg]
  rfl

theorem insert_eq_absent_nogrow [DecidableEq K] {m : HashMap K V} {k : K}
    {v : V} (h : m.nodes.get_location k (m.hash k) = none)
    (hg : ¬ m.nodes.capacity * 85 / 100 ≤ m.len) :
    m.insert k v = ((m.nodes.insert_new k v (m.hash k)).bind fun x =>
      HashMap.insert_result { m with nodes := x.1 } x.2) := by
  simp only [HashMap.insert]
  rw [h]
  simp only
  rw [if_neg hg]
  rfl

/-- `HashMap::insert` on a present key: the value (and stored key) at the
resolved slot are replaced in place; count, capacity and all other bindings
are unchanged. -/
theorem insert_present_ok [DecidableEq K] {m : HashMap K V} (inv : MapInv m)
    {k : K} {v : V} {i : Nat} (hi : i < m.nodes.capacity)
    (hocc : Occ (nodeAt m.nodes.nodes i))
    (hkey : (nodeAt m.nodes.nodes i).key = some k) :
    ∃ m2, m.insert k v = .ok (m2, i) ∧ MapInv m2 ∧
      m2.hasher = m.hasher ∧
      m2.nodes.capacity = m.nodes.capacity ∧
      m2.len = m.len ∧
      (∀ (k2 : K) (v2 : V), holdsKV m2.nodes.nodes k2 v2 ↔
        ((holdsKV m.nodes.nodes k2 v2 ∧ k2 ≠ k) ∨ (k2 = k ∧ v2 = v))) := by
  have hilen : i < m.nodes.nodes.length := hi
  have hloc := get_location_present inv hi hocc hkey
  obtain ⟨_, hvs, _⟩ := inv.tbl.hslots i hi hocc
  obtain ⟨ov, hov⟩ := Option.isSome_iff_exists.1 hvs
  set node2 : Node K V :=
    { nodeAt m.nodes.nodes i with key := some k, value := some v } with hnode2
  have hrepl : (nodeAt m.nodes.nodes i).replace k v =
      .ok ((k, ov), node2) := by
    unfold Node.replace
    rw [if_pos (Occ_iff.1 hocc), hkey, hov]
  have hrep : m.nodes.replace_at_location i k v =
      .ok (ov, { m.nodes with nodes := m.nodes.nodes.set i node2 }) := by
    unfold NodeStorage.replace_at_location
    rw [nodeAt_getElem? hilen]
    show ((nodeAt m.nodes.nodes i).replace k v).bind _ = _
    rw [hrepl]
    rfl
  have hocc2 : Occ node2 := by
    rw [Occ_iff]
    exact Occ_iff.1 hocc
  obtain ⟨T2, hcnt2, hiff2⟩ :=
    set_same_key_inv inv.tbl hi hocc (b := node2) rfl rfl
      (by rw [hnode2, hkey]) hkey rfl
  set m2 : HashMap K V :=
    ⟨{ m.nodes with nodes := m.nodes.nodes.set i node2 }, m.hasher⟩ with hm2
  have hgetm2 : m2.nodes.nodes[i]? = some node2 :=
    List.getElem?_set_self hilen
  have hres : HashMap.insert_result m2 i = .ok (m2, i) := by
    unfold HashMap.insert_result
    rw [hgetm2]
    simp only
    rw [value_ref_of_occ hocc2]
  refine ⟨m2, ?_, ⟨?_, ?_, ?_⟩, rfl, ?_, rfl, hiff2⟩
  · rw [insert_eq_present
      (by rw [show m.hash k = m.hasher k % U32 from rfl]; exact hloc), hrep]
    exact hres
  · show TableInv m.hasher (m.nodes.nodes.set i node2).length
      (m.nodes.nodes.set i node2) m.nodes.max_distance_to_initial_bucket
    rw [List.length_set]
    exact T2
  · show m.nodes.number_of_items = countOcc (m.nodes.nodes.set i node2)
    rw [hcnt2]
    exact inv.hcount
  · show m.nodes.number_of_items < (m.nodes.nodes.set i node2).length
    rw [List.length_set]
    exact inv.hspace
  · show (m.nodes.nodes.set i node2).length = m.nodes.nodes.length
    rw [List.length_set]

theorem cap_double_dvd {cap : Nat} (hdvd : cap ∣ U32) (hlt : cap < U32) :
    cap * 2 ∣ U32 := by
  obtain ⟨kk, hk32, heq⟩ := cap_pow_of_dvd hdvd
  have hklt : kk < 32 := by
    by_contra hc
    have h2 : kk = 32 := by omega
    rw [heq, h2, ← U32_eq] at hlt
    omega
  rw [heq, U32_eq, show (2:Nat) ^ kk * 2 = 2 ^ (kk + 1) by ring]
  exact Nat.pow_dvd_pow 2 (by omega)

/-- `HashMap::insert` on an absent key: the capacity doubles first exactly
when `capacity * 85 / 100 ≤ len`, then the pair is inserted; the count grows
by one and all previous bindings survive. -/
theorem insert_absent_ok [DecidableEq K] {m : HashMap K V} (inv : MapInv m)
    {k : K} {v : V} (habs : ¬ hasKey m.nodes.nodes k)
    (hlt : m.nodes.capacity < U32) :
    ∃ m2 loc, m.insert k v = .ok (m2, loc) ∧ MapInv m2 ∧
      m2.hasher = m.hasher ∧
      m2.len = m.len + 1 ∧
      m2.nodes.capacity =
        (if m.nodes.capacity * 85 / 100 ≤ m.len then m.nodes.capacity * 2
          else m.nodes.capacity) ∧
      (∀ (k2 : K) (v2 : V), holdsKV m2.nodes.nodes k2 v2 ↔
        (holdsKV m.nodes.nodes k2 v2 ∨ (k2 = k ∧ v2 = v))) := by
  have hcap : 0 < m.nodes.capacity := cap_pos_of_dvd inv.tbl.hdvd
  have hloc0 : m.nodes.get_location k (m.hash k) = none :=
    get_location_absent habs
  by_cases hgrow : m.nodes.capacity * 85 / 100 ≤ m.len
  · -- growth branch
    have hdvd2 := cap_double_dvd inv.tbl.hdvd hlt
    obtain ⟨mr, hres, invr, hhash, hcapr, hlenr, hiffr⟩ :=
      resize_ok inv hdvd2 (by omega)
    have habsr : ¬ hasKey mr.nodes.nodes k := by
      intro hk2
      obtain ⟨v2, hv2⟩ := hasKey_exists_value invr.tbl hk2
      exact habs (hasKey_of_holdsKV ((hiffr k v2).1 hv2))
    obtain ⟨ns2, maxd2, loc, heqi, hT, hlen2, hcnt2, _, hiffi, hloclt,
      hocc2, hvs2⟩ := insert_new_ok (v := v) invr habsr
    have heqi2 : mr.nodes.insert_new k v (m.hash k) =
        .ok (⟨ns2, maxd2, mr.nodes.number_of_items + 1⟩, loc) := by
      rw [show m.hash k = mr.hasher k % U32 by
        rw [hhash]
        rfl]
      exact heqi
    set m2 : HashMap K V :=
      ⟨⟨ns2, maxd2, mr.nodes.number_of_items + 1⟩, mr.hasher⟩ with hm2
    have hloclen : loc < ns2.length := by rw [hlen2]; exact hloclt
    have hres2 : HashMap.insert_result m2 loc = .ok (m2, loc) := by
      unfold HashMap.insert_result
      rw [show m2.nodes.nodes[loc]? = some (nodeAt ns2 loc) from
        nodeAt_getElem? hloclen]
      simp only
      rw [value_ref_of_occ hocc2]
      obtain ⟨v2, hv2⟩ := Option.isSome_iff_exists.1 hvs2
      rw [hv2]
    have hsp : mr.nodes.number_of_items + 1 < mr.nodes.capacity := by
      have h1 := inv.hspace
      have h2 : mr.len = m.len := hlenr
      have h3 : mr.nodes.capacity = m.nodes.capacity * 2 := hcapr
      show mr.nodes.number_of_items + 1 < mr.nodes.capacity
      have h4 : mr.nodes.number_of_items = m.nodes.number_of_items := h2
      omega
    refine ⟨m2, loc, ?_, ⟨?_, ?_, ?_⟩, by rw [hm2]; exact hhash, ?_, ?_, ?_⟩
    · rw [insert_eq_absent_grow hloc0 hgrow, hres]
      show (mr.nodes.insert_new k v (m.hash k)).bind _ = _
      rw [heqi2]
      exact hres2
    · show TableInv m2.hasher ns2.length ns2 maxd2
      rw [hlen2]
      exact hT
    · exact hcnt2.symm
    · show mr.nodes.number_of_items + 1 < ns2.length
      rw [hlen2]
      exact hsp
    · show mr.nodes.number_of_items + 1 = m.len + 1
      have h4 : mr.nodes.number_of_items = m.len := hlenr
      omega
    · show ns2.length = _
      rw [if_pos hgrow, hlen2]
      exact hcapr
    · intro k2 v2
      rw [show holdsKV m2.nodes.nodes k2 v2 = holdsKV ns2 k2 v2 from rfl,
        hiffi k2 v2, hiffr k2 v2]
  · -- no-growth branch
    obtain ⟨ns2, maxd2, loc, heqi, hT, hlen2, hcnt2, _, hiffi, hloclt,
      hocc2, hvs2⟩ := insert_new_ok (v := v) inv habs
    have heqi2 : m.nodes.insert_new k v (m.hash k) =
        .ok (⟨ns2, maxd2, m.nodes.number_of_items + 1⟩, loc) := heqi
    set m2 : HashMap K V :=
      ⟨⟨ns2, maxd2, m.nodes.number_of_items + 1⟩, m.hasher⟩ with hm2
    have hloclen : loc < ns2.length := by rw [hlen2]; exact hloclt
    have hres2 : HashMap.insert_result m2 loc = .ok (m2, loc) := by
      unfold HashMap.insert_result
      rw [show m2.nodes.nodes[loc]? = some (nodeAt ns2 loc) from
        nodeAt_getElem? hloclen]
      simp only
      rw [value_ref_of_occ hocc2]
      obtain ⟨v2, hv2⟩ := Option.isSome_iff_exists.1 hvs2
      rw [hv2]
    have hsp : m.nodes.number_of_items + 1 < m.nodes.capacity := by
      have h1 : m.len < m.nodes.capacity * 85 / 100 := by omega
      show m.nodes.number_of_items + 1 < m.nodes.capacity
      have h2 : m.len = m.nodes.number_of_items := rfl
      omega
    refine ⟨m2, loc, ?_, ⟨?_, ?_, ?_⟩, rfl, rfl, ?_, ?_⟩
    · rw [insert_eq_absent_nogrow hloc0 hgrow]
      rw [heqi2]
      exact hres2
    · show TableInv m2.hasher ns2.length ns2 maxd2
      rw [hlen2]
      exact hT
    · exact hcnt2.symm
    · show m.nodes.number_of_items + 1 < ns2.length
      rw [hlen2]
      exact hsp
    · show ns2.length = _
      rw [if_neg hgrow, hlen2]
    · intro k2 v2
      exact hiffi k2 v2

/-- `HashMap::remove` on an absent key returns `none` and leaves the map
untouched. -/
theorem remove_absent_ok [DecidableEq K] {m : HashMap K V} {k : K}
    (habs : ¬ hasKey m.nodes.nodes k) :
    m.remove k = .ok (none, m) := by
  unfold HashMap.remove
  rw [get_location_absent habs]

/-- `HashMap::remove` on a present key returns its value and removes exactly
that binding; the capacity and the running maximum displacement are
unchanged. -/
theorem remove_present_ok [DecidableEq K] {m : HashMap K V} (inv : MapInv m)
    {k : K} {v : V} (hold : holdsKV m.nodes.nodes k v) :
    ∃ m2, m.remove k = .ok (some v, m2) ∧ MapInv m2 ∧
      m2.hasher = m.hasher ∧
      m2.nodes.capacity = m.nodes.capacity ∧
      m2.nodes.max_distance_to_initial_bucket =
        m.nodes.max_distance_to_initial_bucket ∧
      m2.len + 1 = m.len ∧
      (∀ (k2 : K) (v2 : V), holdsKV m2.nodes.nodes k2 v2 ↔
        (holdsKV m.nodes.nodes k2 v2 ∧ k2 ≠ k)) := by
  obtain ⟨i, hi, hkr, hvr⟩ := hold
  have hocc := occ_of_key_ref hkr
  have hkey : (nodeAt m.nodes.nodes i).key = some k := by
    rw [← key_ref_of_occ hocc]
    exact hkr
  have hval : (nodeAt m.nodes.nodes i).value = some v := by
    rw [← value_ref_of_occ hocc]
    exact hvr
  have hloc := get_location_present inv hi hocc hkey
  obtain ⟨s2, hrem, hcap2, hmax2, hcnt2, inv2, hiff2⟩ :=
    remove_from_location_ok inv hi hocc hkey hval
  refine ⟨⟨s2, m.hasher⟩, ?_, inv2, rfl, hcap2, hmax2, hcnt2, hiff2⟩
  unfold HashMap.remove
  rw [show m.hash k = m.hasher k % U32 from rfl, hloc]
  show (m.nodes.remove_from_location i).bind _ = _
  rw [hrem]
  rfl

end MapLevel

/-! ## The reference model -/

section ModelLemmas

variable {K V : Type}

/-- Well-formedness of the reference model: no key occurs twice. -/
def modelWF [DecidableEq K] (l : Model K V) : Prop :=
  (l.map Prod.fst).Nodup

theorem modelGet_nil [DecidableEq K] {k : K} :
    modelGet k ([] : Model K V) = none := rfl

theorem modelGet_cons_self [DecidableEq K] {k : K} {v : V} {l : Model K V} :
    modelGet k ((k, v) :: l) = some v := by
  unfold modelGet
  rw [List.find?_cons_of_pos]
  · rfl
  · simp

theorem modelGet_cons_other [DecidableEq K] {k k2 : K} {v : V} {l : Model K V}
    (h : k ≠ k2) : modelGet k2 ((k, v) :: l) = modelGet k2 l := by
  unfold modelGet
  rw [List.find?_cons_of_neg]
  simp [h]

theorem modelGet_insert_self [DecidableEq K] {k : K} {v : V} {l : Model K V} :
    modelGet k (modelInsert k v l) = some v := modelGet_cons_self

theorem modelGet_filter_ne [DecidableEq K] {k k2 : K} (h : k2 ≠ k) :
    ∀ l : Model K V,
      modelGet k2 (l.filter fun p => decide (p.1 ≠ k)) = modelGet k2 l := by
  intro l
  induction l with
  | nil => rfl
  | cons p t ih =>
    obtain ⟨a, b⟩ := p
    by_cases ha : a = k
    · rw [List.filter_cons_of_neg (by simp [ha])]
      rw [modelGet_cons_other (by rw [ha]; exact fun he => h he.symm)]
      exact ih
    · rw [List.filter_cons_of_pos (by simp [ha])]
      by_cases hb : a = k2
      · rw [hb, modelGet_cons_self, modelGet_cons_self]
      · rw [modelGet_cons_other hb, modelGet_cons_other hb]
        exact ih

theorem modelGet_insert_other [DecidableEq K] {k k2 : K} {v : V}
    {l : Model K V} (h : k2 ≠ k) :
    modelGet k2 (modelInsert k v l) = modelGet k2 l := by
  unfold modelInsert
  rw [modelGet_cons_other (fun he => h he.symm)]
  exact modelGet_filter_ne h l

theorem modelGet_remove_self [DecidableEq K] {k : K} {l : Model K V} :
    modelGet k (modelRemove k l) = none := by
  unfold modelRemove modelGet
  rw [Option.map_eq_none', List.find?_eq_none]
  intro p hp
  have h2 := List.of_mem_filter hp
  simp at h2 ⊢
  exact h2

theorem modelGet_remove_other [DecidableEq K] {k k2 : K} {l : Model K V}
    (h : k2 ≠ k) : modelGet k2 (modelRemove k l) = modelGet k2 l :=
  modelGet_filter_ne h l

theorem filter_eq_self_of_absent [DecidableEq K] {k : K} :
    ∀ {l : Model K V}, modelGet k l = none →
      l.filter (fun p => decide (p.1 ≠ k)) = l := by
  intro l
  induction l with
  | nil => intro _; rfl
  | cons p t ih =>
    obtain ⟨a, b⟩ := p
    intro h
    by_cases ha : a = k
    · rw [ha, modelGet_cons_self] at h
      cases h
    · rw [modelGet_cons_other ha] at h
      rw [List.filter_cons_of_pos (by simp [ha]), ih h]

theorem filter_length_of_present [DecidableEq K] {k : K} {v : V} :
    ∀ {l : Model K V}, modelWF l → modelGet k l = some v →
      (l.filter (fun p => decide (p.1 ≠ k))).length + 1 = l.length := by
  intro l
  induction l with
  | nil => intro _ h; cases h
  | cons p t ih =>
    obtain ⟨a, b⟩ := p
    intro hwf h
    have hwf2 : modelWF t := (List.nodup_cons.1 hwf).2
    by_cases ha : a = k
    · rw [List.filter_cons_of_neg (by simp [ha])]
      have hnot : modelGet k t = none := by
        have h2 := (List.nodup_cons.1 hwf).1
        unfold modelGet
        rw [Option.map_eq_none', List.find?_eq_none]
        intro p2 hp2
        simp only [decide_eq_true_eq]
        intro he
        apply h2
        rw [← ha] at he
        rw [← he]
        show p2.1 ∈ List.map Prod.fst t
        exact List.mem_map_of_mem Prod.fst hp2
      rw [filter_eq_self_of_absent hnot]
      rfl
    · rw [modelGet_cons_other ha] at h
      rw [List.filter_cons_of_pos (by simp [ha])]
      have h3 := ih hwf2 h
      simp only [List.length_cons]
      omega

theorem modelWF_nil [DecidableEq K] : modelWF ([] : Model K V) :=
  List.nodup_nil

theorem modelWF_filter [DecidableEq K] {k : K} {l : Model K V}
    (h : modelWF l) :
    modelWF (l.filter fun p => decide (p.1 ≠ k)) := by
  unfold modelWF at h ⊢
  exact ((List.filter_sublist l).map Prod.fst).nodup h

theorem modelWF_insert [DecidableEq K] {k : K} {v : V} {l : Model K V}
    (h : modelWF l) : modelWF (modelInsert k v l) := by
  unfold modelWF modelInsert
  rw [List.map_cons, List.nodup_cons]
  refine ⟨?_, modelWF_filter h⟩
  intro hmem
  obtain ⟨p, hp, hpk⟩ := List.mem_map.1 hmem
  have h2 := List.of_mem_filter hp
  simp only [decide_eq_true_eq] at h2
  exact h2 hpk

theorem modelWF_remove [DecidableEq K] {k : K} {l : Model K V}
    (h : modelWF l) : modelWF (modelRemove k l) := modelWF_filter h

end ModelLemmas

/-! ## Refinement of operation sequences -/

section Refinement

variable {K V : Type}

/-- The invariant of a freshly allocated storage of capacity `c ∣ 2^32`. -/
theorem fresh_SInv {hf : K → Nat} {c : Nat} (hdvd : c ∣ U32) :
    SInv hf (⟨List.replicate c Node.new, 0, 0⟩ : NodeStorage K V) := by
  have hpos : 0 < c := cap_pos_of_dvd hdvd
  refine ⟨⟨rfl, ?_, le_refl 0, ?_, ?_⟩, ?_, ?_⟩
  · show (List.replicate c (Node.new : Node K V)).length ∣ U32
    rw [List.length_replicate]
    exact hdvd
  · intro i hi hoi
    rw [show nodeAt (List.replicate c Node.new) i = Node.new from
      nodeAt_replicate] at hoi
    exact absurd hoi not_occ_new
  · intro i _ j _ k hki _
    rw [show nodeAt (List.replicate c Node.new) i = Node.new from
      nodeAt_replicate, key_ref_of_not_occ not_occ_new] at hki
    cases hki
  · show 0 = countOcc (List.replicate c Node.new)
    symm
    unfold countOcc
    rw [List.countP_eq_zero]
    intro a ha
    rw [List.eq_of_mem_replicate ha]
    exact fun hc => not_occ_new hc
  · show 0 < (List.replicate c (Node.new : Node K V)).length
    rw [List.length_replicate]
    exact hpos

theorem holdsKV_fresh {c : Nat} {k : K} {v : V} :
    ¬ holdsKV (List.replicate c (Node.new : Node K V)) k v := by
  rintro ⟨i, _, hk, _⟩
  rw [show nodeAt (List.replicate c Node.new) i = Node.new from
    nodeAt_replicate, key_ref_of_not_occ not_occ_new] at hk
  cases hk

/-- `HashMap::new` succeeds with an empty, invariant map of capacity 16. -/
theorem new_ok {h : K → Nat} :
    HashMap.new h =
      .ok (⟨⟨List.replicate 16 Node.new, 0, 0⟩, h⟩ : HashMap K V) ∧
    MapInv (⟨⟨List.replicate 16 Node.new, 0, 0⟩, h⟩ : HashMap K V) := by
  constructor
  · unfold HashMap.new HashMap.with_capacity NodeStorage.with_size
    rw [if_pos (is_power_of_two_iff.2 ⟨4, by norm_num⟩)]
    rfl
  · exact fresh_SInv (by rw [show U32 = 16 * 268435456 by decide]; exact ⟨268435456, rfl⟩)

/-- The refinement relation: the map is invariant, agrees pointwise with the
reference model, and its capacity is bounded in terms of the number `ins` of
operations performed so far. -/
structure Refines [DecidableEq K] (m : HashMap K V) (l : Model K V)
    (ins : Nat) : Prop where
  inv : MapInv m
  wf : modelWF l
  agree : ∀ (k : K) (v : V),
    holdsKV m.nodes.nodes k v ↔ modelGet k l = some v
  hlen : m.len = l.length
  hlenb : m.len ≤ ins
  hcapb : m.nodes.capacity ≤ max 16 (4 * ins)

theorem refines_modelGet_none [DecidableEq K] {m : HashMap K V}
    {l : Model K V} {ins : Nat} (R : Refines m l ins) {k : K}
    (habs : ¬ hasKey m.nodes.nodes k) : modelGet k l = none := by
  cases hg : modelGet k l with
  | none => rfl
  | some v0 =>
    exact absurd (hasKey_of_holdsKV ((R.agree k v0).2 hg)) habs

/-- One `insert` step preserves the refinement. -/
theorem refines_insert [DecidableEq K] {m : HashMap K V} {l : Model K V}
    {ins : Nat} (R : Refines m l ins) {k : K} {v : V}
    (hcap : m.nodes.capacity < U32) :
    ∃ m2 loc, m.insert k v = .ok (m2, loc) ∧
      Refines m2 (modelInsert k v l) (ins + 1) := by
  by_cases hpres : hasKey m.nodes.nodes k
  · obtain ⟨i, hi, hkr⟩ := hpres
    have hocc := occ_of_key_ref hkr
    have hkey : (nodeAt m.nodes.nodes i).key = some k := by
      rw [← key_ref_of_occ hocc]
      exact hkr
    obtain ⟨m2, heq, inv2, _, hcap2, hlen2, hiff2⟩ :=
      insert_present_ok (v := v) R.inv hi hocc hkey
    refine ⟨m2, i, heq, ⟨inv2, modelWF_insert R.wf, ?_, ?_, ?_, ?_⟩⟩
    · intro k2 v2
      rw [hiff2 k2 v2]
      by_cases hk2 : k2 = k
      · subst hk2
        rw [modelGet_insert_self]
        constructor
        · rintro (⟨_, hne⟩ | ⟨_, he⟩)
          · exact absurd rfl hne
          · rw [he]
        · intro he
          exact Or.inr ⟨rfl, (Option.some.inj he).symm⟩
      · rw [modelGet_insert_other hk2]
        constructor
        · rintro (⟨h4, _⟩ | ⟨he, _⟩)
          · exact (R.agree k2 v2).1 h4
          · exact absurd he hk2
        · intro h4
          exact Or.inl ⟨(R.agree k2 v2).2 h4, hk2⟩
    · obtain ⟨v0, hv0⟩ := hasKey_exists_value R.inv.tbl ⟨i, hi, hkr⟩
      have h5 : modelGet k l = some v0 := (R.agree k v0).1 hv0
      have h6 := filter_length_of_present R.wf h5
      have h7 := R.hlen
      show m2.len = ((k, v) :: l.filter fun p => decide (p.1 ≠ k)).length
      rw [List.length_cons]
      omega
    · have h5 := R.hlenb
      omega
    · have h5 := R.hcapb
      omega
  · have hg : modelGet k l = none := refines_modelGet_none R hpres
    obtain ⟨m2, loc, heq, inv2, _, hlen2, hcapeq, hiff2⟩ :=
      insert_absent_ok R.inv hpres hcap
    refine ⟨m2, loc, heq, ⟨inv2, modelWF_insert R.wf, ?_, ?_, ?_, ?_⟩⟩
    · intro k2 v2
      rw [hiff2 k2 v2]
      by_cases hk2 : k2 = k
      · subst hk2
        rw [modelGet_insert_self]
        constructor
        · rintro (h4 | ⟨_, he⟩)
          · rw [(R.agree k2 v2).1 h4] at hg
            cases hg
          · rw [he]
        · intro he
          exact Or.inr ⟨rfl, (Option.some.inj he).symm⟩
      · rw [modelGet_insert_other hk2]
        constructor
        · rintro (h4 | ⟨he, _⟩)
          · exact (R.agree k2 v2).1 h4
          · exact absurd he hk2
        · intro h4
          exact Or.inl ((R.agree k2 v2).2 h4)
    · have h6 := filter_eq_self_of_absent hg
      have h7 := R.hlen
      show m2.len = ((k, v) :: l.filter fun p => decide (p.1 ≠ k)).length
      rw [List.length_cons, h6]
      omega
    · have h5 := R.hlenb
      omega
    · rw [hcapeq]
      have h5 := R.hcapb
      have h6 := R.hlenb
      by_cases hgrow : m.nodes.capacity * 85 / 100 ≤ m.len
      · rw [if_pos hgrow]
        omega
      · rw [if_neg hgrow]
        omega

/-- One `remove` step preserves the refinement. -/
theorem refines_remove [DecidableEq K] {m : HashMap K V} {l : Model K V}
    {ins : Nat} (R : Refines m l ins) {k : K} :
    ∃ ret m2, m.remove k = .ok (ret, m2) ∧
      Refines m2 (modelRemove k l) (ins + 1) := by
  by_cases hpres : hasKey m.nodes.nodes k
  · obtain ⟨v0, hv0⟩ := hasKey_exists_value R.inv.tbl hpres
    have hg : modelGet k l = some v0 := (R.agree k v0).1 hv0
    obtain ⟨m2, heq, inv2, _, hcap2, _, hlen2, hiff2⟩ :=
      remove_present_ok R.inv hv0
    refine ⟨some v0, m2, heq, ⟨inv2, modelWF_remove R.wf, ?_, ?_, ?_, ?_⟩⟩
    · intro k2 v2
      rw [hiff2 k2 v2]
      by_cases hk2 : k2 = k
      · subst hk2
        rw [modelGet_remove_self]
        constructor
        · rintro ⟨_, hne⟩
          exact absurd rfl hne
        · intro he
          cases he
      · rw [modelGet_remove_other hk2]
        constructor
        · rintro ⟨h4, _⟩
          exact (R.agree k2 v2).1 h4
        · intro h4
          exact ⟨(R.agree k2 v2).2 h4, hk2⟩
    · have h6 := filter_length_of_present R.wf hg
      have h7 := R.hlen
      show m2.len = (l.filter fun p => decide (p.1 ≠ k)).length
      omega
    · have h5 := R.hlenb
      omega
    · rw [hcap2]
      have h5 := R.hcapb
      omega
  · have hg : modelGet k l = none := refines_modelGet_none R hpres
    refine ⟨none, m, remove_absent_ok hpres,
      ⟨R.inv, modelWF_remove R.wf, ?_, ?_, ?_, ?_⟩⟩
    · intro k2 v2
      by_cases hk2 : k2 = k
      · subst hk2
        rw [modelGet_remove_self]
        constructor
        · intro h4
          rw [(R.agree k2 v2).1 h4] at hg
          cases hg
        · intro he
          cases he
      · rw [modelGet_remove_other hk2]
        exact R.agree k2 v2
    · have h6 := filter_eq_self_of_absent hg
      show m.len = (l.filter fun p => decide (p.1 ≠ k)).length
      rw [h6]
      exact R.hlen
    · have h5 := R.hlenb
      omega
    · have h5 := R.hcapb
      omega

/-- Running a bounded sequence of operations preserves the refinement and
never fails. -/
theorem runOps_refines [DecidableEq K] :
    ∀ (ops : List (Op K V)) (m : HashMap K V) (l : Model K V) (ins : Nat),
      Refines m l ins → ins + ops.length ≤ 2 ^ 28 →
      ∃ m2, runOps m ops = .ok m2 ∧
        Refines m2 (runModel l ops) (ins + ops.length) := by
  intro ops
  induction ops with
  | nil =>
    intro m l ins R _
    exact ⟨m, rfl, R⟩
  | cons op rest ih =>
    intro m l ins R hb
    rw [List.length_cons] at hb
    cases op with
    | ins k v =>
      have hcap : m.nodes.capacity < U32 := by
        have h5 := R.hcapb
        rw [show U32 = 2 ^ 32 from U32_eq]
        have h6 : (2:Nat) ^ 28 ≤ 2 ^ 28 := le_refl _
        omega
      obtain ⟨m2, loc, heq, R2⟩ := refines_insert R (k := k) (v := v) hcap
      have hrun : runOps m (Op.ins k v :: rest) = runOps m2 rest := by
        show (m.insert k v).bind _ = _
        rw [heq]
        rfl
      obtain ⟨m3, h3, R3⟩ := ih m2 (modelInsert k v l) (ins + 1) R2 (by omega)
      refine ⟨m3, by rw [hrun]; exact h3, ?_⟩
      show Refines m3 (runModel (modelInsert k v l) rest) _
      rw [List.length_cons,
        show ins + (rest.length + 1) = ins + 1 + rest.length by omega]
      exact R3
    | rem k =>
      obtain ⟨ret, m2, heq, R2⟩ := refines_remove R (k := k)
      have hrun : runOps m (Op.rem k :: rest) = runOps m2 rest := by
        show (m.remove k).bind _ = _
        rw [heq]
        rfl
      obtain ⟨m3, h3, R3⟩ := ih m2 (modelRemove k l) (ins + 1) R2 (by omega)
      refine ⟨m3, by rw [hrun]; exact h3, ?_⟩
      show Refines m3 (runModel (modelRemove k l) rest) _
      rw [List.length_cons,
        show ins + (rest.length + 1) = ins + 1 + rest.length by omega]
      exact R3

/-- `get` agrees with the model lookup under the refinement. -/
theorem refines_get [DecidableEq K] {m : HashMap K V} {l : Model K V}
    {ins : Nat} (R : Refines m l ins) (k : K) :
    m.get k = modelGet k l := by
  cases hg : modelGet k l with
  | some v => exact (get_eq_some_iff R.inv).2 ((R.agree k v).2 hg)
  | none =>
    refine (get_eq_none_iff R.inv).2 ?_
    intro hk
    obtain ⟨v, hv⟩ := hasKey_exists_value R.inv.tbl hk
    rw [(R.agree k v).1 hv] at hg
    cases hg

end Refinement

/-! ## Entry operations and further helpers -/

section EntryOps

variable {K V : Type}

theorem set_nodeAt_self {ns : List (Node K V)} {i : Nat}
    (hi : i < ns.length) : ns.set i (nodeAt ns i) = ns := by
  apply List.ext_getElem?
  intro n
  by_cases hn : n = i
  · rw [hn, List.getElem?_set_self hi, nodeAt_getElem? hi]
  · rw [List.getElem?_set_ne (fun hc => hn hc.symm)]

theorem hasKey_fresh {c : Nat} {k : K} :
    ¬ hasKey (List.replicate c (Node.new : Node K V)) k := by
  rintro ⟨i, _, hk⟩
  rw [show nodeAt (List.replicate c Node.new) i = Node.new from
    nodeAt_replicate, key_ref_of_not_occ not_occ_new] at hk
  cases hk

theorem sixteen_dvd_U32 : (16 : Nat) ∣ U32 := ⟨268435456, by decide⟩

/-- `OccupiedEntry::insert` computes: the old value is returned and only the
value field of the slot changes. -/
theorem occupied_entry_insert_ok {m : HashMap K V} {loc : Nat}
    (hloc : loc < m.nodes.nodes.length)
    (hocc : Occ (nodeAt m.nodes.nodes loc)) {ov : V}
    (hov : (nodeAt m.nodes.nodes loc).value = some ov) (v : V) :
    m.occupied_entry_insert loc v = .ok (ov,
      ⟨⟨m.nodes.nodes.set loc
          { nodeAt m.nodes.nodes loc with value := some v },
        m.nodes.max_distance_to_initial_bucket, m.nodes.number_of_items⟩,
        m.hasher⟩) := by
  have hrv : (nodeAt m.nodes.nodes loc).replace_value v =
      .ok (ov, { nodeAt m.nodes.nodes loc with value := some v }) := by
    unfold Node.replace_value
    rw [if_pos (Occ_iff.1 hocc), hov]
  unfold HashMap.occupied_entry_insert
  rw [nodeAt_getElem? hloc]
  show ((nodeAt m.nodes.nodes loc).replace_value v).bind _ = _
  rw [hrv]
  rfl

/-- `OccupiedEntry::insert` preserves the map invariant (the key at the slot
is unchanged). -/
theorem occupied_entry_insert_inv [DecidableEq K] {m : HashMap K V}
    (inv : MapInv m) {loc : Nat} (hloc : loc < m.nodes.capacity)
    (hocc : Occ (nodeAt m.nodes.nodes loc)) (v : V) :
    ∃ ov m2, m.occupied_entry_insert loc v = .ok (ov, m2) ∧ MapInv m2 ∧
      m2.nodes.max_distance_to_initial_bucket =
        m.nodes.max_distance_to_initial_bucket ∧
      m2.len = m.len := by
  obtain ⟨⟨k0, hk0, _⟩, hvs, _⟩ := inv.tbl.hslots loc hloc hocc
  obtain ⟨ov, hov⟩ := Option.isSome_iff_exists.1 hvs
  have hloclen : loc < m.nodes.nodes.length := hloc
  obtain ⟨T2, hcnt2, _⟩ :=
    set_same_key_inv inv.tbl hloc hocc
      (b := { nodeAt m.nodes.nodes loc with value := some v })
      rfl rfl rfl hk0 rfl
  refine ⟨ov, _, occupied_entry_insert_ok hloclen hocc hov v,
    ⟨?_, ?_, ?_⟩, rfl, rfl⟩
  · show TableInv m.hasher
      (m.nodes.nodes.set loc
        { nodeAt m.nodes.nodes loc with value := some v }).length
      _ m.nodes.max_distance_to_initial_bucket
    rw [List.length_set]
    exact T2
  · show m.nodes.number_of_items = countOcc (m.nodes.nodes.set loc _)
    rw [hcnt2]
    exact inv.hcount
  · show m.nodes.number_of_items < (m.nodes.nodes.set loc _).length
    rw [List.length_set]
    exact inv.hspace

/-- `OccupiedEntry::remove` preserves the map invariant and leaves the
running maximum displacement untouched. -/
theorem occupied_entry_remove_inv [DecidableEq K] {m : HashMap K V}
    (inv : MapInv m) {loc : Nat} (hloc : loc < m.nodes.capacity)
    (hocc : Occ (nodeAt m.nodes.nodes loc)) :
    ∃ v0 m2, m.occupied_entry_remove loc = .ok (v0, m2) ∧ MapInv m2 ∧
      m2.nodes.max_distance_to_initial_bucket =
        m.nodes.max_distance_to_initial_bucket ∧
      m2.len + 1 = m.len := by
  obtain ⟨⟨k0, hk0, _⟩, hvs, _⟩ := inv.tbl.hslots loc hloc hocc
  obtain ⟨v0, hv0⟩ := Option.isSome_iff_exists.1 hvs
  obtain ⟨s2, heq, _, hmax2, hcnt2, inv2, _⟩ :=
    remove_from_location_ok inv hloc hocc hk0 hv0
  refine ⟨v0, ⟨s2, m.hasher⟩, ?_, inv2, hmax2, hcnt2⟩
  unfold HashMap.occupied_entry_remove
  show (m.nodes.remove_from_location loc).bind _ = _
  rw [heq]
  rfl

end EntryOps

/-! ## The claims -/

section Claims

variable {K V : Type}

/-- **C1**: for every finite sequence of insert and remove operations starting
from an empty map (here bounded by `2^28` operations so that the capacity
stays below `2^32`), after each step (i.e. for every prefix of the sequence)
`get k` returns exactly what the reference association-list model returns —
the value of the most recent insert of `k` not followed by a remove of `k`,
and `none` otherwise — and `len()` equals the number of distinct keys
currently inserted and not subsequently removed (the size of the model, whose
keys are pairwise distinct). -/
theorem C1_model_refinement [DecidableEq K] (hasher : K → Nat)
    (ops : List (Op K V)) (hbound : ops.length ≤ 2 ^ 28)
    (p rest : List (Op K V)) (hsplit : ops = p ++ rest) :
    ∃ m0 m, HashMap.new hasher = .ok m0 ∧ runOps m0 p = .ok m ∧
      (∀ k : K, m.get k = modelGet k (runModel [] p)) ∧
      m.len = (runModel [] p).length ∧
      ((runModel [] p).map Prod.fst).Nodup := by
  obtain ⟨hnew, hinv⟩ := new_ok (K := K) (V := V) (h := hasher)
  have R0 : Refines
      (⟨⟨List.replicate 16 Node.new, 0, 0⟩, hasher⟩ : HashMap K V) [] 0 := by
    refine ⟨hinv, modelWF_nil, ?_, rfl, le_refl 0, ?_⟩
    · intro k v
      rw [modelGet_nil]
      exact ⟨fun h => absurd h holdsKV_fresh, fun h => by cases h⟩
    · show (List.replicate 16 (Node.new : Node K V)).length ≤ max 16 (4 * 0)
      rw [List.length_replicate]
      omega
  have hple : 0 + p.length ≤ 2 ^ 28 := by
    rw [hsplit, List.length_append] at hbound
    omega
  obtain ⟨m, hrun, R⟩ := runOps_refines p _ [] 0 R0 hple
  exact ⟨_, m, hnew, hrun, refines_get R, R.hlen, R.wf⟩

/-- Witness for C1: a concrete two-operation run on `Nat` keys. -/
theorem C1_model_refinement_witness :
    ∃ m0 m, HashMap.new (fun n => n) = .ok m0 ∧
      runOps m0 [Op.ins 1 2, Op.rem 1] = .ok m ∧
      (∀ k : Nat,
        m.get k = modelGet k (runModel [] [Op.ins 1 2, Op.rem (1 : Nat)])) ∧
      m.len = (runModel ([] : Model Nat Nat) [Op.ins 1 2, Op.rem 1]).length ∧
      ((runModel ([] : Model Nat Nat)
        [Op.ins 1 2, Op.rem 1]).map Prod.fst).Nodup :=
  C1_model_refinement (fun n => n) [Op.ins 1 2, Op.rem 1] (by norm_num)
    [Op.ins 1 2, Op.rem 1] [] rfl

/-- **C2** (corrected): on inserting an absent key the map doubles its
capacity exactly when `capacity * 85 / 100 ≤ len` (integer floor division) —
not when `len * 100 ≥ capacity * 85`: at `len = 13`, `capacity = 16` the code
doubles although `13 * 100 = 1300 < 1360 = 16 * 85`. -/
theorem C2_growth_condition [DecidableEq K] {m : HashMap K V} (inv : MapInv m)
    {k : K} (habs : ¬ hasKey m.nodes.nodes k) (v : V)
    (hlt : m.nodes.capacity < U32) :
    ∃ m2 loc, m.insert k v = .ok (m2, loc) ∧
      m2.nodes.capacity =
        (if m.nodes.capacity * 85 / 100 ≤ m.len then m.nodes.capacity * 2
          else m.nodes.capacity) ∧
      m2.len = m.len + 1 := by
  obtain ⟨m2, loc, heq, _, _, hlen2, hcap2, _⟩ :=
    insert_absent_ok inv habs hlt
  exact ⟨m2, loc, heq, hcap2, hlen2⟩

/-- Witness for C2: inserting into the fresh capacity-16 map. -/
theorem C2_growth_condition_witness :
    ∃ m2 loc,
      (⟨⟨List.replicate 16 Node.new, 0, 0⟩, fun n => n⟩ :
        HashMap Nat Nat).insert 3 5 = .ok (m2, loc) ∧
      m2.nodes.capacity =
        (if (⟨⟨List.replicate 16 Node.new, 0, 0⟩, fun n => n⟩ :
            HashMap Nat Nat).nodes.capacity * 85 / 100 ≤
            (⟨⟨List.replicate 16 Node.new, 0, 0⟩, fun n => n⟩ :
              HashMap Nat Nat).len then
          (⟨⟨List.replicate 16 Node.new, 0, 0⟩, fun n => n⟩ :
            HashMap Nat Nat).nodes.capacity * 2
        else
          (⟨⟨List.replicate 16 Node.new, 0, 0⟩, fun n => n⟩ :
            HashMap Nat Nat).nodes.capacity) ∧
      m2.len = (⟨⟨List.replicate 16 Node.new, 0, 0⟩, fun n => n⟩ :
        HashMap Nat Nat).len + 1 :=
  C2_growth_condition
    (show MapInv (⟨⟨List.replicate 16 Node.new, 0, 0⟩, fun n => n⟩ :
      HashMap Nat Nat) from fresh_SInv sixteen_dvd_U32)
    hasKey_fresh 5
    (by show (List.replicate 16 (Node.new : Node Nat Nat)).length < U32; decide)

/-- Counterexample for C2 as stated: after inserting the 13 keys `0ᐧᐧ12`
(identity hasher) the map has `len = 13` and `capacity = 16`, so the claimed
trigger `len * 100 ≥ capacity * 85` is false (`1300 < 1360`); yet the next
insertion of a new key doubles the capacity to 32. -/
theorem C2_counterexample :
    ((runOps (⟨⟨List.replicate 16 Node.new, 0, 0⟩, fun n => n⟩ :
        HashMap Nat Nat) ((List.range 13).map fun n => Op.ins n n)).map
      fun m => (m.len, m.nodes.capacity)) = .ok (13, 16) ∧
    ¬ (13 * 100 ≥ 16 * 85) ∧
    ((runOps (⟨⟨List.replicate 16 Node.new, 0, 0⟩, fun n => n⟩ :
        HashMap Nat Nat)
        (((List.range 13).map fun n => Op.ins n n) ++ [Op.ins 13 13])).map
      fun m => m.nodes.capacity) = .ok 32 := by
  refine ⟨?_, by norm_num, ?_⟩
  · rfl
  · rfl

/-- **C3** (corrected): during the forward walk of `insert_new`, at an
occupied probe slot the candidate swaps with the occupant exactly when the
occupant's displacement is **less than or equal to** the candidate's — so a
tie also swaps, contrary to the claim's strict "smaller"; when the occupant
has probed strictly farther the candidate leaves it and advances; the walk
stops by placing the current candidate at the first empty slot. -/
theorem C3_walk_step [DecidableEq K] {cap fuel : Nat}
    {nodes : List (Node K V)} {maxd : Int} {cand : Node K V}
    {inserted : Option Nat} {cur : Node K V}
    (hread : nodes[fast_mod cap
      ((cand.hash + i32_as_u32 cand.get_distance) % U32)]? = some cur) :
    (Occ cur → cur.get_distance ≤ cand.get_distance →
      NodeStorage.insert_new_loop cap (fuel + 1) nodes maxd cand inserted =
        NodeStorage.insert_new_loop cap fuel
          (nodes.set (fast_mod cap
            ((cand.hash + i32_as_u32 cand.get_distance) % U32)) cand)
          (max cur.increment_distance.get_distance maxd)
          cur.increment_distance
          (some (inserted.getD (fast_mod cap
            ((cand.hash + i32_as_u32 cand.get_distance) % U32))))) ∧
    (Occ cur → cand.get_distance < cur.get_distance →
      NodeStorage.insert_new_loop cap (fuel + 1) nodes maxd cand inserted =
        NodeStorage.insert_new_loop cap fuel nodes
          (max cand.increment_distance.get_distance maxd)
          cand.increment_distance inserted) ∧
    (¬ Occ cur →
      NodeStorage.insert_new_loop cap (fuel + 1) nodes maxd cand inserted =
        .ok (nodes.set (fast_mod cap
            ((cand.hash + i32_as_u32 cand.get_distance) % U32)) cand,
          maxd,
          inserted.getD (fast_mod cap
            ((cand.hash + i32_as_u32 cand.get_distance) % U32)))) := by
  refine ⟨?_, ?_, ?_⟩
  · intro hocc hle
    have hocc2 : cur.has_value = true := hocc
    conv_lhs => unfold NodeStorage.insert_new_loop
    simp only [hread]
    rw [if_pos hocc2, if_pos hle]
  · intro hocc hlt
    have hocc2 : cur.has_value = true := hocc
    conv_lhs => unfold NodeStorage.insert_new_loop
    simp only [hread]
    rw [if_pos hocc2, if_neg (by omega)]
  · intro hocc
    have hocc2 : ¬ (cur.has_value = true) := fun hc => hocc hc
    conv_lhs => unfold NodeStorage.insert_new_loop
    simp only [hread]
    rw [if_neg hocc2]

/-- Witness for C3: the three step shapes at a concrete two-slot table. -/
theorem C3_walk_step_witness :
    ((Occ (Node.new_with 0 0 0) →
      (Node.new_with 0 0 0).get_distance ≤
        (Node.new_with (1 : Nat) (1 : Nat) 0).get_distance →
      NodeStorage.insert_new_loop 2 1 [Node.new_with 0 0 0, Node.new] 0
          (Node.new_with 1 1 0) none =
        NodeStorage.insert_new_loop 2 0
          ([Node.new_with 0 0 0, Node.new].set 0 (Node.new_with 1 1 0))
          (max (Node.new_with 0 0 0).increment_distance.get_distance 0)
          (Node.new_with 0 0 0).increment_distance (some 0)) ∧
    (Occ (Node.new_with 0 0 0) →
      (Node.new_with (1 : Nat) (1 : Nat) 0).get_distance <
        (Node.new_with 0 0 0).get_distance →
      NodeStorage.insert_new_loop 2 1 [Node.new_with 0 0 0, Node.new] 0
          (Node.new_with 1 1 0) none =
        NodeStorage.insert_new_loop 2 0 [Node.new_with 0 0 0, Node.new]
          (max (Node.new_with (1 : Nat) (1 : Nat)
            0).increment_distance.get_distance 0)
          (Node.new_with 1 1 0).increment_distance none) ∧
    (¬ Occ (Node.new_with 0 0 0) →
      NodeStorage.insert_new_loop 2 1 [Node.new_with 0 0 0, Node.new] 0
          (Node.new_with 1 1 0) none =
        .ok ([Node.new_with 0 0 0, Node.new].set 0 (Node.new_with 1 1 0),
          0, 0))) ∧
    Occ (Node.new_with (0 : Nat) (0 : Nat) 0) ∧
    (Node.new_with (0 : Nat) (0 : Nat) 0).get_distance ≤
      (Node.new_with (1 : Nat) (1 : Nat) 0).get_distance :=
  ⟨C3_walk_step (by rfl), by decide, by decide⟩

/-- Counterexample for C3 as stated: a tie.  One entry with hash 0 and
displacement 0 sits at slot 0 of a 4-slot table; inserting a second key with
the same hash reaches slot 0 with displacement 0 — equal displacements.  The
claim says the walk should leave the occupant and advance, but the code
swaps: afterwards the *new* key 1 occupies slot 0 and the old key 0 has been
evicted to slot 1 with displacement 1. -/
theorem C3_counterexample :
    (((⟨[Node.new_with 0 0 0, Node.new, Node.new, Node.new], 0, 1⟩ :
        NodeStorage Nat Nat).insert_new 1 1 0).map fun p =>
      ((nodeAt p.1.nodes 0).key, (nodeAt p.1.nodes 1).key,
        (nodeAt p.1.nodes 1).get_distance)) =
      .ok (some 1, some 0, 1) := rfl

/-- **C4**: `get_location(key, hash)` equals the declarative probe
description: probe offsets `0ᐧᐧmax_displacement` (inclusive) from the ideal
index `hash mod capacity`; the first empty slot proves absence, a slot whose
key equals the queried key returns its index, a non-matching occupied slot
continues, and exhausting the `max_displacement + 1` probes also proves
absence. -/
theorem C4_get_location_spec [DecidableEq K] {s : NodeStorage K V} {key : K}
    {hash : Nat} (hdvd : s.nodes.length ∣ U32)
    (hmax : 0 ≤ s.max_distance_to_initial_bucket) :
    s.get_location key hash = get_location_spec s key hash := by
  unfold NodeStorage.get_location get_location_spec
  rw [if_neg (by omega), get_location_loop_eq_spec hdvd,
    List.range_eq_range']

/-- Witness for C4: the fresh 16-slot table. -/
theorem C4_get_location_spec_witness :
    (⟨List.replicate 16 Node.new, 0, 0⟩ : NodeStorage Nat Nat).get_location
        3 3 =
      get_location_spec (⟨List.replicate 16 Node.new, 0, 0⟩ :
        NodeStorage Nat Nat) 3 3 :=
  C4_get_location_spec
    (by rw [List.length_replicate]; exact sixteen_dvd_U32) (le_refl 0)

/-- **C5**: `remove_from_location(index)` on an occupied slot decrements the
live count, performs exactly the claimed backward-shift deletion
(`backward_shift`: stop on an empty or displacement-0 next slot, emptying the
current slot; otherwise pull the next payload back one slot, decrementing its
displacement, and advance), and returns the removed value. -/
theorem C5_backward_shift [DecidableEq K] {f : K → Nat} {s : NodeStorage K V}
    (inv : SInv f s) {loc : Nat} (hloc : loc < s.capacity)
    (hocc : Occ (nodeAt s.nodes loc)) {k0 : K} {v0 : V}
    (hdk : (nodeAt s.nodes loc).key = some k0)
    (hdv : (nodeAt s.nodes loc).value = some v0) :
    ∃ ns2,
      backward_shift (nodeAt s.nodes loc).hash (s.capacity + 1) s.nodes loc =
        some ns2 ∧
      s.remove_from_location loc =
        .ok (v0, ⟨ns2, s.max_distance_to_initial_bucket,
          s.number_of_items - 1⟩) := by
  have hcap2 : 2 ≤ s.capacity := by
    have h1 := countOcc_pos_of_occ (by rw [show s.nodes.length = s.capacity from rfl]; exact hloc) hocc
    have h2 := inv.hcount
    have h3 := inv.hspace
    omega
  have hset : s.nodes.set loc (nodeAt s.nodes loc) = s.nodes :=
    set_nodeAt_self hloc
  have hshift := remove_loop_eq_shift (s.capacity + 1) s.nodes loc
    (nodeAt s.nodes loc) v0 inv.tbl.hdvd hcap2 hloc hocc
    (by rw [hdk]; rfl) hdv
  rw [hset] at hshift
  obtain ⟨s2, heq, _, _, _, _, _⟩ :=
    remove_from_location_ok inv hloc hocc hdk hdv
  cases hbs : backward_shift (nodeAt s.nodes loc).hash (s.capacity + 1)
      s.nodes loc with
  | none =>
    exfalso
    rw [hbs] at hshift
    unfold NodeStorage.remove_from_location at heq
    rw [hshift] at heq
    cases heq
  | some ns2 =>
    rw [hbs] at hshift
    refine ⟨ns2, rfl, ?_⟩
    unfold NodeStorage.remove_from_location
    rw [hshift]

/-- Witness for C5: removing the single entry of a concrete 4-slot table. -/
theorem C5_backward_shift_witness :
    ∃ ns2,
      backward_shift
          (nodeAt (⟨[Node.new_with 0 7 0, Node.new, Node.new, Node.new], 0,
            1⟩ : NodeStorage Nat Nat).nodes 0).hash
          ((⟨[Node.new_with 0 7 0, Node.new, Node.new, Node.new], 0, 1⟩ :
            NodeStorage Nat Nat).capacity + 1)
          (⟨[Node.new_with 0 7 0, Node.new, Node.new, Node.new], 0, 1⟩ :
            NodeStorage Nat Nat).nodes 0 = some ns2 ∧
      (⟨[Node.new_with 0 7 0, Node.new, Node.new, Node.new], 0, 1⟩ :
        NodeStorage Nat Nat).remove_from_location 0 =
        .ok (7, ⟨ns2,
          (⟨[Node.new_with 0 7 0, Node.new, Node.new, Node.new], 0, 1⟩ :
            NodeStorage Nat Nat).max_distance_to_initial_bucket,
          (⟨[Node.new_with 0 7 0, Node.new, Node.new, Node.new], 0, 1⟩ :
            NodeStorage Nat Nat).number_of_items - 1⟩) := by
  refine C5_backward_shift (f := fun n => n) ?_ (by decide) (by decide)
    (by rfl) (by rfl)
  refine ⟨⟨rfl, ⟨1073741824, by decide⟩, by decide, ?_, ?_⟩, by decide,
    by decide⟩
  · intro i hi
    have hi4 : i < 4 := hi
    clear hi
    interval_cases i
    · intro _
      refine ⟨⟨0, rfl, by decide⟩, by decide, by decide, by decide,
        by decide, ?_⟩
      intro hd
      exact absurd hd (by decide)
    · intro hoc
      exact absurd hoc (by decide)
    · intro hoc
      exact absurd hoc (by decide)
    · intro hoc
      exact absurd hoc (by decide)
  · intro i hi j hj k hki hkj
    have hi4 : i < 4 := hi
    have hj4 : j < 4 := hj
    clear hi hj
    interval_cases i <;> interval_cases j <;>
      first
        | rfl
        | exact Option.noConfusion hki
        | exact Option.noConfusion hkj

/-- **C6**: on an invariant map, every occupied slot satisfies the position
identity (walking back `displacement` steps from the actual index reaches the
ideal bucket: `(hash + displacement) mod capacity = index`) and is dominated
by the running maximum displacement; each operation — insert, remove, the
entry-based mutations and resize — preserves the invariant, so both facts
hold after every operation; `insert_new` only ever moves the running maximum
upward, and deletion leaves it exactly unchanged (it is never recomputed
downward). -/
theorem C6_invariants [DecidableEq K] {m : HashMap K V} (inv : MapInv m) :
    (∀ i, i < m.nodes.capacity → Occ (nodeAt m.nodes.nodes i) →
      ((nodeAt m.nodes.nodes i).hash + distN (nodeAt m.nodes.nodes i)) %
          m.nodes.capacity = i ∧
      (nodeAt m.nodes.nodes i).get_distance ≤
        m.nodes.max_distance_to_initial_bucket) ∧
    (∀ (k : K) (v : V), m.nodes.capacity < U32 →
      ∃ m2 loc, m.insert k v = .ok (m2, loc) ∧ MapInv m2) ∧
    (∀ k : K, ∃ r m2, m.remove k = .ok (r, m2) ∧ MapInv m2 ∧
      m2.nodes.max_distance_to_initial_bucket =
        m.nodes.max_distance_to_initial_bucket) ∧
    (∀ (loc : Nat) (v : V), loc < m.nodes.capacity →
      Occ (nodeAt m.nodes.nodes loc) →
      ∃ ov m2, m.occupied_entry_insert loc v = .ok (ov, m2) ∧ MapInv m2 ∧
        m2.nodes.max_distance_to_initial_bucket =
          m.nodes.max_distance_to_initial_bucket) ∧
    (∀ loc : Nat, loc < m.nodes.capacity → Occ (nodeAt m.nodes.nodes loc) →
      ∃ v0 m2, m.occupied_entry_remove loc = .ok (v0, m2) ∧ MapInv m2 ∧
        m2.nodes.max_distance_to_initial_bucket =
          m.nodes.max_distance_to_initial_bucket) ∧
    (∀ new_size : Nat, new_size ∣ U32 → m.nodes.capacity ≤ new_size →
      ∃ m2, m.resize new_size = .ok m2 ∧ MapInv m2) ∧
    (∀ (k : K) (v : V), ¬ hasKey m.nodes.nodes k →
      ∃ ns2 maxd2 loc,
        m.nodes.insert_new k v (m.hasher k % U32) =
          .ok (⟨ns2, maxd2, m.nodes.number_of_items + 1⟩, loc) ∧
        m.nodes.max_distance_to_initial_bucket ≤ maxd2) := by
  refine ⟨?_, ?_, ?_, ?_, ?_, ?_, ?_⟩
  · intro i hi hoi
    obtain ⟨_, _, _, hpos, hmb, _⟩ := inv.tbl.hslots i hi hoi
    exact ⟨hpos, hmb⟩
  · intro k v hlt
    by_cases hpres : hasKey m.nodes.nodes k
    · obtain ⟨i, hi, hkr⟩ := hpres
      have hocc := occ_of_key_ref hkr
      obtain ⟨m2, heq, inv2, _⟩ := insert_present_ok (v := v) inv hi hocc
        (by rw [← key_ref_of_occ hocc]; exact hkr)
      exact ⟨m2, i, heq, inv2⟩
    · obtain ⟨m2, loc, heq, inv2, _⟩ := insert_absent_ok inv hpres hlt
      exact ⟨m2, loc, heq, inv2⟩
  · intro k
    by_cases hpres : hasKey m.nodes.nodes k
    · obtain ⟨v0, hv0⟩ := hasKey_exists_value inv.tbl hpres
      obtain ⟨m2, heq, inv2, _, _, hmax2, _⟩ := remove_present_ok inv hv0
      exact ⟨some v0, m2, heq, inv2, hmax2⟩
    · exact ⟨none, m, remove_absent_ok hpres, inv, rfl⟩
  · intro loc v hloc hocc
    obtain ⟨ov, m2, heq, inv2, hmax2, _⟩ :=
      occupied_entry_insert_inv inv hloc hocc v
    exact ⟨ov, m2, heq, inv2, hmax2⟩
  · intro loc hloc hocc
    obtain ⟨v0, m2, heq, inv2, hmax2, _⟩ :=
      occupied_entry_remove_inv inv hloc hocc
    exact ⟨v0, m2, heq, inv2, hmax2⟩
  · intro new_size hdvd hge
    obtain ⟨m2, heq, inv2, _⟩ := resize_ok inv hdvd hge
    exact ⟨m2, heq, inv2⟩
  · intro k v habs
    obtain ⟨ns2, maxd2, loc, heq, _, _, _, hmono, _⟩ :=
      insert_new_ok (v := v) inv habs
    exact ⟨ns2, maxd2, loc, heq, hmono⟩

/-- Witness for C6: the fresh capacity-16 map. -/
theorem C6_invariants_witness :
    (∀ i, i < (⟨⟨List.replicate 16 Node.new, 0, 0⟩, fun n => n⟩ :
        HashMap Nat Nat).nodes.capacity →
      Occ (nodeAt (⟨⟨List.replicate 16 Node.new, 0, 0⟩, fun n => n⟩ :
        HashMap Nat Nat).nodes.nodes i) →
      ((nodeAt (⟨⟨List.replicate 16 Node.new, 0, 0⟩, fun n => n⟩ :
          HashMap Nat Nat).nodes.nodes i).hash +
          distN (nodeAt (⟨⟨List.replicate 16 Node.new, 0, 0⟩, fun n => n⟩ :
            HashMap Nat Nat).nodes.nodes i)) %
          (⟨⟨List.replicate 16 Node.new, 0, 0⟩, fun n => n⟩ :
            HashMap Nat Nat).nodes.capacity = i ∧
      (nodeAt (⟨⟨List.replicate 16 Node.new, 0, 0⟩, fun n => n⟩ :
        HashMap Nat Nat).nodes.nodes i).get_distance ≤
        (⟨⟨List.replicate 16 Node.new, 0, 0⟩, fun n => n⟩ :
          HashMap Nat Nat).nodes.max_distance_to_initial_bucket) ∧
    (∀ (k v : Nat), (⟨⟨List.replicate 16 Node.new, 0, 0⟩, fun n => n⟩ :
        HashMap Nat Nat).nodes.capacity < U32 →
      ∃ m2 loc, (⟨⟨List.replicate 16 Node.new, 0, 0⟩, fun n => n⟩ :
        HashMap Nat Nat).insert k v = .ok (m2, loc) ∧ MapInv m2) ∧
    (∀ k : Nat, ∃ r m2,
      (⟨⟨List.replicate 16 Node.new, 0, 0⟩, fun n => n⟩ :
        HashMap Nat Nat).remove k = .ok (r, m2) ∧ MapInv m2 ∧
      m2.nodes.max_distance_to_initial_bucket =
        (⟨⟨List.replicate 16 Node.new, 0, 0⟩, fun n => n⟩ :
          HashMap Nat Nat).nodes.max_distance_to_initial_bucket) ∧
    (∀ (loc v : Nat), loc < (⟨⟨List.replicate 16 Node.new, 0, 0⟩,
        fun n => n⟩ : HashMap Nat Nat).nodes.capacity →
      Occ (nodeAt (⟨⟨List.replicate 16 Node.new, 0, 0⟩, fun n => n⟩ :
        HashMap Nat Nat).nodes.nodes loc) →
      ∃ ov m2, (⟨⟨List.replicate 16 Node.new, 0, 0⟩, fun n => n⟩ :
        HashMap Nat Nat).occupied_entry_insert loc v = .ok (ov, m2) ∧
        MapInv m2 ∧
        m2.nodes.max_distance_to_initial_bucket =
          (⟨⟨List.replicate 16 Node.new, 0, 0⟩, fun n => n⟩ :
            HashMap Nat Nat).nodes.max_distance_to_initial_bucket) ∧
    (∀ loc : Nat, loc < (⟨⟨List.replicate 16 Node.new, 0, 0⟩, fun n => n⟩ :
        HashMap Nat Nat).nodes.capacity →
      Occ (nodeAt (⟨⟨List.replicate 16 Node.new, 0, 0⟩, fun n => n⟩ :
        HashMap Nat Nat).nodes.nodes loc) →
      ∃ v0 m2, (⟨⟨List.replicate 16 Node.new, 0, 0⟩, fun n => n⟩ :
        HashMap Nat Nat).occupied_entry_remove loc = .ok (v0, m2) ∧
        MapInv m2 ∧
        m2.nodes.max_distance_to_initial_bucket =
          (⟨⟨List.replicate 16 Node.new, 0, 0⟩, fun n => n⟩ :
            HashMap Nat Nat).nodes.max_distance_to_initial_bucket) ∧
    (∀ new_size : Nat, new_size ∣ U32 →
      (⟨⟨List.replicate 16 Node.new, 0, 0⟩, fun n => n⟩ :
        HashMap Nat Nat).nodes.capacity ≤ new_size →
      ∃ m2, (⟨⟨List.replicate 16 Node.new, 0, 0⟩, fun n => n⟩ :
        HashMap Nat Nat).resize new_size = .ok m2 ∧ MapInv m2) ∧
    (∀ (k v : Nat), ¬ hasKey (⟨⟨List.replicate 16 Node.new, 0, 0⟩,
        fun n => n⟩ : HashMap Nat Nat).nodes.nodes k →
      ∃ ns2 maxd2 loc,
        (⟨⟨List.replicate 16 Node.new, 0, 0⟩, fun n => n⟩ :
          HashMap Nat Nat).nodes.insert_new k v
            ((fun n : Nat => n) k % U32) =
          .ok (⟨ns2, maxd2,
            (⟨⟨List.replicate 16 Node.new, 0, 0⟩, fun n => n⟩ :
              HashMap Nat Nat).nodes.number_of_items + 1⟩, loc) ∧
        (⟨⟨List.replicate 16 Node.new, 0, 0⟩, fun n => n⟩ :
          HashMap Nat Nat).nodes.max_distance_to_initial_bucket ≤ maxd2) :=
  C6_invariants
    (show MapInv (⟨⟨List.replicate 16 Node.new, 0, 0⟩, fun n => n⟩ :
      HashMap Nat Nat) from fresh_SInv sixteen_dvd_U32)

/-- **C7** (corrected): `resize(new_capacity)` aborts fatally when shrinking;
it is a no-op when the capacity is unchanged; but for a larger request it
first demands a power of two — a larger non-power-of-two request is also a
fatal error, not a storage replacement; only a larger power-of-two request
(dividing `2^32`) replaces the storage with one of the requested capacity. -/
theorem C7_resize [DecidableEq K] {m : HashMap K V} (inv : MapInv m)
    (new_size : Nat) :
    (new_size < m.nodes.capacity →
      m.resize new_size =
        .error "Can only increase the size of a hash map") ∧
    (new_size = m.nodes.capacity → m.resize new_size = .ok m) ∧
    (m.nodes.capacity < new_size → is_power_of_two new_size = false →
      m.resize new_size = .error "Capacity must be a power of 2") ∧
    (m.nodes.capacity ≤ new_size → new_size ∣ U32 →
      ∃ m2, m.resize new_size = .ok m2 ∧ m2.nodes.capacity = new_size) := by
  refine ⟨?_, ?_, ?_, ?_⟩
  · intro h
    unfold HashMap.resize
    rw [if_pos h]
  · intro h
    unfold HashMap.resize
    rw [if_neg (by omega), if_pos h]
  · intro hgt hpow
    have hws : NodeStorage.with_size new_size =
        (.error "Capacity must be a power of 2" :
          Except String (NodeStorage K V)) := by
      unfold NodeStorage.with_size
      rw [if_neg (by rw [hpow]; exact Bool.false_ne_true)]
    have hrt : m.nodes.resized_to new_size =
        .error "Capacity must be a power of 2" := by
      unfold NodeStorage.resized_to
      rw [hws]
      rfl
    unfold HashMap.resize
    rw [if_neg (by omega), if_neg (by omega)]
    show (m.nodes.resized_to new_size).bind _ = _
    rw [hrt]
    rfl
  · intro hge hdvd
    obtain ⟨m2, heq, _, _, hcap, _⟩ := resize_ok inv hdvd hge
    exact ⟨m2, heq, hcap⟩

/-- Witness for C7: resizing the fresh capacity-16 map. -/
theorem C7_resize_witness :
    ((8 : Nat) < (⟨⟨List.replicate 16 Node.new, 0, 0⟩, fun n => n⟩ :
        HashMap Nat Nat).nodes.capacity →
      (⟨⟨List.replicate 16 Node.new, 0, 0⟩, fun n => n⟩ :
        HashMap Nat Nat).resize 8 =
        .error "Can only increase the size of a hash map") ∧
    ((8 : Nat) = (⟨⟨List.replicate 16 Node.new, 0, 0⟩, fun n => n⟩ :
        HashMap Nat Nat).nodes.capacity →
      (⟨⟨List.replicate 16 Node.new, 0, 0⟩, fun n => n⟩ :
        HashMap Nat Nat).resize 8 =
        .ok (⟨⟨List.replicate 16 Node.new, 0, 0⟩, fun n => n⟩ :
          HashMap Nat Nat)) ∧
    ((⟨⟨List.replicate 16 Node.new, 0, 0⟩, fun n => n⟩ :
        HashMap Nat Nat).nodes.capacity < 8 → is_power_of_two 8 = false →
      (⟨⟨List.replicate 16 Node.new, 0, 0⟩, fun n => n⟩ :
        HashMap Nat Nat).resize 8 =
        .error "Capacity must be a power of 2") ∧
    ((⟨⟨List.replicate 16 Node.new, 0, 0⟩, fun n => n⟩ :
        HashMap Nat Nat).nodes.capacity ≤ 8 → (8 : Nat) ∣ U32 →
      ∃ m2, (⟨⟨List.replicate 16 Node.new, 0, 0⟩, fun n => n⟩ :
        HashMap Nat Nat).resize 8 = .ok m2 ∧ m2.nodes.capacity = 8) :=
  C7_resize
    (show MapInv (⟨⟨List.replicate 16 Node.new, 0, 0⟩, fun n => n⟩ :
      HashMap Nat Nat) from fresh_SInv sixteen_dvd_U32) 8

/-- Counterexample for C7 as stated: requesting capacity 17 (larger than the
current 16) does not replace the storage with one of capacity 17 — it is a
fatal error, because 17 is not a power of two. -/
theorem C7_counterexample :
    (⟨⟨List.replicate 16 Node.new, 0, 0⟩, fun n => n⟩ :
        HashMap Nat Nat).resize 17 =
      .error "Capacity must be a power of 2" ∧
    (⟨⟨List.replicate 16 Node.new, 0, 0⟩, fun n => n⟩ :
        HashMap Nat Nat).nodes.capacity < 17 :=
  ⟨rfl, by decide⟩

/-- **C8**: growth preserves contents — doubling the capacity (the resize
performed by the load-factor trigger) keeps `len()` unchanged and every key
queries to exactly its pre-growth value. -/
theorem C8_growth_preserves [DecidableEq K] {m : HashMap K V}
    (inv : MapInv m) (hdvd : m.nodes.capacity * 2 ∣ U32) :
    ∃ m2, m.resize (m.nodes.capacity * 2) = .ok m2 ∧
      m2.nodes.capacity = m.nodes.capacity * 2 ∧
      m2.len = m.len ∧
      (∀ k : K, m2.get k = m.get k) := by
  obtain ⟨m2, heq, inv2, _, hcap, hlen, hiff⟩ :=
    resize_ok inv hdvd (by omega)
  refine ⟨m2, heq, hcap, hlen, ?_⟩
  intro k
  cases hg : m.get k with
  | some v =>
    exact (get_eq_some_iff inv2).2 ((hiff k v).2 ((get_eq_some_iff inv).1 hg))
  | none =>
    refine (get_eq_none_iff inv2).2 ?_
    intro hk
    obtain ⟨v, hv⟩ := hasKey_exists_value inv2.tbl hk
    exact ((get_eq_none_iff inv).1 hg) (hasKey_of_holdsKV ((hiff k v).1 hv))

/-- Witness for C8: doubling the fresh capacity-16 map to 32. -/
theorem C8_growth_preserves_witness :
    ∃ m2, (⟨⟨List.replicate 16 Node.new, 0, 0⟩, fun n => n⟩ :
        HashMap Nat Nat).resize
        ((⟨⟨List.replicate 16 Node.new, 0, 0⟩, fun n => n⟩ :
          HashMap Nat Nat).nodes.capacity * 2) = .ok m2 ∧
      m2.nodes.capacity =
        (⟨⟨List.replicate 16 Node.new, 0, 0⟩, fun n => n⟩ :
          HashMap Nat Nat).nodes.capacity * 2 ∧
      m2.len = (⟨⟨List.replicate 16 Node.new, 0, 0⟩, fun n => n⟩ :
        HashMap Nat Nat).len ∧
      (∀ k : Nat, m2.get k =
        (⟨⟨List.replicate 16 Node.new, 0, 0⟩, fun n => n⟩ :
          HashMap Nat Nat).get k) :=
  C8_growth_preserves
    (show MapInv (⟨⟨List.replicate 16 Node.new, 0, 0⟩, fun n => n⟩ :
      HashMap Nat Nat) from fresh_SInv sixteen_dvd_U32)
    (by show (List.replicate 16 (Node.new : Node Nat Nat)).length * 2 ∣ U32
        rw [List.length_replicate]
        exact ⟨134217728, by decide⟩)

/-- **C9**: `OccupiedEntry::insert(value)` returns the previous value and
replaces only the stored value of the entry's slot: the slot's key, cached
hash and displacement, the map's length and running maximum and every other
slot are untouched.  By contrast, the `HashMap::insert` path for a present
key goes through `Node::replace`, which overwrites the stored key with the
newly supplied key as well. -/
theorem C9_entry_insert {m : HashMap K V} {loc : Nat}
    (hloc : loc < m.nodes.nodes.length)
    (hocc : Occ (nodeAt m.nodes.nodes loc)) {ov : V}
    (hov : (nodeAt m.nodes.nodes loc).value = some ov) (v : V) :
    ∃ m2, m.occupied_entry_insert loc v = .ok (ov, m2) ∧
      m2.hasher = m.hasher ∧
      m2.len = m.len ∧
      m2.nodes.max_distance_to_initial_bucket =
        m.nodes.max_distance_to_initial_bucket ∧
      (nodeAt m2.nodes.nodes loc).key = (nodeAt m.nodes.nodes loc).key ∧
      (nodeAt m2.nodes.nodes loc).hash = (nodeAt m.nodes.nodes loc).hash ∧
      (nodeAt m2.nodes.nodes loc).get_distance =
        (nodeAt m.nodes.nodes loc).get_distance ∧
      (nodeAt m2.nodes.nodes loc).value = some v ∧
      (∀ j, j ≠ loc → nodeAt m2.nodes.nodes j = nodeAt m.nodes.nodes j) ∧
      (∀ (knew : K) (vnew : V) (k1 : K) (v1 : V),
        (nodeAt m.nodes.nodes loc).key = some k1 →
        (nodeAt m.nodes.nodes loc).value = some v1 →
        (nodeAt m.nodes.nodes loc).replace knew vnew =
          .ok ((k1, v1), { nodeAt m.nodes.nodes loc with
            key := some knew, value := some vnew })) := by
  have hAt : nodeAt
      (m.nodes.nodes.set loc
        { nodeAt m.nodes.nodes loc with value := some v }) loc =
      { nodeAt m.nodes.nodes loc with value := some v } :=
    nodeAt_set_self hloc
  refine ⟨_, occupied_entry_insert_ok hloc hocc hov v, rfl, rfl, rfl,
    ?_, ?_, ?_, ?_, ?_, ?_⟩
  · rw [hAt]
  · rw [hAt]
  · rw [hAt]
    rfl
  · rw [hAt]
  · intro j hj
    exact nodeAt_set_ne (fun hc => hj hc.symm)
  · intro knew vnew k1 v1 hk1 hv1
    unfold Node.replace
    rw [if_pos (Occ_iff.1 hocc), hk1, hv1]

/-- Witness for C9: replacing the value of the single entry of a concrete
table. -/
theorem C9_entry_insert_witness :
    ∃ m2, (⟨⟨[Node.new_with 0 7 0, Node.new, Node.new, Node.new], 0, 1⟩,
        fun n => n⟩ : HashMap Nat Nat).occupied_entry_insert 0 9 =
        .ok (7, m2) ∧
      m2.hasher = (⟨⟨[Node.new_with 0 7 0, Node.new, Node.new, Node.new], 0,
        1⟩, fun n => n⟩ : HashMap Nat Nat).hasher ∧
      m2.len = (⟨⟨[Node.new_with 0 7 0, Node.new, Node.new, Node.new], 0,
        1⟩, fun n => n⟩ : HashMap Nat Nat).len ∧
      m2.nodes.max_distance_to_initial_bucket =
        (⟨⟨[Node.new_with 0 7 0, Node.new, Node.new, Node.new], 0, 1⟩,
          fun n => n⟩ : HashMap Nat Nat).nodes.max_distance_to_initial_bucket ∧
      (nodeAt m2.nodes.nodes 0).key =
        (nodeAt (⟨⟨[Node.new_with 0 7 0, Node.new, Node.new, Node.new], 0,
          1⟩, fun n => n⟩ : HashMap Nat Nat).nodes.nodes 0).key ∧
      (nodeAt m2.nodes.nodes 0).hash =
        (nodeAt (⟨⟨[Node.new_with 0 7 0, Node.new, Node.new, Node.new], 0,
          1⟩, fun n => n⟩ : HashMap Nat Nat).nodes.nodes 0).hash ∧
      (nodeAt m2.nodes.nodes 0).get_distance =
        (nodeAt (⟨⟨[Node.new_with 0 7 0, Node.new, Node.new, Node.new], 0,
          1⟩, fun n => n⟩ : HashMap Nat Nat).nodes.nodes 0).get_distance ∧
      (nodeAt m2.nodes.nodes 0).value = some 9 ∧
      (∀ j, j ≠ 0 → nodeAt m2.nodes.nodes j =
        nodeAt (⟨⟨[Node.new_with 0 7 0, Node.new, Node.new, Node.new], 0,
          1⟩, fun n => n⟩ : HashMap Nat Nat).nodes.nodes j) ∧
      (∀ (knew vnew k1 v1 : Nat),
        (nodeAt (⟨⟨[Node.new_with 0 7 0, Node.new, Node.new, Node.new], 0,
          1⟩, fun n => n⟩ : HashMap Nat Nat).nodes.nodes 0).key = some k1 →
        (nodeAt (⟨⟨[Node.new_with 0 7 0, Node.new, Node.new, Node.new], 0,
          1⟩, fun n => n⟩ : HashMap Nat Nat).nodes.nodes 0).value = some v1 →
        (nodeAt (⟨⟨[Node.new_with 0 7 0, Node.new, Node.new, Node.new], 0,
          1⟩, fun n => n⟩ : HashMap Nat Nat).nodes.nodes 0).replace
            knew vnew =
          .ok ((k1, v1),
            { nodeAt (⟨⟨[Node.new_with 0 7 0, Node.new, Node.new,
                Node.new], 0, 1⟩, fun n => n⟩ :
                HashMap Nat Nat).nodes.nodes 0 with
              key := some knew, value := some vnew })) :=
  C9_entry_insert (by decide) (by decide) (by rfl) 9

/-- **C10**: inside the backward-shift walk of `remove_from_location` the
fatal below-zero decrement of `Node::decrement_distance` is unreachable —
the loop only moves (and decrements) a next slot already checked to be
occupied with displacement strictly greater than 0 — so neither the walk nor
any `HashMap::remove` ever produces that panic message. -/
theorem C10_no_decrement_panic [DecidableEq K] :
    (∀ (fuel : Nat) (nodes : List (Node K V)) (cur : Nat),
      NodeStorage.remove_loop fuel nodes cur ≠
        .error "Cannot decrement distance to below 0") ∧
    (∀ (m : HashMap K V) (k : K),
      m.remove k ≠ .error "Cannot decrement distance to below 0") := by
  refine ⟨remove_loop_no_decrement_error, ?_⟩
  intro m k he
  unfold HashMap.remove at he
  cases hg : m.nodes.get_location k (m.hash k) with
  | none =>
    simp only [hg] at he
    exact Except.noConfusion he
  | some loc =>
    simp only [hg] at he
    unfold NodeStorage.remove_from_location at he
    cases hr : NodeStorage.remove_loop (m.nodes.capacity + 1)
        m.nodes.nodes loc with
    | ok p =>
      obtain ⟨v2, s2⟩ := p
      rw [hr] at he
      cases he
    | error e =>
      rw [hr] at he
      have h3 : (Except.error e : Except String (Option V × HashMap K V)) =
          .error "Cannot decrement distance to below 0" := he
      have h4 := Except.error.inj h3
      exact remove_loop_no_decrement_error (m.nodes.capacity + 1)
        m.nodes.nodes loc (by rw [hr, h4])

/-- Witness for C10: the walk and `remove` on a concrete map. -/
theorem C10_no_decrement_panic_witness :
    (∀ (fuel : Nat) (nodes : List (Node Nat Nat)) (cur : Nat),
      NodeStorage.remove_loop fuel nodes cur ≠
        .error "Cannot decrement distance to below 0") ∧
    (∀ (m : HashMap Nat Nat) (k : Nat),
      m.remove k ≠ .error "Cannot decrement distance to below 0") :=
  C10_no_decrement_panic

end Claims

end Agb
